import Mathlib

/-!
# WhiteDB `Db/dbhash.c`: hash operations for strings and gint keys

A shallow embedding of `dbhash.c` and a verification of its contracts.

Conventions of the embedding:

* `gint` is a 64-bit signed machine word, represented by `Int`; `char` is signed,
  the byte order is little-endian (x86-64 Linux, LP64: `unsigned long` and `size_t`
  have 64 bits, `int` has 32).  Arithmetic on offsets into the segment does not
  overflow.
* C memory is represented by total functions from addresses (indices) to values;
  writes are `Function.update`.  A bucket pointer is the pair of its pool and its
  index in the pool, so that pointer equality is equality of pairs.
* Bounded loops are structural recursions on the number of iterations.  The two
  loops over the directory are given by their effect on every slot; the loops as
  written are `grow_copy_loop` and `split_scan_loop`, and `grow_copy_loop_eq` and
  `split_scan_loop_eq` prove the agreement.  Loops without a bound in the code (the
  split loop of `wg_ginthash_addkey`, the chain walks of the string hash) take a bound
  on the number of loop tests and return `none` when it is exhausted.
* In `grow_ginthash` and the functions built on it, `malloc` and `realloc` succeed.
  The functions `grow_ginthash_alloc`, `ginthash_splitbucket_alloc`,
  `addkey_loop_alloc` and `wg_ginthash_addkey_alloc` take the outcomes of the
  allocations as an argument and have the failure returns of `grow_ginthash`; when
  every allocation succeeds they are the functions without the argument
  (`wg_ginthash_addkey_alloc_ok`).  The content of fresh bucket memory is an argument
  of `wg_ginthash_init`.
* The `CHECK` paranoia branches of `ginthash_newbucket` and `add_to_bucket` are
  compiled in; where they do not fire, the code is the same without them.
* The macros and functions of `dbdata.h` are parameters (`dbdata`).
* The calls of `ginthash_newbucket` made by `wg_ginthash_addkey` are observed through
  `addkey_newbucket_calls`, which follows the same control flow and lists the tables
  passed at the call sites, in the order of the calls.
-/

namespace Dbhash

/-! ## Machine integers -/

/-- Wrap an integer to the range of a signed 64-bit `gint`. -/
def wrap_gint (x : Int) : Int := (x + 2 ^ 63) % 2 ^ 64 - 2 ^ 63

/-- Wrap an integer to the range of a signed 32-bit `int`. -/
def wrap_int (x : Int) : Int := (x + 2 ^ 31) % 2 ^ 32 - 2 ^ 31

/-- Conversion of a `gint` to the unsigned 64-bit `size_t` / `unsigned long`. -/
def to_size_t (x : Int) : Nat := (x % 2 ^ 64).toNat

/-- Value of a byte (0..255) read through a `char *`, `char` being signed. -/
def signed_char (b : Int) : Int := if b % 256 < 128 then b % 256 else b % 256 - 256

/-- Number of bytes of a `gint`: `sizeof(gint)`. -/
def sizeof_gint : Nat := 8

/-! ## Local-memory extendible gint hash: data -/

/-- Bucket capacity: `#define GINTHASH_BUCKETCAP 3`. -/
def GINTHASH_BUCKETCAP : Nat := 3

/-- Maximum level: `#define GINTHASH_MAXLEVEL 24`. -/
def GINTHASH_MAXLEVEL : Nat := 24

/-- The struct `ginthash_bucket`: local level, fill, and the key and value arrays
(`GINTHASH_BUCKETCAP + 1` slots each, addressed by index). -/
structure ginthash_bucket where
  level : Nat
  fill : Nat
  key : Nat → Int
  value : Nat → Int

/-- A `ginthash_bucket *`: the address `&buckets[pool][idx]`, as `(pool, idx)`. -/
abbrev bucket_ptr := Nat × Nat

/-- The struct `ext_ginthash`.  `directory` is the pointer array (`none` is `NULL`),
`buckets` is the storage of all bucket pools, addressed by bucket pointer. -/
structure ext_ginthash where
  level : Nat
  directory : Nat → Option bucket_ptr
  buckets : bucket_ptr → ginthash_bucket
  nextbucket : Nat → Nat
  free_pool : Nat

/-- A bucket of zeroed memory. -/
def zero_bucket : ginthash_bucket :=
  { level := 0, fill := 0, key := fun _ => 0, value := fun _ => 0 }

/-! ## Local-memory extendible gint hash: operations -/

/-- Byte `i` of the object representation of a `gint`, read as `((char *) &val)[i]`. -/
def gint_byte (val : Int) (i : Nat) : Int := signed_char (val / 256 ^ i)

/-- One round of the sdbm fold on a `gint` accumulator:
`c + (hash << 6) + (hash << 16) - hash`. -/
def rehash_step (hash c : Int) : Int :=
  wrap_gint (c + hash * 2 ^ 6 + hash * 2 ^ 16 - hash)

/-- The loop of `rehash_gint`: `n` iterations starting at byte `i`. -/
def rehash_loop (val : Int) : Nat → Nat → Int → Int
  | _, 0, hash => hash
  | i, n + 1, hash => rehash_loop val (i + 1) n (rehash_step hash (gint_byte val i))

/-- The function `rehash_gint`: scramble a gint value. -/
def rehash_gint (val : Int) : Int := rehash_loop val 0 sizeof_gint 0

/-- The macro `GINTHASH_SCRAMBLE(v)`, converted to `size_t` as it is at every use. -/
def GINTHASH_SCRAMBLE (v : Int) : Nat := to_size_t (rehash_gint v)

/-- The function `add_to_bucket` on the bucket at `bucket`: returns the heap after
the call and the returned fill. -/
def add_to_bucket (mem : bucket_ptr → ginthash_bucket) (bucket : bucket_ptr)
    (key value : Int) : (bucket_ptr → ginthash_bucket) × Nat :=
  let b := mem bucket
  if b.fill > GINTHASH_BUCKETCAP then
    (mem, b.fill + 1)
  else
    (Function.update mem bucket
      { b with
        key := Function.update b.key b.fill key
        value := Function.update b.value b.fill value
        fill := b.fill + 1 },
     b.fill + 1)

/-- The shifting loop of `remove_from_bucket`: `n` iterations starting at index `i`,
each doing `key[i] = key[i+1]; value[i] = value[i+1]`. -/
def remove_shift : Nat → Nat → ginthash_bucket → ginthash_bucket
  | _, 0, b => b
  | i, n + 1, b =>
    remove_shift (i + 1) n
      { b with
        key := Function.update b.key i (b.key (i + 1))
        value := Function.update b.value i (b.value (i + 1)) }

/-- The function `remove_from_bucket` on the bucket at `bucket`: returns the heap
after the call and the removed value. -/
def remove_from_bucket (mem : bucket_ptr → ginthash_bucket) (bucket : bucket_ptr)
    (idx : Nat) : (bucket_ptr → ginthash_bucket) × Int :=
  let b := mem bucket
  let val := b.value idx
  let b1 := remove_shift idx (GINTHASH_BUCKETCAP - idx) b
  (Function.update mem bucket { b1 with fill := b1.fill - 1 }, val)

/-- The pointer-duplicating loop of `grow_ginthash` as written, after `n` iterations:
`directory[nextpool_sz + i] = directory[i]` for `i < n`. -/
def grow_copy_loop (nextpool_sz : Nat) (directory : Nat → Option bucket_ptr) :
    Nat → Nat → Option bucket_ptr
  | 0 => directory
  | n + 1 =>
    let d := grow_copy_loop nextpool_sz directory n
    Function.update d (nextpool_sz + n) (d n)

/-- The effect of the whole pointer-duplicating loop of `grow_ginthash`
(`nextpool_sz` iterations): iteration `i` reads slot `i < nextpool_sz`, which no
iteration writes, and writes slot `nextpool_sz + i`
(see `grow_copy_loop_eq` for the agreement with the loop as written). -/
def grow_copy (nextpool_sz : Nat) (directory : Nat → Option bucket_ptr) :
    Nat → Option bucket_ptr :=
  fun j =>
    if nextpool_sz ≤ j ∧ j < nextpool_sz + nextpool_sz then directory (j - nextpool_sz)
    else directory j

/-- The function `grow_ginthash` when `realloc` and `malloc` return memory: returns the
status (0 or -1) and the table.  The failure returns of the two allocations are in
`grow_ginthash_alloc`. -/
def grow_ginthash (tbl : ext_ginthash) : Int × ext_ginthash :=
  let newlevel := tbl.level + 1
  if newlevel ≥ GINTHASH_MAXLEVEL then
    (-1, tbl)
  else
    let directory :=
      if tbl.level ≠ 0 then
        grow_copy (1 <<< tbl.level) tbl.directory
      else
        Function.update (Function.update tbl.directory 0 none) 1 none
    (0, { tbl with directory := directory, level := newlevel })

/-- The function `ginthash_newbucket`: returns the new bucket (`none` is `NULL`) and
the table. -/
def ginthash_newbucket (tbl : ext_ginthash) : Option bucket_ptr × ext_ginthash :=
  if tbl.free_pool > tbl.level then
    (none, tbl)
  else
    let pool := tbl.free_pool
    let poolsz := if pool = 1 then 2 else 1 <<< (pool - 1)
    let bucket : bucket_ptr := (pool, tbl.nextbucket pool)
    let nextbucket := Function.update tbl.nextbucket pool (tbl.nextbucket pool + 1)
    let buckets := Function.update tbl.buckets bucket { tbl.buckets bucket with fill := 0 }
    let free_pool := if nextbucket pool ≥ poolsz then tbl.free_pool + 1 else tbl.free_pool
    (some bucket,
     { tbl with nextbucket := nextbucket, buckets := buckets, free_pool := free_pool })

/-- The entry-splitting loop of `ginthash_splitbucket`: `n` iterations, for
`i = n-1` down to `0`, relocating the entries whose scrambled key has `msbmask` set. -/
def split_entries (msbmask : Nat) (bucket newbucket : bucket_ptr) :
    Nat → (bucket_ptr → ginthash_bucket) → (bucket_ptr → ginthash_bucket)
  | 0, mem => mem
  | i + 1, mem =>
    let k_i := (mem bucket).key i
    if GINTHASH_SCRAMBLE k_i &&& msbmask ≠ 0 then
      let r := remove_from_bucket mem bucket i
      split_entries msbmask bucket newbucket i (add_to_bucket r.1 newbucket k_i r.2).1
    else
      split_entries msbmask bucket newbucket i mem

/-- The directory-scanning loop of `ginthash_splitbucket` as written, after `n`
iterations (`j < n`): slots that point at `bucket` and have `msbmask` set are
redirected. -/
def split_scan_loop (msbmask : Nat) (bucket newbucket : bucket_ptr)
    (directory : Nat → Option bucket_ptr) : Nat → Nat → Option bucket_ptr
  | 0 => directory
  | j + 1 =>
    let d := split_scan_loop msbmask bucket newbucket directory j
    if d j = some bucket then
      if j &&& msbmask ≠ 0 then Function.update d j (some newbucket) else d
    else d

/-- The effect of the whole directory-scanning loop of `ginthash_splitbucket`
(`dirsize` iterations): iteration `j` reads and writes slot `j` only
(see `split_scan_loop_eq` for the agreement with the loop as written). -/
def split_scan (msbmask : Nat) (bucket newbucket : bucket_ptr)
    (directory : Nat → Option bucket_ptr) (dirsize : Nat) : Nat → Option bucket_ptr :=
  fun j =>
    if j < dirsize ∧ directory j = some bucket ∧ j &&& msbmask ≠ 0 then some newbucket
    else directory j

/-- The part of `ginthash_splitbucket` after the directory has been extended:
raising the local level, creating the new bucket, splitting the entries and updating
the directory. -/
def split_rest (tbl1 : ext_ginthash) (bucket : bucket_ptr) :
    Option bucket_ptr × ext_ginthash :=
  let msbmask := 1 <<< (tbl1.buckets bucket).level
  let tbl2 := { tbl1 with
    buckets := Function.update tbl1.buckets bucket
      { tbl1.buckets bucket with level := (tbl1.buckets bucket).level + 1 } }
  let lowbits := GINTHASH_SCRAMBLE ((tbl2.buckets bucket).key 0) &&& (msbmask - 1)
  match ginthash_newbucket tbl2 with
  | (none, tbl3) => (none, tbl3)
  | (some newbucket, tbl3) =>
    let mem1 := Function.update tbl3.buckets newbucket
      { tbl3.buckets newbucket with level := (tbl3.buckets bucket).level }
    let mem2 := split_entries msbmask bucket newbucket (mem1 bucket).fill mem1
    let directory :=
      if (mem2 bucket).level = tbl3.level then
        Function.update tbl3.directory (msbmask ||| lowbits) (some newbucket)
      else
        split_scan msbmask bucket newbucket tbl3.directory (1 <<< tbl3.level)
    (some newbucket, { tbl3 with buckets := mem2, directory := directory })

/-- The function `ginthash_splitbucket`: returns the new bucket (`none` is `NULL`)
and the table. -/
def ginthash_splitbucket (tbl : ext_ginthash) (bucket : bucket_ptr) :
    Option bucket_ptr × ext_ginthash :=
  let g := if (tbl.buckets bucket).level = tbl.level then grow_ginthash tbl else (0, tbl)
  if g.1 ≠ 0 then (none, g.2) else split_rest g.2 bucket

/-- The function `wg_ginthash_init`: returns the table (`none` is `NULL`).  The
argument `heap` is the content of the memory that `malloc` hands out for the bucket
pools, which is indeterminate in C; the table structure itself is zeroed by `memset`. -/
def wg_ginthash_init (heap : bucket_ptr → ginthash_bucket) : Option ext_ginthash :=
  let tbl : ext_ginthash :=
    { level := 0, directory := fun _ => none, buckets := heap,
      nextbucket := fun _ => 0, free_pool := 0 }
  let g := grow_ginthash tbl
  if g.1 ≠ 0 then none else some { g.2 with free_pool := 1 }

/-- The `while(bucket->fill > GINTHASH_BUCKETCAP)` loop of `wg_ginthash_addkey`, with
a bound on the number of loop tests; `none` when the bound is exhausted. -/
def addkey_loop : Nat → ext_ginthash → bucket_ptr → Option (Int × ext_ginthash)
  | 0, _, _ => none
  | fuel + 1, tbl, bucket =>
    if (tbl.buckets bucket).fill > GINTHASH_BUCKETCAP then
      match ginthash_splitbucket tbl bucket with
      | (none, tbl1) => some (-1, tbl1)
      | (some newb, tbl1) =>
        addkey_loop fuel tbl1
          (if (tbl1.buckets newb).fill > GINTHASH_BUCKETCAP then newb else bucket)
    else
      some (0, tbl)

/-- The function `wg_ginthash_addkey`: returns the status (0 or -1) and the table;
`none` only if the split loop needed more than `GINTHASH_MAXLEVEL` tests. -/
def wg_ginthash_addkey (tbl : ext_ginthash) (key val : Int) :
    Option (Int × ext_ginthash) :=
  let dirsize := 1 <<< tbl.level
  let hash := GINTHASH_SCRAMBLE key &&& (dirsize - 1)
  match tbl.directory hash with
  | none =>
    match ginthash_newbucket tbl with
    | (none, tbl1) => some (-1, tbl1)
    | (some bucket, tbl1) =>
      let mem1 := Function.update tbl1.buckets bucket
        { tbl1.buckets bucket with level := tbl1.level }
      let mem2 := (add_to_bucket mem1 bucket key val).1
      some (0, { tbl1 with
        buckets := mem2
        directory := Function.update tbl1.directory hash (some bucket) })
  | some bucket =>
    addkey_loop GINTHASH_MAXLEVEL
      { tbl with buckets := (add_to_bucket tbl.buckets bucket key val).1 } bucket

/-- The scanning loop of `wg_ginthash_getkey`: `n` iterations starting at index `i`;
returns the value of the first slot whose key matches. -/
def getkey_scan (b : ginthash_bucket) (key : Int) : Nat → Nat → Option Int
  | _, 0 => none
  | i, n + 1 => if b.key i = key then some (b.value i) else getkey_scan b key (i + 1) n

/-- The function `wg_ginthash_getkey`: `val` is the content of `*val` before the
call; returns the status (0 or -1) and the content of `*val` after the call. -/
def wg_ginthash_getkey (tbl : ext_ginthash) (key val : Int) : Int × Int :=
  let dirsize := 1 <<< tbl.level
  let hash := GINTHASH_SCRAMBLE key &&& (dirsize - 1)
  match tbl.directory hash with
  | some bucket =>
    match getkey_scan (tbl.buckets bucket) key 0 (tbl.buckets bucket).fill with
    | some v => (0, v)
    | none => (-1, val)
  | none => (-1, val)

/-! ## Local-memory extendible gint hash: specification vocabulary -/

/-- The valid entries of a bucket, slots `0 .. fill-1`, as key/value pairs in slot
order. -/
def entries (b : ginthash_bucket) : List (Int × Int) :=
  (List.range b.fill).map fun s => (b.key s, b.value s)

/-- The pair `(k, v)` is stored in a valid slot of a bucket that the directory
references. -/
def stored (tbl : ext_ginthash) (k v : Int) : Prop :=
  ∃ i p, i < 2 ^ tbl.level ∧ tbl.directory i = some p ∧ (k, v) ∈ entries (tbl.buckets p)

/-- The bucket pointer `p` has been handed out by `ginthash_newbucket`. -/
def issued (tbl : ext_ginthash) (p : bucket_ptr) : Prop :=
  p.1 < tbl.free_pool ∨ (p.1 = tbl.free_pool ∧ p.2 < tbl.nextbucket tbl.free_pool)

/-- The directory invariant at slot `i` holding bucket `p`: `p` has been issued, its
local level is at most the global level, it is referenced by exactly the slots
congruent to `i` modulo `2^(local level)`, and all its keys hash to that residue. -/
def slot_inv (tbl : ext_ginthash) (i : Nat) (p : bucket_ptr) : Prop :=
  issued tbl p ∧
  (tbl.buckets p).level ≤ tbl.level ∧
  (∀ j, j < 2 ^ tbl.level →
    (tbl.directory j = some p ↔
      j % 2 ^ (tbl.buckets p).level = i % 2 ^ (tbl.buckets p).level)) ∧
  (∀ kv ∈ entries (tbl.buckets p),
    GINTHASH_SCRAMBLE kv.1 % 2 ^ (tbl.buckets p).level = i % 2 ^ (tbl.buckets p).level)

/-- The structural invariant of a table: the level is in range and every directory
slot satisfies `slot_inv`. -/
def tbl_wf (tbl : ext_ginthash) : Prop :=
  1 ≤ tbl.level ∧ tbl.level < GINTHASH_MAXLEVEL ∧
  ∀ i p, i < 2 ^ tbl.level → tbl.directory i = some p → slot_inv tbl i p

/-- Every referenced bucket is within capacity, except possibly `cur`, which may hold
one entry more (the state inside `wg_ginthash_addkey`). -/
def fills_ok (tbl : ext_ginthash) (cur : bucket_ptr) : Prop :=
  ∀ i p, i < 2 ^ tbl.level → tbl.directory i = some p →
    (tbl.buckets p).fill ≤ GINTHASH_BUCKETCAP ∨
      (p = cur ∧ (tbl.buckets p).fill ≤ GINTHASH_BUCKETCAP + 1)

/-- The invariant of a table between public operations. -/
def tbl_inv (tbl : ext_ginthash) : Prop :=
  tbl_wf tbl ∧
  ∀ i p, i < 2 ^ tbl.level → tbl.directory i = some p →
    (tbl.buckets p).fill ≤ GINTHASH_BUCKETCAP

/-- A sequence of `wg_ginthash_addkey` calls that all return 0; `none` as soon as a
call returns something else. -/
def addkeys : ext_ginthash → List (Int × Int) → Option ext_ginthash
  | tbl, [] => some tbl
  | tbl, kv :: kvs =>
    match wg_ginthash_addkey tbl kv.1 kv.2 with
    | some (rc, tbl1) => if rc = 0 then addkeys tbl1 kvs else none
    | none => none

/-- A sequence of `wg_ginthash_addkey` calls on a fresh table, whatever they return:
the list of returned statuses and the final table. -/
def addkeys_any : ext_ginthash → List (Int × Int) → Option (List Int × ext_ginthash)
  | tbl, [] => some ([], tbl)
  | tbl, kv :: kvs =>
    match wg_ginthash_addkey tbl kv.1 kv.2 with
    | some (rc, tbl1) =>
      match addkeys_any tbl1 kvs with
      | some (rcs, tbl2) => some (rc :: rcs, tbl2)
      | none => none
    | none => none

/-! ## String hash: the database segment and the declarations of `dbdata.h` -/

/-- The database segment as `dbhash.c` sees it: the gint cells read by `dbfetch` and
written by `dbstore`, addressed by byte offset (gint accesses are aligned), and the
two fields of `strhash_area_header` that are used. -/
structure db_memsegment where
  cell : Int → Int
  arraystart : Int
  arraylength : Int

/-- The macro `dbfetch(db, offset)`. -/
def dbfetch (db : db_memsegment) (offset : Int) : Int := db.cell offset

/-- The macro `dbstore(db, offset, data)`. -/
def dbstore (db : db_memsegment) (offset data : Int) : db_memsegment :=
  { db with cell := Function.update db.cell offset data }

/-- The `char` at byte address `a` of the segment: byte `a % 8` of the (aligned,
little-endian) gint cell that contains it. -/
def db_char (db : db_memsegment) (a : Int) : Int :=
  gint_byte (db.cell (a - a % sizeof_gint)) (a % sizeof_gint).toNat

/-- A `char *` into the segment at byte address `a`, as the list of the `n` chars
that are read through it. -/
def db_chars (db : db_memsegment) (a : Int) (n : Nat) : List Int :=
  (List.range n).map fun (i : Nat) => db_char db (a + (i : Int))

/-- The macros and functions of `dbdata.h` used by the string hash, which are not
part of `dbhash.c`: they are parameters of the embedding.  A `char *` result is
`none` for `NULL` and otherwise the list of chars at the pointer. -/
structure dbdata where
  decode_longstr_offset : Int → Int
  LONGSTR_META_POS : Int
  LONGSTR_HASHCHAIN_POS : Int
  LONGSTR_EXTRASTR_POS : Int
  LONGSTR_HEADER_GINTS : Int
  LONGSTR_META_LENDIFMASK : Int
  LONGSTR_META_LENDIFSHFT : Nat
  LONGSTR_META_TYPEMASK : Int
  getusedobjectsize : Int → Int
  wg_get_encoded_type : db_memsegment → Int → Int
  wg_decode_str_len : db_memsegment → Int → Int
  wg_decode_str : db_memsegment → Int → Option (List Int)
  wg_decode_str_lang : db_memsegment → Int → Option (List Int)

/-- The C library function `memcmp`, up to the sign of a nonzero result: zero exactly
when the first `n` chars agree. -/
def memcmp (s1 s2 : List Int) (n : Nat) : Int :=
  if s1.take n = s2.take n then 0 else 1

/-- The chars of a C string: those before the first NUL. -/
def c_string (s : List Int) : List Int := s.takeWhile fun c => c ≠ 0

/-- The C library function `strcmp`, up to the sign of a nonzero result: zero exactly
when the two NUL-terminated strings agree. -/
def strcmp (s1 s2 : List Int) : Int :=
  if c_string s1 = c_string s2 then 0 else 1

/-! ## String hash: operations -/

/-- One round of the sdbm fold on the `unsigned long` accumulator:
`c + (hash << 6) + (hash << 16) - hash`, with `c` an `int`. -/
def strhash_step (hash : Nat) (c : Int) : Nat :=
  ((c + (hash : Int) * 2 ^ 6 + (hash : Int) * 2 ^ 16 - (hash : Int)) % 2 ^ 64).toNat

/-- The payload loop of `wg_hash_typedstr`: `for(endp=data+length; data<endp; data++)`
over the chars at `data`, `n` iterations. -/
def strhash_data : List Int → Nat → Nat → Nat
  | _, 0, hash => hash
  | [], _ + 1, hash => hash
  | c :: data, n + 1, hash => strhash_data data n (strhash_step hash c)

/-- The secondary-string loop of `wg_hash_typedstr`: `while ((c = *extrastr++))`. -/
def strhash_extra : List Int → Nat → Nat
  | [], hash => hash
  | c :: extrastr, hash => if c = 0 then hash else strhash_extra extrastr (strhash_step hash c)

/-- The function `wg_hash_typedstr`. -/
def wg_hash_typedstr (db : db_memsegment) (data extrastr : Option (List Int))
    (_type length : Int) : Int :=
  let hash0 : Nat := 0
  let hash1 :=
    match data with
    | some d => strhash_data d length.toNat hash0
    | none => hash0
  let hash2 :=
    match extrastr with
    | some e => strhash_extra e hash1
    | none => hash1
  wrap_int ((hash2 % to_size_t db.arraylength : Nat) : Int)

/-- The function `wg_right_strhash_bucket`.  A `char *` that the code has tested to
be non-`NULL` is dereferenced with `Option.getD`. -/
def wg_right_strhash_bucket (D : dbdata) (db : db_memsegment) (longstr : Int)
    (cstr cextrastr : Option (List Int)) (ctype cstrsize : Int) : Int :=
  let type := D.wg_get_encoded_type db longstr
  if type ≠ ctype then 0
  else
    let strsize := wrap_int (D.wg_decode_str_len db longstr + 1)
    if strsize ≠ cstrsize then 0
    else
      let str := D.wg_decode_str db longstr
      if (cstr = none ∧ str ≠ none) ∨ (cstr ≠ none ∧ str = none) then 0
      else if cstr ≠ none ∧ memcmp (str.getD []) (cstr.getD []) (to_size_t cstrsize) ≠ 0 then 0
      else
        let extrastr := D.wg_decode_str_lang db longstr
        if (cextrastr = none ∧ extrastr ≠ none) ∨ (cextrastr ≠ none ∧ extrastr = none) then 0
        else if cextrastr ≠ none ∧ strcmp (extrastr.getD []) (cextrastr.getD []) ≠ 0 then 0
        else 1

/-- The address of the hash-chain field of the long string `longstr`:
`decode_longstr_offset(longstr) + LONGSTR_HASHCHAIN_POS*sizeof(gint)`. -/
def hashchain_field (D : dbdata) (longstr : Int) : Int :=
  D.decode_longstr_offset longstr + D.LONGSTR_HASHCHAIN_POS * sizeof_gint

/-- The function `wg_find_strhash_bucket`, with a bound on the number of loop tests;
`none` when the bound is exhausted. -/
def wg_find_strhash_bucket (D : dbdata) (db : db_memsegment)
    (data extrastr : Option (List Int)) (type size : Int) : Nat → Int → Option Int
  | 0, _ => none
  | fuel + 1, hashchain =>
    if hashchain = 0 then some 0
    else if wg_right_strhash_bucket D db hashchain data extrastr type size ≠ 0 then
      some hashchain
    else
      wg_find_strhash_bucket D db data extrastr type size fuel
        (dbfetch db (hashchain_field D hashchain))

/-- The secondary string that `wg_remove_from_strhash` decodes from the object:
`fldval=*extrastrptr; if (fldval==0) extrastr=NULL; else extrastr=wg_decode_str(db,fldval)`. -/
def longstr_extrastr (D : dbdata) (db : db_memsegment) (longstr : Int) :
    Option (List Int) :=
  let offset := D.decode_longstr_offset longstr
  let fldval := dbfetch db (offset + D.LONGSTR_EXTRASTR_POS * sizeof_gint)
  if fldval = 0 then none else D.wg_decode_str db fldval

/-- The size that `wg_remove_from_strhash` decodes from the object:
`objsize-(((*(objptr+LONGSTR_META_POS))&LONGSTR_META_LENDIFMASK)>>LONGSTR_META_LENDIFSHFT)`. -/
def longstr_length (D : dbdata) (db : db_memsegment) (longstr : Int) : Int :=
  let offset := D.decode_longstr_offset longstr
  let objsize := D.getusedobjectsize (dbfetch db offset)
  let meta_word := dbfetch db (offset + D.LONGSTR_META_POS * sizeof_gint)
  wrap_gint (objsize -
    (Int.land meta_word D.LONGSTR_META_LENDIFMASK >>> D.LONGSTR_META_LENDIFSHFT))

/-- The payload pointer that `wg_remove_from_strhash` takes in the object:
`((char*)(objptr))+(LONGSTR_HEADER_GINTS*sizeof(gint))`, never `NULL`. -/
def longstr_data (D : dbdata) (db : db_memsegment) (longstr : Int) : Option (List Int) :=
  let offset := D.decode_longstr_offset longstr
  some (db_chars db (offset + D.LONGSTR_HEADER_GINTS * sizeof_gint)
    (longstr_length D db longstr).toNat)

/-- The type that `wg_remove_from_strhash` decodes from the object:
`(*typeptr)&LONGSTR_META_TYPEMASK`. -/
def longstr_type (D : dbdata) (db : db_memsegment) (longstr : Int) : Int :=
  let offset := D.decode_longstr_offset longstr
  Int.land (dbfetch db (offset + D.LONGSTR_META_POS * sizeof_gint)) D.LONGSTR_META_TYPEMASK

/-- The bucket index that `wg_remove_from_strhash` computes for `longstr`:
`wg_hash_typedstr` of the object's own payload, secondary string, type and size. -/
def longstr_hash (D : dbdata) (db : db_memsegment) (longstr : Int) : Int :=
  wg_hash_typedstr db (longstr_data D db longstr) (longstr_extrastr D db longstr)
    (longstr_type D db longstr) (longstr_length D db longstr)

/-- The `while(hashchain!=0)` loop of `wg_remove_from_strhash`, with a bound on the
number of loop tests; `none` when the bound is exhausted. -/
def remove_walk (D : dbdata) (longstr : Int) :
    Nat → db_memsegment → Int → Int → Option (Int × db_memsegment)
  | 0, _, _, _ => none
  | fuel + 1, db, chainoffset, hashchain =>
    if hashchain = 0 then some (-1, db)
    else if hashchain = longstr then
      let nextchain := dbfetch db (hashchain_field D hashchain)
      some (0, dbstore db chainoffset nextchain)
    else
      remove_walk D longstr fuel db (hashchain_field D hashchain)
        (dbfetch db (hashchain_field D hashchain))

/-- The address of the bucket-array slot of `longstr`:
`arraystart + sizeof(gint)*hash`. -/
def strhash_slot (D : dbdata) (db : db_memsegment) (longstr : Int) : Int :=
  db.arraystart + sizeof_gint * longstr_hash D db longstr

/-- The function `wg_remove_from_strhash`: returns the status (0 or -1) and the
segment after the call. -/
def wg_remove_from_strhash (D : dbdata) (fuel : Nat) (db : db_memsegment)
    (longstr : Int) : Option (Int × db_memsegment) :=
  let chainoffset := strhash_slot D db longstr
  let hashchain := dbfetch db chainoffset
  remove_walk D longstr fuel db chainoffset hashchain

/-- The objects on the hash chain that starts at `hashchain`, in order:
`chain D db h l` says the chain is finite, ends in 0, and visits exactly `l`. -/
def chain (D : dbdata) (db : db_memsegment) : Int → List Int → Prop
  | h, [] => h = 0
  | h, x :: l => h ≠ 0 ∧ x = h ∧ chain D db (dbfetch db (hashchain_field D x)) l

/-- The cell that holds the reference to the object following the prefix `l` of a
chain whose head is stored at `chainoffset`: `chainoffset` itself for the empty
prefix, the hash-chain field of the last object of `l` otherwise. -/
def ref_cell (D : dbdata) : Int → List Int → Int
  | chainoffset, [] => chainoffset
  | _, x :: l => ref_cell D (hashchain_field D x) l

/-- Removal of the objects `rs`, one call of `wg_remove_from_strhash` at a time;
`none` unless every call returns 0. -/
def remove_each (D : dbdata) (fuel : Nat) : db_memsegment → List Int → Option db_memsegment
  | db, [] => some db
  | db, r :: rs =>
    match wg_remove_from_strhash D fuel db r with
    | some (rc, db1) => if rc = 0 then remove_each D fuel db1 rs else none
    | none => none

/-! ## Concrete segments and tables used in examples -/

/-- The four conditions of C8 as the claim states them, with the decoded length itself
compared to `cstrsize`. -/
def right_bucket_claimed (D : dbdata) (db : db_memsegment) (longstr : Int)
    (cstr cextrastr : Option (List Int)) (ctype cstrsize : Int) : Prop :=
  D.wg_get_encoded_type db longstr = ctype ∧
  D.wg_decode_str_len db longstr = cstrsize ∧
  ((D.wg_decode_str db longstr = none ∧ cstr = none) ∨
    ∃ s c, D.wg_decode_str db longstr = some s ∧ cstr = some c ∧
      s.take (to_size_t cstrsize) = c.take (to_size_t cstrsize)) ∧
  ((D.wg_decode_str_lang db longstr = none ∧ cextrastr = none) ∨
    ∃ e c, D.wg_decode_str_lang db longstr = some e ∧ cextrastr = some c ∧
      c_string e = c_string c)

/-- A `dbdata` whose long strings all decode to the payload "abc", length 3, type 5, no
secondary string. -/
def dbdata_abc : dbdata :=
  { decode_longstr_offset := fun x => x
    LONGSTR_META_POS := 1
    LONGSTR_HASHCHAIN_POS := 4
    LONGSTR_EXTRASTR_POS := 5
    LONGSTR_HEADER_GINTS := 6
    LONGSTR_META_LENDIFMASK := 0xFF00
    LONGSTR_META_LENDIFSHFT := 8
    LONGSTR_META_TYPEMASK := 0xFF
    getusedobjectsize := fun x => x
    wg_get_encoded_type := fun _ _ => 5
    wg_decode_str_len := fun _ _ => 3
    wg_decode_str := fun _ _ => some [97, 98, 99, 0]
    wg_decode_str_lang := fun _ _ => none }

/-- A `dbdata` with the long-string layout of six header gints (meta word at 1,
hash chain at 4, secondary string at 5), references tagged in the low three bits,
the type decoded from the meta word, and every payload decoded as "a". -/
def dbdata_demo : dbdata :=
  { decode_longstr_offset := fun x => x - x % 8
    LONGSTR_META_POS := 1
    LONGSTR_HASHCHAIN_POS := 4
    LONGSTR_EXTRASTR_POS := 5
    LONGSTR_HEADER_GINTS := 6
    LONGSTR_META_LENDIFMASK := 0xFF00
    LONGSTR_META_LENDIFSHFT := 8
    LONGSTR_META_TYPEMASK := 0xFF
    getusedobjectsize := fun x => x - x % 4
    wg_get_encoded_type := fun db x => Int.land (db.cell (x - x % 8 + 8)) 0xFF
    wg_decode_str_len := fun _ _ => 1
    wg_decode_str := fun _ _ => some [97, 0]
    wg_decode_str_lang := fun _ _ => none }

/-- A segment with a hash array of 7 slots at offset 1024 and two long strings, at
offsets 64 (type 5) and 128 (type 6), both with payload "a" and size 2, chained in
bucket 5: slot 1064 holds 68, the first object links to 132, the second ends the
chain. -/
def db_demo : db_memsegment :=
  { cell := fun a =>
      if a = 64 then 56 else if a = 72 then 13829 else if a = 96 then 132
      else if a = 112 then 97 else if a = 128 then 56 else if a = 136 then 13830
      else if a = 176 then 97 else if a = 1064 then 68 else 0
    arraystart := 1024
    arraylength := 7 }

/-! ## Local-memory extendible gint hash: vocabulary for single steps -/

/-- The value of `poolsz` in `ginthash_newbucket` for the pool `pool`:
`(pool == 1 ? 2 : 1<<(pool-1))`. -/
def ginthash_poolsz (pool : Nat) : Nat := if pool = 1 then 2 else 1 <<< (pool - 1)

/-- The value of `nextpool_sz` in `grow_ginthash`, the number of buckets of the pool
that `malloc(nextpool_sz * sizeof(ginthash_bucket))` allocates for `buckets[newlevel]`. -/
def grow_nextpool_sz (tbl : ext_ginthash) : Nat :=
  if tbl.level ≠ 0 then 1 <<< tbl.level else 2

/-- The number of buckets handed out by `ginthash_newbucket` so far: the sizes of the
pools below `free_pool` (2 for pool 1, `2^(i-1)` for pool `i`) and the buckets taken
from pool `free_pool`. -/
def issued_count (tbl : ext_ginthash) : Nat :=
  (if tbl.free_pool ≤ 1 then 0 else 2 ^ (tbl.free_pool - 1)) + tbl.nextbucket tbl.free_pool

/-- The bucket `p` is referenced by a directory slot. -/
def referenced (tbl : ext_ginthash) (p : bucket_ptr) : Prop :=
  ∃ i, i < 2 ^ tbl.level ∧ tbl.directory i = some p

/-- The scrambled key of an entry has bit `l` set (the test
`GINTHASH_SCRAMBLE(k_i) & msbmask` of `ginthash_splitbucket`, with `msbmask = 1<<l`). -/
def entry_bit (l : Nat) (kv : Int × Int) : Bool :=
  decide (GINTHASH_SCRAMBLE kv.1 &&& 2 ^ l ≠ 0)

/-- The effect of a successful `grow_ginthash` on a table of level at least 1. -/
def grow_rel (t t' : ext_ginthash) : Prop :=
  t'.level = t.level + 1 ∧ t'.level < GINTHASH_MAXLEVEL ∧ t'.buckets = t.buckets ∧
  t'.nextbucket = t.nextbucket ∧ t'.free_pool = t.free_pool ∧
  ∀ j, j < 2 ^ (t.level + 1) → t'.directory j = t.directory (j % 2 ^ t.level)

/-- The effect of a successful `ginthash_newbucket` on the pool bookkeeping. -/
def pool_step (t t' : ext_ginthash) (nb : bucket_ptr) : Prop :=
  t.free_pool ≤ t.level ∧
  nb = (t.free_pool, t.nextbucket t.free_pool) ∧
  t'.nextbucket = Function.update t.nextbucket t.free_pool (t.nextbucket t.free_pool + 1) ∧
  t'.free_pool =
    (if t.nextbucket t.free_pool + 1 ≥ ginthash_poolsz t.free_pool then t.free_pool + 1
     else t.free_pool)

/-- The effect of the part of `ginthash_splitbucket` after the directory has been
extended, when it succeeds on the bucket `cur` and returns `nb`. -/
def split_rel (t t' : ext_ginthash) (cur nb : bucket_ptr) : Prop :=
  pool_step t t' nb ∧
  t'.level = t.level ∧
  (∀ j, t'.directory j =
    if j < 2 ^ t.level ∧ t.directory j = some cur ∧ j &&& 2 ^ (t.buckets cur).level ≠ 0
    then some nb else t.directory j) ∧
  (t'.buckets cur).level = (t.buckets cur).level + 1 ∧
  entries (t'.buckets cur) =
    (entries (t.buckets cur)).filter (fun kv => !entry_bit (t.buckets cur).level kv) ∧
  (t'.buckets nb).level = (t.buckets cur).level + 1 ∧
  entries (t'.buckets nb) =
    ((entries (t.buckets cur)).filter (entry_bit (t.buckets cur).level)).reverse ∧
  ∀ r, r ≠ cur → r ≠ nb → t'.buckets r = t.buckets r

/-- The scrambled key of an entry agrees with `r` on the low `GINTHASH_MAXLEVEL - 1`
bits, the bits that a directory of the maximum size can tell apart. -/
def low_agree (r : Nat) (kv : Int × Int) : Bool :=
  decide (GINTHASH_SCRAMBLE kv.1 % 2 ^ (GINTHASH_MAXLEVEL - 1) =
    r % 2 ^ (GINTHASH_MAXLEVEL - 1))

/-- The number of entries agreeing with `r` on the low bits in the bucket that the
directory holds at the slot of `r`. -/
def slot_count (t : ext_ginthash) (r : Nat) : Nat :=
  match t.directory (r % 2 ^ t.level) with
  | none => 0
  | some p => (entries (t.buckets p)).countP (low_agree r)

/-- Pool bookkeeping invariant: `free_pool` is a pool with a free bucket, the pools
above it are untouched, and every bucket handed out is referenced by the directory
(`H` is the set of buckets handed out). -/
def pool_inv (t : ext_ginthash) : Prop :=
  1 ≤ t.free_pool ∧ t.nextbucket t.free_pool < ginthash_poolsz t.free_pool ∧
  (∀ q, t.free_pool < q → t.nextbucket q = 0) ∧
  ∃ H : Finset bucket_ptr, H.card = issued_count t ∧ ∀ p ∈ H, referenced t p

/-- Fill bound between the statements of `wg_ginthash_addkey`: a referenced bucket
holds at most `GINTHASH_BUCKETCAP` entries, or it holds one more and is either the
bucket `cur` being split or a bucket at the maximum local level. -/
def fills_weak (t : ext_ginthash) (cur : Option bucket_ptr) : Prop :=
  ∀ p, referenced t p → (t.buckets p).fill ≤ GINTHASH_BUCKETCAP ∨
    ((t.buckets p).fill = GINTHASH_BUCKETCAP + 1 ∧
      (some p = cur ∨ (t.buckets p).level + 1 = GINTHASH_MAXLEVEL))

/-- Invariant of the table between calls of `wg_ginthash_addkey`, whatever the calls
returned. -/
def reach_inv (t : ext_ginthash) : Prop :=
  tbl_wf t ∧ pool_inv t ∧ fills_weak t none

/-- Invariant of the table at the test of the split loop of `wg_ginthash_addkey`, with
`cur` the value of `bucket`. -/
def loop_inv (t : ext_ginthash) (cur : bucket_ptr) : Prop :=
  tbl_wf t ∧ pool_inv t ∧ referenced t cur ∧ fills_weak t (some cur)

/-- All entries of the bucket agree on the low `GINTHASH_MAXLEVEL - 1` bits of their
scrambled keys. -/
def all_agree (b : ginthash_bucket) : Prop :=
  ∀ x ∈ entries b, ∀ y ∈ entries b, low_agree (GINTHASH_SCRAMBLE x.1) y = true

/-- The condition under which a call of `ginthash_newbucket` on the table `c` stays
within the pools: `free_pool` is an allocated pool and `nextbucket[free_pool]` is an
index inside it. -/
def call_ok (c : ext_ginthash) : Prop :=
  1 ≤ c.free_pool ∧ c.free_pool ≤ c.level ∧ c.level < GINTHASH_MAXLEVEL ∧
  c.nextbucket c.free_pool < ginthash_poolsz c.free_pool

/-- The tables on which `ginthash_splitbucket tbl bucket` calls `ginthash_newbucket`
(at most one: none if growing the directory failed). -/
def splitbucket_newbucket_calls (tbl : ext_ginthash) (bucket : bucket_ptr) :
    List ext_ginthash :=
  let g := if (tbl.buckets bucket).level = tbl.level then grow_ginthash tbl else (0, tbl)
  if g.1 ≠ 0 then []
  else
    [{ g.2 with
        buckets := Function.update g.2.buckets bucket
          { g.2.buckets bucket with level := (g.2.buckets bucket).level + 1 } }]

/-- The tables on which the split loop of `wg_ginthash_addkey` calls
`ginthash_newbucket`, in order; same bound on the loop tests as `addkey_loop`. -/
def addkey_loop_newbucket_calls : Nat → ext_ginthash → bucket_ptr → List ext_ginthash
  | 0, _, _ => []
  | fuel + 1, tbl, bucket =>
    if (tbl.buckets bucket).fill > GINTHASH_BUCKETCAP then
      splitbucket_newbucket_calls tbl bucket ++
        match ginthash_splitbucket tbl bucket with
        | (none, _) => []
        | (some newb, tbl1) =>
          addkey_loop_newbucket_calls fuel tbl1
            (if (tbl1.buckets newb).fill > GINTHASH_BUCKETCAP then newb else bucket)
    else
      []

/-- The tables on which `wg_ginthash_addkey tbl key val` calls `ginthash_newbucket`,
in order. -/
def addkey_newbucket_calls (tbl : ext_ginthash) (key val : Int) : List ext_ginthash :=
  let dirsize := 1 <<< tbl.level
  let hash := GINTHASH_SCRAMBLE key &&& (dirsize - 1)
  match tbl.directory hash with
  | none => [tbl]
  | some bucket =>
    addkey_loop_newbucket_calls GINTHASH_MAXLEVEL
      { tbl with buckets := (add_to_bucket tbl.buckets bucket key val).1 } bucket

/-- The table is within capacity and holds exactly the pairs of the list `done`, the
pairs inserted so far, with their multiplicities per slot. -/
def inserted_inv (t : ext_ginthash) (done : List (Int × Int)) : Prop :=
  tbl_inv t ∧ pool_inv t ∧ (∀ k v, stored t k v ↔ (k, v) ∈ done) ∧
  ∀ r, slot_count t r = done.countP (low_agree r)

/-- Example table for a split: level 1, slot 0 holds the bucket `(1, 0)` with the four
keys 0, 2, 4, 6 (scrambled values even; bit 1 set for the keys 2 and 6) and values
10, 11, 12, 13; slot 1 is empty. -/
def tbl_split_demo : ext_ginthash :=
  { level := 1
    directory := fun j => if j = 0 then some (1, 0) else none
    buckets := fun _ =>
      { level := 1, fill := 4, key := fun s => 2 * (s : Int), value := fun s => 10 + (s : Int) }
    nextbucket := fun q => if q = 1 then 1 else 0
    free_pool := 1 }

/-! ## Scale scenario: evaluation over the natural numbers -/

/-- Byte `i` of a non-negative `gint`, as an unsigned value. -/
def nat_byte (k i : Nat) : Nat := k / 256 ^ i % 256

/-- One round of the fold of `rehash_gint` on the unsigned residues: the byte `u` is
sign-extended, and the result is reduced modulo `2^64`. -/
def nat_rehash_step (h u : Nat) : Nat :=
  ((if u < 128 then u else 2 ^ 64 - 256 + u) + 65599 * h) % 2 ^ 64

/-- The loop of `rehash_gint` on the unsigned residues. -/
def nat_rehash_loop (k : Nat) : Nat → Nat → Nat → Nat
  | _, 0, h => h
  | i, n + 1, h => nat_rehash_loop k (i + 1) n (nat_rehash_step h (nat_byte k i))

/-- All numbers of the list are different: each is marked in the bit set `seen`, and
the check fails at a number already marked. -/
def distinct_bits : List Nat → Nat → Bool
  | [], _ => true
  | r :: rs, seen => if seen.testBit r then false else distinct_bits rs (seen ||| 1 <<< r)

/-- The low 17 bits of the scrambled keys `8 * 1, ..., 8 * n`. -/
def scale_residues (n : Nat) : List Nat :=
  (List.range n).map fun (i : Nat) => nat_rehash_loop (8 * (i + 1)) 0 sizeof_gint 0 % 2 ^ 17

/-- The pairs of the scale scenario: the keys `8 * 1, ..., 8 * n` with the values
`vals 0, ..., vals (n - 1)`. -/
def scale_pairs (vals : Nat → Int) (n : Nat) : List (Int × Int) :=
  (List.range n).map fun (i : Nat) => (8 * ((i : Int) + 1), vals i)

/-! ## Local-memory extendible gint hash: operations with failing allocations -/

/-- The function `grow_ginthash` with the outcomes of its two allocations as an
argument: growing from level `L`, `(alloc L).1` says whether `realloc` of the directory
returns memory, and `(alloc L).2` whether `malloc` of the bucket pool does.  The level
ceiling is tested first.  When `realloc` fails the table is untouched; when `malloc`
fails the directory has already been reallocated and its new half written, and the
level is not incremented.  Returns the status (0 or -1) and the table. -/
def grow_ginthash_alloc (alloc : Nat → Bool × Bool) (tbl : ext_ginthash) :
    Int × ext_ginthash :=
  let newlevel := tbl.level + 1
  if newlevel ≥ GINTHASH_MAXLEVEL then
    (-1, tbl)
  else if (alloc tbl.level).1 then
    let directory :=
      if tbl.level ≠ 0 then
        grow_copy (1 <<< tbl.level) tbl.directory
      else
        Function.update (Function.update tbl.directory 0 none) 1 none
    if (alloc tbl.level).2 then
      (0, { tbl with directory := directory, level := newlevel })
    else
      (-1, { tbl with directory := directory })
  else
    (-1, tbl)

/-- The function `ginthash_splitbucket` over `grow_ginthash_alloc`. -/
def ginthash_splitbucket_alloc (alloc : Nat → Bool × Bool) (tbl : ext_ginthash)
    (bucket : bucket_ptr) : Option bucket_ptr × ext_ginthash :=
  let g :=
    if (tbl.buckets bucket).level = tbl.level then grow_ginthash_alloc alloc tbl
    else (0, tbl)
  if g.1 ≠ 0 then (none, g.2) else split_rest g.2 bucket

/-- The split loop of `wg_ginthash_addkey` over `ginthash_splitbucket_alloc`, with the
same bound on the number of loop tests as `addkey_loop`. -/
def addkey_loop_alloc (alloc : Nat → Bool × Bool) :
    Nat → ext_ginthash → bucket_ptr → Option (Int × ext_ginthash)
  | 0, _, _ => none
  | fuel + 1, tbl, bucket =>
    if (tbl.buckets bucket).fill > GINTHASH_BUCKETCAP then
      match ginthash_splitbucket_alloc alloc tbl bucket with
      | (none, tbl1) => some (-1, tbl1)
      | (some newb, tbl1) =>
        addkey_loop_alloc alloc fuel tbl1
          (if (tbl1.buckets newb).fill > GINTHASH_BUCKETCAP then newb else bucket)
    else
      some (0, tbl)

/-- The function `wg_ginthash_addkey` with the outcomes of the allocations as an
argument (one call grows the directory from each level at most once, so that the
outcomes are indexed by the level).  Returns the status and the table. -/
def wg_ginthash_addkey_alloc (alloc : Nat → Bool × Bool) (tbl : ext_ginthash)
    (key val : Int) : Option (Int × ext_ginthash) :=
  let dirsize := 1 <<< tbl.level
  let hash := GINTHASH_SCRAMBLE key &&& (dirsize - 1)
  match tbl.directory hash with
  | none =>
    match ginthash_newbucket tbl with
    | (none, tbl1) => some (-1, tbl1)
    | (some bucket, tbl1) =>
      let mem1 := Function.update tbl1.buckets bucket
        { tbl1.buckets bucket with level := tbl1.level }
      let mem2 := (add_to_bucket mem1 bucket key val).1
      some (0, { tbl1 with
        buckets := mem2
        directory := Function.update tbl1.directory hash (some bucket) })
  | some bucket =>
    addkey_loop_alloc alloc GINTHASH_MAXLEVEL
      { tbl with buckets := (add_to_bucket tbl.buckets bucket key val).1 } bucket

/-! ## Machine integers and the string hash function -/

theorem to_size_t_of_range (x : Int) (h0 : 0 ≤ x) (h1 : x < 2 ^ 64) :
    ((to_size_t x : Nat) : Int) = x := by
  unfold to_size_t
  rw [Int.emod_eq_of_lt h0 h1]
  exact Int.toNat_of_nonneg h0

theorem wrap_int_of_range (x : Int) (h0 : -2 ^ 31 ≤ x) (h1 : x < 2 ^ 31) :
    wrap_int x = x := by
  unfold wrap_int
  rw [Int.emod_eq_of_lt (by omega) (by omega)]
  omega

theorem strhash_index_range (al : Int) (h : Nat) (hpos : 0 < al) (hmax : al ≤ 2 ^ 31 - 1) :
    0 ≤ wrap_int ((h % to_size_t al : Nat) : Int) ∧
      wrap_int ((h % to_size_t al : Nat) : Int) < al := by
  have hal : ((to_size_t al : Nat) : Int) = al :=
    to_size_t_of_range _ (le_of_lt hpos) (by omega)
  have hlt : ((h % to_size_t al : Nat) : Int) < al := by
    have : h % to_size_t al < to_size_t al := Nat.mod_lt _ (by omega)
    omega
  have hge : (0 : Int) ≤ ((h % to_size_t al : Nat) : Int) := Int.natCast_nonneg _
  rw [wrap_int_of_range _ (by omega) (by omega)]
  exact ⟨hge, hlt⟩

/-- C9. For a table length with `0 < arraylength ≤ INT_MAX` the index returned by
`wg_hash_typedstr` lies in `[0, arraylength)`, for every payload (or `NULL`), every
length, every secondary string (or `NULL`) and every type tag; the chars may be
negative. -/
theorem wg_hash_typedstr_range (db : db_memsegment) (data extrastr : Option (List Int))
    (type length : Int) (hpos : 0 < db.arraylength) (hmax : db.arraylength ≤ 2 ^ 31 - 1) :
    0 ≤ wg_hash_typedstr db data extrastr type length ∧
      wg_hash_typedstr db data extrastr type length < db.arraylength :=
  strhash_index_range _ _ hpos hmax

/-- Witness for C9: a payload with a negative char, a secondary string, table length 7. -/
theorem wg_hash_typedstr_range_witness :
    0 ≤ wg_hash_typedstr ⟨fun _ => 0, 0, 7⟩ (some [-3, 65]) (some [66, 0]) 1 2 ∧
      wg_hash_typedstr ⟨fun _ => 0, 0, 7⟩ (some [-3, 65]) (some [66, 0]) 1 2 < 7 :=
  wg_hash_typedstr_range ⟨fun _ => 0, 0, 7⟩ (some [-3, 65]) (some [66, 0]) 1 2
    (by decide) (by decide)

/-! ## String hash: the match predicate -/

/-- C8 (amended). `wg_right_strhash_bucket` returns 1 if and only if: the candidate's
decoded type equals `ctype`; the candidate's decoded length plus one (the size with
the terminator, as an `int`) equals `cstrsize`; the candidate's payload and `cstr`
are both absent or agree on the first `cstrsize` chars; the candidate's secondary
string and `cextrastr` are both absent or equal as C strings.  Otherwise it returns 0. -/
theorem wg_right_strhash_bucket_iff (D : dbdata) (db : db_memsegment) (longstr : Int)
    (cstr cextrastr : Option (List Int)) (ctype cstrsize : Int) :
    (wg_right_strhash_bucket D db longstr cstr cextrastr ctype cstrsize = 1 ↔
      (D.wg_get_encoded_type db longstr = ctype ∧
       wrap_int (D.wg_decode_str_len db longstr + 1) = cstrsize ∧
       ((D.wg_decode_str db longstr = none ∧ cstr = none) ∨
         ∃ s c, D.wg_decode_str db longstr = some s ∧ cstr = some c ∧
           s.take (to_size_t cstrsize) = c.take (to_size_t cstrsize)) ∧
       ((D.wg_decode_str_lang db longstr = none ∧ cextrastr = none) ∨
         ∃ e c, D.wg_decode_str_lang db longstr = some e ∧ cextrastr = some c ∧
           c_string e = c_string c))) ∧
    (wg_right_strhash_bucket D db longstr cstr cextrastr ctype cstrsize = 1 ∨
      wg_right_strhash_bucket D db longstr cstr cextrastr ctype cstrsize = 0) := by
  unfold wg_right_strhash_bucket memcmp strcmp
  simp only []
  cases hs : D.wg_decode_str db longstr <;> cases hl : D.wg_decode_str_lang db longstr <;>
    cases cstr <;> cases cextrastr <;>
    by_cases h1 : D.wg_get_encoded_type db longstr = ctype <;>
    by_cases h2 : wrap_int (D.wg_decode_str_len db longstr + 1) = cstrsize <;>
    simp [h1, h2] <;> first | exact em _ | (split_ifs <;> simp_all)

/-- Counterexample to C8 as stated: the candidate decodes to "abc" with length 3 and
type 5; for the target "abc", length 3, type 5, no secondary string, the four stated
conditions hold but the function returns 0 (it returns 1 for length 4). -/
theorem wg_right_strhash_bucket_length_counterexample :
    right_bucket_claimed dbdata_abc ⟨fun _ => 0, 0, 1⟩ 64 (some [97, 98, 99, 0]) none 5 3 ∧
    wg_right_strhash_bucket dbdata_abc ⟨fun _ => 0, 0, 1⟩ 64 (some [97, 98, 99, 0]) none 5 3 = 0 ∧
    wg_right_strhash_bucket dbdata_abc ⟨fun _ => 0, 0, 1⟩ 64 (some [97, 98, 99, 0]) none 5 4 = 1 := by
  refine ⟨⟨rfl, rfl, Or.inr ⟨_, _, rfl, rfl, rfl⟩, Or.inl ⟨rfl, rfl⟩⟩, by decide, by decide⟩

/-! ## String hash: chains and lookup -/

theorem chain_ne_zero (D : dbdata) (db : db_memsegment) :
    ∀ (l : List Int) (h : Int), chain D db h l → ∀ x ∈ l, x ≠ 0 := by
  intro l
  induction l with
  | nil => intro h _ x hx; simp at hx
  | cons y l ih =>
    intro h hc x hx
    obtain ⟨h0, hy, hrest⟩ := hc
    rcases List.mem_cons.mp hx with rfl | hx
    · rw [hy]; exact h0
    · exact ih _ hrest x hx

theorem find_strhash_chain (D : dbdata) (db : db_memsegment)
    (data extrastr : Option (List Int)) (type size : Int) :
    ∀ (l : List Int) (h : Int) (fuel : Nat), chain D db h l → l.length < fuel →
      wg_find_strhash_bucket D db data extrastr type size fuel h =
        some ((l.find? fun x =>
          decide (wg_right_strhash_bucket D db x data extrastr type size ≠ 0)).getD 0) := by
  intro l
  induction l with
  | nil =>
    intro h fuel hc hf
    have h0 : h = 0 := hc
    cases fuel with
    | zero => simp at hf
    | succ fuel => simp [wg_find_strhash_bucket, h0]
  | cons y l ih =>
    intro h fuel hc hf
    obtain ⟨h0, hy, hrest⟩ := hc
    subst hy
    cases fuel with
    | zero => simp at hf
    | succ fuel =>
      have hf2 : l.length < fuel := by simpa using hf
      by_cases hm : wg_right_strhash_bucket D db y data extrastr type size ≠ 0
      · simp [wg_find_strhash_bucket, h0, hm, List.find?_cons]
      · have hm2 : wg_right_strhash_bucket D db y data extrastr type size = 0 := by
          simpa using hm
        simp [wg_find_strhash_bucket, h0, hm2, List.find?_cons, ih _ _ hrest hf2]

/-- C3. On a finite, 0-terminated chain `l` starting at `hashchain`, with enough loop
tests for its length, `wg_find_strhash_bucket` returns the first object of the chain
for which `wg_right_strhash_bucket` is true, and 0 when there is none; the result is 0
exactly when no object of the chain matches (so it is 0 for `hashchain = 0`), and it
is the head when the head matches. -/
theorem wg_find_strhash_bucket_first_match (D : dbdata) (db : db_memsegment)
    (data extrastr : Option (List Int)) (type size hashchain : Int) (l : List Int)
    (fuel : Nat) (hc : chain D db hashchain l) (hf : l.length < fuel) :
    ∃ r, wg_find_strhash_bucket D db data extrastr type size fuel hashchain = some r ∧
      r = (l.find? fun x =>
          decide (wg_right_strhash_bucket D db x data extrastr type size ≠ 0)).getD 0 ∧
      (r = 0 ↔ ∀ x ∈ l, wg_right_strhash_bucket D db x data extrastr type size = 0) ∧
      (hashchain = 0 → r = 0) ∧
      (wg_right_strhash_bucket D db hashchain data extrastr type size ≠ 0 →
        hashchain ≠ 0 → r = hashchain) := by
  refine ⟨_, find_strhash_chain D db data extrastr type size l hashchain fuel hc hf, rfl,
    ?_, ?_, ?_⟩
  · constructor
    · intro hr x hx
      by_contra hne
      have hsome : (l.find? fun x =>
          decide (wg_right_strhash_bucket D db x data extrastr type size ≠ 0)).isSome := by
        rw [List.find?_isSome]
        exact ⟨x, hx, by simpa using hne⟩
      obtain ⟨y, hy⟩ := Option.isSome_iff_exists.mp hsome
      rw [hy] at hr
      exact chain_ne_zero D db l hashchain hc y (List.mem_of_find?_eq_some hy) hr
    · intro hall
      have : (l.find? fun x =>
          decide (wg_right_strhash_bucket D db x data extrastr type size ≠ 0)) = none := by
        rw [List.find?_eq_none]
        intro x hx
        simp [hall x hx]
      rw [this]; rfl
  · intro h0
    cases l with
    | nil => rfl
    | cons y l => exact absurd h0 hc.1
  · intro hm h0
    cases l with
    | nil => exact absurd hc h0
    | cons y l =>
      obtain ⟨_, hy, _⟩ := hc
      subst hy
      simp [List.find?_cons, hm]

theorem chain_nil (D : dbdata) (db : db_memsegment) (h : Int) :
    chain D db h [] ↔ h = 0 := Iff.rfl

theorem chain_cons (D : dbdata) (db : db_memsegment) (h x : Int) (l : List Int) :
    chain D db h (x :: l) ↔
      h ≠ 0 ∧ x = h ∧ chain D db (dbfetch db (hashchain_field D x)) l := Iff.rfl

theorem chain_det (D : dbdata) (db : db_memsegment) :
    ∀ (l l' : List Int) (h : Int), chain D db h l → chain D db h l' → l = l' := by
  intro l
  induction l with
  | nil =>
    intro l' h hc hc'
    cases l' with
    | nil => rfl
    | cons y l' => exact absurd ((chain_nil D db h).mp hc) hc'.1
  | cons x l ih =>
    intro l' h hc hc'
    cases l' with
    | nil => exact absurd ((chain_nil D db h).mp hc') hc.1
    | cons y l' =>
      obtain ⟨_, hx, hr⟩ := hc
      obtain ⟨_, hy, hr'⟩ := hc'
      subst hx; subst hy
      rw [ih l' _ hr hr']

theorem chain_append (D : dbdata) (db : db_memsegment) (x : Int) (l2 : List Int) :
    ∀ (l1 : List Int) (h : Int), chain D db h (l1 ++ x :: l2) →
      chain D db (dbfetch db (hashchain_field D x)) l2 := by
  intro l1
  induction l1 with
  | nil => intro h hc; exact hc.2.2
  | cons y l1 ih => intro h hc; exact ih _ hc.2.2

/-- No object of a finite chain has its hash-chain field at the cell that holds the
chain head. -/
theorem chain_field_ne (D : dbdata) (db : db_memsegment) (s h : Int) (l : List Int)
    (hs : dbfetch db s = h) (hc : chain D db h l) :
    ∀ y ∈ l, hashchain_field D y ≠ s := by
  intro y hy heq
  obtain ⟨c, d, hl⟩ := List.append_of_mem hy
  have hd : chain D db (dbfetch db (hashchain_field D y)) d := by
    rw [hl] at hc; exact chain_append D db y d c h hc
  rw [heq, hs] at hd
  have : l = d := chain_det D db l d h hc hd
  have hlen := congrArg List.length hl
  rw [this] at hlen
  simp at hlen
  omega

theorem chain_nodup (D : dbdata) (db : db_memsegment) :
    ∀ (l : List Int) (h : Int), chain D db h l → l.Nodup := by
  intro l
  induction l with
  | nil => intro h _; exact List.nodup_nil
  | cons x l ih =>
    intro h hc
    refine List.nodup_cons.mpr ⟨?_, ih _ hc.2.2⟩
    intro hx
    obtain ⟨c, d, hl⟩ := List.append_of_mem hx
    have hd : chain D db (dbfetch db (hashchain_field D x)) d := by
      have := hc.2.2; rw [hl] at this; exact chain_append D db x d c _ this
    have : l = d := chain_det D db l d _ hc.2.2 hd
    have hlen := congrArg List.length hl
    rw [this] at hlen
    simp at hlen
    omega

theorem chain_frame (D : dbdata) (db : db_memsegment) (a v : Int) :
    ∀ (l : List Int) (h : Int), (∀ y ∈ l, hashchain_field D y ≠ a) →
      chain D db h l → chain D (dbstore db a v) h l := by
  intro l
  induction l with
  | nil => intro h _ hc; exact hc
  | cons x l ih =>
    intro h hne hc
    refine ⟨hc.1, hc.2.1, ?_⟩
    have hx : hashchain_field D x ≠ a := hne x (List.mem_cons_self _ _)
    have : dbfetch (dbstore db a v) (hashchain_field D x) = dbfetch db (hashchain_field D x) := by
      simp [dbfetch, dbstore, Function.update_noteq hx]
    rw [this]
    exact ih _ (fun y hy => hne y (List.mem_cons_of_mem _ hy)) hc.2.2

theorem ref_cell_cases (D : dbdata) :
    ∀ (l : List Int) (co : Int),
      ref_cell D co l = co ∨ ∃ p ∈ l, ref_cell D co l = hashchain_field D p := by
  intro l
  induction l with
  | nil => intro co; exact Or.inl rfl
  | cons x l ih =>
    intro co
    right
    rcases ih (hashchain_field D x) with h | ⟨p, hp, h⟩
    · exact ⟨x, List.mem_cons_self _ _, h⟩
    · exact ⟨p, List.mem_cons_of_mem _ hp, h⟩

theorem ref_cell_holds (D : dbdata) (db : db_memsegment) (x : Int) (l2 : List Int) :
    ∀ (l1 : List Int) (co hc : Int), dbfetch db co = hc → chain D db hc (l1 ++ x :: l2) →
      dbfetch db (ref_cell D co l1) = x := by
  intro l1
  induction l1 with
  | nil => intro co hc hco hch; show dbfetch db co = x; rw [hco]; exact hch.2.1.symm
  | cons y l1 ih => intro co hc _ hch; exact ih _ _ rfl hch.2.2

/-- The walk of `wg_remove_from_strhash` when `longstr` is on the chain. -/
theorem remove_walk_found (D : dbdata) (db : db_memsegment) (longstr : Int)
    (l2 : List Int) :
    ∀ (l1 : List Int) (co hc : Int) (fuel : Nat), chain D db hc (l1 ++ longstr :: l2) →
      longstr ∉ l1 → (l1 ++ longstr :: l2).length < fuel →
      remove_walk D longstr fuel db co hc =
        some (0, dbstore db (ref_cell D co l1) (dbfetch db (hashchain_field D longstr))) := by
  intro l1
  induction l1 with
  | nil =>
    intro co hc fuel hch _ hf
    cases fuel with
    | zero => simp at hf
    | succ fuel =>
      have h1 : hc ≠ 0 := hch.1
      have h2 : longstr = hc := hch.2.1
      subst h2
      simp [remove_walk, h1, ref_cell]
  | cons y l1 ih =>
    intro co hc fuel hch hnot hf
    cases fuel with
    | zero => simp at hf
    | succ fuel =>
      have h1 : hc ≠ 0 := hch.1
      have h2 : y = hc := hch.2.1
      subst h2
      have hne : y ≠ longstr := fun h => hnot (h ▸ List.mem_cons_self _ _)
      have hnot2 : longstr ∉ l1 := fun h => hnot (List.mem_cons_of_mem _ h)
      have hf2 : (l1 ++ longstr :: l2).length < fuel := by simpa using hf
      simp only [remove_walk, h1, hne, if_false, ref_cell]
      exact ih _ _ fuel hch.2.2 hnot2 hf2

/-- The walk of `wg_remove_from_strhash` when `longstr` is not on the chain. -/
theorem remove_walk_missing (D : dbdata) (db : db_memsegment) (longstr : Int) :
    ∀ (l : List Int) (co hc : Int) (fuel : Nat), chain D db hc l →
      longstr ∉ l → l.length < fuel →
      remove_walk D longstr fuel db co hc = some (-1, db) := by
  intro l
  induction l with
  | nil =>
    intro co hc fuel hch _ hf
    cases fuel with
    | zero => simp at hf
    | succ fuel =>
      have h0 : hc = 0 := hch
      simp [remove_walk, h0]
  | cons y l ih =>
    intro co hc fuel hch hnot hf
    cases fuel with
    | zero => simp at hf
    | succ fuel =>
      have h1 : hc ≠ 0 := hch.1
      have h2 : y = hc := hch.2.1
      subst h2
      have hne : y ≠ longstr := fun h => hnot (h ▸ List.mem_cons_self _ _)
      have hnot2 : longstr ∉ l := fun h => hnot (List.mem_cons_of_mem _ h)
      have hf2 : l.length < fuel := by simpa using hf
      simp only [remove_walk, h1, hne, if_false]
      exact ih _ _ fuel hch.2.2 hnot2 hf2

/-- Unlinking: after the store that `wg_remove_from_strhash` performs, the chain read
from the same head cell is the old chain without the removed object. -/
theorem chain_splice (D : dbdata) (db : db_memsegment) (x : Int) (l2 : List Int) :
    ∀ (l1 : List Int) (co hc : Int), dbfetch db co = hc → chain D db hc (l1 ++ x :: l2) →
      chain D (dbstore db (ref_cell D co l1) (dbfetch db (hashchain_field D x)))
        (dbfetch (dbstore db (ref_cell D co l1) (dbfetch db (hashchain_field D x))) co)
        (l1 ++ l2) := by
  intro l1
  induction l1 with
  | nil =>
    intro co hc hco hch
    have hval : dbfetch (dbstore db co (dbfetch db (hashchain_field D x))) co =
        dbfetch db (hashchain_field D x) := by
      simp [dbfetch, dbstore]
    simp only [ref_cell, List.nil_append, hval]
    apply chain_frame
    · intro y hy
      exact chain_field_ne D db co hc (x :: l2) hco hch y (List.mem_cons_of_mem _ hy)
    · exact hch.2.2
  | cons y l1 ih =>
    intro co hc hco hch
    have hA : ref_cell D (hashchain_field D y) l1 ≠ co := by
      rcases ref_cell_cases D l1 (hashchain_field D y) with h | ⟨p, hp, h⟩
      · rw [h]
        exact chain_field_ne D db co hc _ hco hch y (List.mem_cons_self _ _)
      · rw [h]
        exact chain_field_ne D db co hc _ hco hch p
          (List.mem_cons_of_mem _ (List.mem_append_left _ hp))
    have hval : dbfetch (dbstore db (ref_cell D (hashchain_field D y) l1)
        (dbfetch db (hashchain_field D x))) co = hc := by
      simp [dbfetch, dbstore, Function.update_noteq hA.symm]
      exact hco
    simp only [ref_cell, List.cons_append, hval]
    exact ⟨hch.1, hch.2.1, ih (hashchain_field D y) _ rfl hch.2.2⟩

/-! ## String hash: removal -/

theorem chain_suffix (D : dbdata) (db : db_memsegment) (x : Int) (l2 : List Int) :
    ∀ (l1 : List Int) (h : Int), chain D db h (l1 ++ x :: l2) → chain D db x (x :: l2) := by
  intro l1
  induction l1 with
  | nil => intro h hc; exact ⟨hc.2.1 ▸ hc.1, rfl, hc.2.2⟩
  | cons y l1 ih => intro h hc; exact ih _ hc.2.2

/-- The outcome of `wg_remove_from_strhash` on a finite chain. -/
theorem remove_outcome (D : dbdata) (db : db_memsegment) (longstr : Int) (l : List Int)
    (fuel : Nat) (hc : chain D db (dbfetch db (strhash_slot D db longstr)) l)
    (hf : l.length < fuel) :
    (longstr ∉ l → wg_remove_from_strhash D fuel db longstr = some (-1, db)) ∧
    (longstr ∈ l → ∃ l1 l2, l = l1 ++ longstr :: l2 ∧ longstr ∉ l1 ∧
      wg_remove_from_strhash D fuel db longstr =
        some (0, dbstore db (ref_cell D (strhash_slot D db longstr) l1)
          (dbfetch db (hashchain_field D longstr)))) := by
  constructor
  · intro hnot
    exact remove_walk_missing D db longstr l _ _ fuel hc hnot hf
  · intro hmem
    obtain ⟨l1, l2, hl, hnot⟩ := List.eq_append_cons_of_mem hmem
    refine ⟨l1, l2, hl, hnot, ?_⟩
    subst hl
    exact remove_walk_found D db longstr l2 l1 _ _ fuel hc hnot hf

/-- C6. On a finite chain, with enough loop tests for its length,
`wg_remove_from_strhash` returns -1 if and only if `longstr` does not occur on the
chain of the bucket that `wg_hash_typedstr` computes from the object's own stored
payload, size, secondary string and type, and returns 0 in every other case. -/
theorem wg_remove_from_strhash_status (D : dbdata) (db : db_memsegment) (longstr : Int)
    (l : List Int) (fuel : Nat)
    (hc : chain D db (dbfetch db (strhash_slot D db longstr)) l) (hf : l.length < fuel) :
    ∃ rc db', wg_remove_from_strhash D fuel db longstr = some (rc, db') ∧
      (rc = -1 ↔ longstr ∉ l) ∧ (rc = 0 ↔ longstr ∈ l) := by
  obtain ⟨h1, h2⟩ := remove_outcome D db longstr l fuel hc hf
  by_cases hmem : longstr ∈ l
  · obtain ⟨l1, l2, _, _, hr⟩ := h2 hmem
    exact ⟨0, _, hr, by simp [hmem], by simp [hmem]⟩
  · exact ⟨-1, _, h1 hmem, by simp [hmem], by simp [hmem]⟩

/-- C7. Frame of `wg_remove_from_strhash` on a finite chain: when `longstr` is on the
chain the call returns 0 and the segment after it is the segment before it with one
cell stored, the cell `a` that held the reference to `longstr` (the bucket-array slot
or the hash-chain field of an object of the chain), which receives `longstr`'s
hash-chain value; every other cell is unchanged, `longstr`'s own hash-chain field is
another cell, and the header fields are unchanged.  When `longstr` is not on the chain
the call returns -1 and the segment is unchanged. -/
theorem wg_remove_from_strhash_frame (D : dbdata) (db : db_memsegment) (longstr : Int)
    (l : List Int) (fuel : Nat)
    (hc : chain D db (dbfetch db (strhash_slot D db longstr)) l) (hf : l.length < fuel) :
    (longstr ∈ l → ∃ a db',
      wg_remove_from_strhash D fuel db longstr = some (0, db') ∧
      (a = strhash_slot D db longstr ∨ ∃ p ∈ l, a = hashchain_field D p) ∧
      dbfetch db a = longstr ∧
      db' = dbstore db a (dbfetch db (hashchain_field D longstr)) ∧
      dbfetch db' a = dbfetch db (hashchain_field D longstr) ∧
      (∀ c, c ≠ a → dbfetch db' c = dbfetch db c) ∧
      hashchain_field D longstr ≠ a ∧
      db'.arraystart = db.arraystart ∧ db'.arraylength = db.arraylength) ∧
    (longstr ∉ l → wg_remove_from_strhash D fuel db longstr = some (-1, db)) := by
  obtain ⟨h1, h2⟩ := remove_outcome D db longstr l fuel hc hf
  refine ⟨?_, h1⟩
  intro hmem
  obtain ⟨l1, l2, hl, _, hr⟩ := h2 hmem
  subst hl
  have hholds : dbfetch db (ref_cell D (strhash_slot D db longstr) l1) = longstr :=
    ref_cell_holds D db longstr l2 l1 _ _ rfl hc
  refine ⟨ref_cell D (strhash_slot D db longstr) l1, _, hr, ?_, hholds, rfl, ?_, ?_, ?_,
    rfl, rfl⟩
  · rcases ref_cell_cases D l1 (strhash_slot D db longstr) with h | ⟨p, hp, h⟩
    · exact Or.inl h
    · exact Or.inr ⟨p, List.mem_append_left _ hp, h⟩
  · simp [dbfetch, dbstore]
  · intro c hne
    simp [dbfetch, dbstore, Function.update_noteq hne]
  · exact chain_field_ne D db _ longstr (longstr :: l2) hholds
      (chain_suffix D db longstr l2 l1 _ hc) longstr (List.mem_cons_self _ _)

/-- One successful removal: the chain read afterwards from the bucket's head slot is
the old chain with `longstr` erased. -/
theorem remove_chain_erase (D : dbdata) (db : db_memsegment) (longstr : Int) (l : List Int)
    (fuel : Nat) (hc : chain D db (dbfetch db (strhash_slot D db longstr)) l)
    (hmem : longstr ∈ l) (hf : l.length < fuel) :
    ∃ a db', wg_remove_from_strhash D fuel db longstr = some (0, db') ∧
      db' = dbstore db a (dbfetch db (hashchain_field D longstr)) ∧
      (a = strhash_slot D db longstr ∨ ∃ p ∈ l, a = hashchain_field D p) ∧
      chain D db' (dbfetch db' (strhash_slot D db longstr)) (l.erase longstr) := by
  obtain ⟨l1, l2, hl, hnot, hr⟩ := (remove_outcome D db longstr l fuel hc hf).2 hmem
  subst hl
  refine ⟨_, _, hr, rfl, ?_, ?_⟩
  · rcases ref_cell_cases D l1 (strhash_slot D db longstr) with h | ⟨p, hp, h⟩
    · exact Or.inl h
    · exact Or.inr ⟨p, List.mem_append_left _ hp, h⟩
  · rw [List.erase_append_right _ hnot, List.erase_cons_head]
    exact chain_splice D db longstr l2 l1 _ _ rfl hc

/-- Removal of several objects of one bucket chain, one call at a time. -/
theorem remove_each_chain (D : dbdata) (s : Int) (db0 : db_memsegment) (l0 : List Int)
    (fuel : Nat)
    (hstable : ∀ db' : db_memsegment,
      (∀ a, a ≠ s → (∀ y ∈ l0, a ≠ hashchain_field D y) → dbfetch db' a = dbfetch db0 a) →
      db'.arraystart = db0.arraystart → db'.arraylength = db0.arraylength →
      ∀ x ∈ l0, strhash_slot D db' x = s) :
    ∀ (rs : List Int) (db : db_memsegment) (l : List Int),
      (∀ a, a ≠ s → (∀ y ∈ l0, a ≠ hashchain_field D y) → dbfetch db a = dbfetch db0 a) →
      db.arraystart = db0.arraystart → db.arraylength = db0.arraylength →
      (∀ x ∈ l, x ∈ l0) → chain D db (dbfetch db s) l → l.length < fuel →
      rs.Nodup → (∀ r ∈ rs, r ∈ l) →
      ∃ db', remove_each D fuel db rs = some db' ∧
        chain D db' (dbfetch db' s) (l.filter fun x => decide (x ∉ rs)) := by
  intro rs
  induction rs with
  | nil =>
    intro db l _ _ _ _ hc _ _ _
    refine ⟨db, rfl, ?_⟩
    simpa using hc
  | cons r rs ih =>
    intro db l hag has hal hsub hc hf hnd hrs
    have hr : r ∈ l := hrs r (List.mem_cons_self _ _)
    have hslot : strhash_slot D db r = s := hstable db hag has hal r (hsub r hr)
    rw [← hslot] at hc
    obtain ⟨a, db1, hrem, hdb1, ha, hc1⟩ := remove_chain_erase D db r l fuel hc hr hf
    rw [hslot] at hc1 ha
    have hnd2 := List.nodup_cons.mp hnd
    have hag1 : ∀ c, c ≠ s → (∀ y ∈ l0, c ≠ hashchain_field D y) →
        dbfetch db1 c = dbfetch db0 c := by
      intro c hcs hcl
      have hca : c ≠ a := by
        rcases ha with h | ⟨p, hp, h⟩
        · rw [h]; exact hcs
        · rw [h]; exact hcl p (hsub p hp)
      rw [hdb1, ← hag c hcs hcl]
      simp [dbfetch, dbstore, Function.update_noteq hca]
    obtain ⟨db', hres, hch⟩ := ih db1 (l.erase r) hag1 (by rw [hdb1]; exact has)
      (by rw [hdb1]; exact hal)
      (fun x hx => hsub x (List.mem_of_mem_erase hx)) hc1
      (lt_of_le_of_lt (List.length_erase_le _ _) hf) hnd2.2
      (fun r' hr' => (List.mem_erase_of_ne (fun h : r' = r => hnd2.1 (by rw [← h]; exact hr'))).mpr
        (hrs r' (List.mem_cons_of_mem _ hr')))
    refine ⟨db', ?_, ?_⟩
    · simp [remove_each, hrem, hres]
    · have hnodup : l.Nodup := chain_nodup D db l _ hc
      have : (l.filter fun x => decide (x ∉ r :: rs)) =
          ((l.erase r).filter fun x => decide (x ∉ rs)) := by
        rw [hnodup.erase_eq_filter, List.filter_filter]
        apply List.filter_congr
        intro x _
        by_cases h1 : x = r <;> by_cases h2 : x ∈ rs <;> simp [h1, h2]
      rw [this]
      exact hch

/-- C4. Chain integrity of `wg_remove_from_strhash`: if the chain of `longstr`'s
bucket is finite (hence acyclic) and contains `longstr`, the call returns 0 and the
chain read afterwards from the bucket's head slot is the old chain with `longstr`
erased, the other objects in their original order.  Hence, when the objects of the
chain keep hashing to this bucket while slot and hash-chain fields are rewritten,
after removing any objects `rs` of the chain one call at a time the chain read from
the slot visits exactly the objects that were not removed, each once, and ends in 0. -/
theorem wg_remove_from_strhash_chain (D : dbdata) (db : db_memsegment) (longstr : Int)
    (l : List Int) (fuel : Nat)
    (hc : chain D db (dbfetch db (strhash_slot D db longstr)) l)
    (hmem : longstr ∈ l) (hf : l.length < fuel) :
    (∃ db', wg_remove_from_strhash D fuel db longstr = some (0, db') ∧
      chain D db' (dbfetch db' (strhash_slot D db longstr)) (l.erase longstr) ∧
      (l.erase longstr).Nodup) ∧
    (∀ rs : List Int, rs.Nodup → (∀ r ∈ rs, r ∈ l) →
      (∀ db' : db_memsegment,
        (∀ a, a ≠ strhash_slot D db longstr → (∀ y ∈ l, a ≠ hashchain_field D y) →
          dbfetch db' a = dbfetch db a) →
        db'.arraystart = db.arraystart → db'.arraylength = db.arraylength →
        ∀ x ∈ l, strhash_slot D db' x = strhash_slot D db longstr) →
      ∃ db', remove_each D fuel db rs = some db' ∧
        chain D db' (dbfetch db' (strhash_slot D db longstr))
          (l.filter fun x => decide (x ∉ rs)) ∧
        (l.filter fun x => decide (x ∉ rs)).Nodup ∧
        ∀ x, x ∈ (l.filter fun x => decide (x ∉ rs)) ↔ x ∈ l ∧ x ∉ rs) := by
  have hnodup : l.Nodup := chain_nodup D db l _ hc
  constructor
  · obtain ⟨a, db', hr, _, _, hch⟩ := remove_chain_erase D db longstr l fuel hc hmem hf
    exact ⟨db', hr, hch, hnodup.erase _⟩
  · intro rs hnd hrs hstable
    obtain ⟨db', hres, hch⟩ := remove_each_chain D (strhash_slot D db longstr) db l fuel
      hstable rs db l (fun _ _ _ => rfl) rfl rfl (fun _ hx => hx) hc hf hnd hrs
    exact ⟨db', hres, hch, hnodup.filter _, fun x => by simp⟩

/-- The match predicate depends on the segment through the four decoders only. -/
theorem right_bucket_congr (D : dbdata) (db db' : db_memsegment) (x : Int)
    (cstr cextrastr : Option (List Int)) (ctype cstrsize : Int)
    (h1 : D.wg_get_encoded_type db' x = D.wg_get_encoded_type db x)
    (h2 : D.wg_decode_str_len db' x = D.wg_decode_str_len db x)
    (h3 : D.wg_decode_str db' x = D.wg_decode_str db x)
    (h4 : D.wg_decode_str_lang db' x = D.wg_decode_str_lang db x) :
    wg_right_strhash_bucket D db' x cstr cextrastr ctype cstrsize =
      wg_right_strhash_bucket D db x cstr cextrastr ctype cstrsize := by
  unfold wg_right_strhash_bucket
  rw [h1, h2, h3, h4]

/-- C5. Remove then find: on a finite bucket chain on which `longstr` is the only
object that matches `longstr`'s own payload, secondary string, type and size, and
whose objects are decoded without reading the bucket slot or a hash-chain field of the
chain, after `wg_remove_from_strhash` has returned 0, `wg_find_strhash_bucket` with
the same payload, secondary string, type and size on the bucket's updated chain head
returns 0. -/
theorem wg_find_after_remove (D : dbdata) (db : db_memsegment) (longstr : Int)
    (l : List Int) (fuel : Nat)
    (hc : chain D db (dbfetch db (strhash_slot D db longstr)) l)
    (hmem : longstr ∈ l) (hf : l.length < fuel)
    (honly : ∀ x ∈ l, x ≠ longstr →
      wg_right_strhash_bucket D db x (longstr_data D db longstr)
        (longstr_extrastr D db longstr) (longstr_type D db longstr)
        (longstr_length D db longstr) = 0)
    (hdec : ∀ a v : Int,
      (a = strhash_slot D db longstr ∨ ∃ p ∈ l, a = hashchain_field D p) →
      ∀ x ∈ l,
        D.wg_get_encoded_type (dbstore db a v) x = D.wg_get_encoded_type db x ∧
        D.wg_decode_str_len (dbstore db a v) x = D.wg_decode_str_len db x ∧
        D.wg_decode_str (dbstore db a v) x = D.wg_decode_str db x ∧
        D.wg_decode_str_lang (dbstore db a v) x = D.wg_decode_str_lang db x) :
    ∃ db', wg_remove_from_strhash D fuel db longstr = some (0, db') ∧
      wg_find_strhash_bucket D db' (longstr_data D db longstr)
        (longstr_extrastr D db longstr) (longstr_type D db longstr)
        (longstr_length D db longstr) fuel
        (dbfetch db' (strhash_slot D db longstr)) = some 0 := by
  obtain ⟨a, db', hr, hdb', ha, hch⟩ := remove_chain_erase D db longstr l fuel hc hmem hf
  refine ⟨db', hr, ?_⟩
  have hnodup : l.Nodup := chain_nodup D db l _ hc
  rw [find_strhash_chain D db' _ _ _ _ (l.erase longstr) _ fuel hch
    (lt_of_le_of_lt (List.length_erase_le _ _) hf)]
  have hnone : ((l.erase longstr).find? fun x =>
      decide (wg_right_strhash_bucket D db' x (longstr_data D db longstr)
        (longstr_extrastr D db longstr) (longstr_type D db longstr)
        (longstr_length D db longstr) ≠ 0)) = none := by
    rw [List.find?_eq_none]
    intro x hx
    have hxl : x ∈ l := List.mem_of_mem_erase hx
    have hxne : x ≠ longstr := fun h => by
      rw [h] at hx
      exact (List.Nodup.not_mem_erase hnodup) hx
    obtain ⟨e1, e2, e3, e4⟩ := hdec a (dbfetch db (hashchain_field D longstr)) ha x hxl
    rw [← hdb'] at e1 e2 e3 e4
    have := right_bucket_congr D db db' x (longstr_data D db longstr)
      (longstr_extrastr D db longstr) (longstr_type D db longstr)
      (longstr_length D db longstr) e1 e2 e3 e4
    simp [this, honly x hxl hxne]
  rw [hnone]; rfl

theorem db_demo_slot68 : strhash_slot dbdata_demo db_demo 68 = 1064 := by decide

theorem db_demo_slot132 : strhash_slot dbdata_demo db_demo 132 = 1064 := by decide

theorem db_demo_chain : chain dbdata_demo db_demo 68 [68, 132] :=
  ⟨by decide, rfl, by decide, by decide, (by decide : dbfetch db_demo _ = 0)⟩

theorem db_demo_chain68 :
    chain dbdata_demo db_demo (dbfetch db_demo (strhash_slot dbdata_demo db_demo 68))
      [68, 132] := by
  rw [db_demo_slot68]; exact db_demo_chain

theorem db_demo_chain132 :
    chain dbdata_demo db_demo (dbfetch db_demo (strhash_slot dbdata_demo db_demo 132))
      [68, 132] := by
  rw [db_demo_slot132]; exact db_demo_chain

/-- Witness for C3: on the chain 68, 132 the lookup of ("a", size 2, type 6) skips the
first object and returns the second. -/
theorem wg_find_strhash_bucket_first_match_witness :
    chain dbdata_demo db_demo 68 [68, 132] ∧
    ∃ r, wg_find_strhash_bucket dbdata_demo db_demo (some [97, 0]) none 6 2 3 68 = some r ∧
      r = 132 := by
  obtain ⟨r, h1, h2, _⟩ := wg_find_strhash_bucket_first_match dbdata_demo db_demo
    (some [97, 0]) none 6 2 68 [68, 132] 3 db_demo_chain (by decide)
  exact ⟨db_demo_chain, r, h1, by rw [h2]; decide⟩

/-- Witness for C6: removing the second object of the chain 68, 132 returns 0. -/
theorem wg_remove_from_strhash_status_witness :
    ∃ rc db', wg_remove_from_strhash dbdata_demo 3 db_demo 132 = some (rc, db') ∧
      (rc = -1 ↔ (132 : Int) ∉ [68, 132]) ∧ (rc = 0 ↔ (132 : Int) ∈ [68, 132]) :=
  wg_remove_from_strhash_status dbdata_demo db_demo 132 [68, 132] 3 db_demo_chain132
    (by decide)

/-- Witness for C7: removing the second object of the chain 68, 132 stores into the
hash-chain field of the first (cell 96) and nowhere else. -/
theorem wg_remove_from_strhash_frame_witness :
    ∃ a db', wg_remove_from_strhash dbdata_demo 3 db_demo 132 = some (0, db') ∧
      dbfetch db_demo a = 132 ∧
      (∀ c, c ≠ a → dbfetch db' c = dbfetch db_demo c) ∧
      hashchain_field dbdata_demo 132 ≠ a := by
  obtain ⟨a, db', h1, _, h3, _, _, h6, h7, _⟩ :=
    (wg_remove_from_strhash_frame dbdata_demo db_demo 132 [68, 132] 3 db_demo_chain132
      (by decide)).1 (by decide)
  exact ⟨a, db', h1, h3, h6, h7⟩

theorem wg_hash_typedstr_congr (db db' : db_memsegment)
    (data extrastr : Option (List Int)) (type length : Int)
    (hal : db'.arraylength = db.arraylength) :
    wg_hash_typedstr db' data extrastr type length =
      wg_hash_typedstr db data extrastr type length := by
  unfold wg_hash_typedstr
  rw [hal]

theorem db_chars_congr (db db' : db_memsegment) (a : Int) (n : Nat)
    (h : ∀ i : Nat, i < n → db_char db' (a + i) = db_char db (a + i)) :
    db_chars db' a n = db_chars db a n := by
  unfold db_chars
  apply List.map_congr_left
  intro i hi
  exact h i (List.mem_range.mp hi)

theorem db_char_congr (db db' : db_memsegment) (base : Int) (hb : base % 8 = 0)
    (he : db'.cell base = db.cell base) (i : Nat) (hi : i < 8) :
    db_char db' (base + i) = db_char db (base + i) := by
  unfold db_char
  have : base + (i : Int) - (base + i) % (sizeof_gint : Nat) = base := by
    simp only [sizeof_gint]
    push_cast
    omega
  rw [this, he]

theorem db_demo_stable (db' : db_memsegment)
    (hag : ∀ a, a ≠ strhash_slot dbdata_demo db_demo 68 →
      (∀ y ∈ [(68 : Int), 132], a ≠ hashchain_field dbdata_demo y) →
      dbfetch db' a = dbfetch db_demo a)
    (has : db'.arraystart = db_demo.arraystart) (hal : db'.arraylength = db_demo.arraylength) :
    ∀ x ∈ [(68 : Int), 132],
      strhash_slot dbdata_demo db' x = strhash_slot dbdata_demo db_demo 68 := by
  have hc : ∀ a : Int, a ≠ 1064 → a ≠ 96 → a ≠ 160 → db'.cell a = db_demo.cell a := by
    intro a h1 h2 h3
    apply hag a
    · rw [db_demo_slot68]; exact h1
    · intro y hy
      simp only [List.mem_cons, List.mem_singleton, List.not_mem_nil, or_false] at hy
      rcases hy with rfl | rfl
      · exact h2
      · exact h3
  have e64 := hc 64 (by decide) (by decide) (by decide)
  have e72 := hc 72 (by decide) (by decide) (by decide)
  have e104 := hc 104 (by decide) (by decide) (by decide)
  have e112 := hc 112 (by decide) (by decide) (by decide)
  have e128 := hc 128 (by decide) (by decide) (by decide)
  have e136 := hc 136 (by decide) (by decide) (by decide)
  have e168 := hc 168 (by decide) (by decide) (by decide)
  have e176 := hc 176 (by decide) (by decide) (by decide)
  intro x hx
  simp only [List.mem_cons, List.mem_singleton, List.not_mem_nil, or_false] at hx
  rw [db_demo_slot68]
  rcases hx with rfl | rfl
  · simp only [strhash_slot, longstr_hash, longstr_data, longstr_extrastr, longstr_type,
      longstr_length, dbdata_demo, dbfetch, sizeof_gint, has]
    norm_num
    rw [e64, e72, e104, wg_hash_typedstr_congr db_demo db' _ _ _ _ hal,
      db_chars_congr db_demo db' 112 _
        (fun i hi => db_char_congr db_demo db' 112 (by decide) e112 i
          (lt_of_lt_of_le hi (by decide)))]
    decide
  · simp only [strhash_slot, longstr_hash, longstr_data, longstr_extrastr, longstr_type,
      longstr_length, dbdata_demo, dbfetch, sizeof_gint, has]
    norm_num
    rw [e128, e136, e168, wg_hash_typedstr_congr db_demo db' _ _ _ _ hal,
      db_chars_congr db_demo db' 176 _
        (fun i hi => db_char_congr db_demo db' 176 (by decide) e176 i
          (lt_of_lt_of_le hi (by decide)))]
    decide

/-- Witness for C4: removing both objects of the chain 68, 132, one call at a time,
leaves the empty chain; removing the head alone leaves 132. -/
theorem wg_remove_from_strhash_chain_witness :
    (∃ db', wg_remove_from_strhash dbdata_demo 3 db_demo 68 = some (0, db') ∧
      chain dbdata_demo db' (dbfetch db' (strhash_slot dbdata_demo db_demo 68)) [132]) ∧
    (∃ db', remove_each dbdata_demo 3 db_demo [132, 68] = some db' ∧
      chain dbdata_demo db' (dbfetch db' (strhash_slot dbdata_demo db_demo 68)) []) := by
  obtain ⟨⟨db1, h1, h2, _⟩, hall⟩ := wg_remove_from_strhash_chain dbdata_demo db_demo 68
    [68, 132] 3 db_demo_chain68 (by decide) (by decide)
  obtain ⟨db2, h3, h4, _⟩ := hall [132, 68] (by decide) (by decide) db_demo_stable
  exact ⟨⟨db1, h1, h2⟩, ⟨db2, h3, h4⟩⟩

/-- Witness for C5: on the chain 68, 132 the types differ, so the first object is the
only match of its own fields; after its removal the lookup returns 0. -/
theorem wg_find_after_remove_witness :
    ∃ db', wg_remove_from_strhash dbdata_demo 3 db_demo 68 = some (0, db') ∧
      wg_find_strhash_bucket dbdata_demo db' (longstr_data dbdata_demo db_demo 68)
        (longstr_extrastr dbdata_demo db_demo 68) (longstr_type dbdata_demo db_demo 68)
        (longstr_length dbdata_demo db_demo 68) 3
        (dbfetch db' (strhash_slot dbdata_demo db_demo 68)) = some 0 := by
  apply wg_find_after_remove dbdata_demo db_demo 68 [68, 132] 3 db_demo_chain68
    (by decide) (by decide)
  · intro x hx hne
    simp only [List.mem_cons, List.mem_singleton, List.not_mem_nil, or_false] at hx
    rcases hx with rfl | rfl
    · exact absurd rfl hne
    · decide
  · intro a v ha x hx
    have ha2 : a = 1064 ∨ a = 96 ∨ a = 160 := by
      rcases ha with h | ⟨p, hp, h⟩
      · left; rw [h]; decide
      · simp only [List.mem_cons, List.mem_singleton, List.not_mem_nil, or_false] at hp
        rcases hp with rfl | rfl
        · right; left; rw [h]; decide
        · right; right; rw [h]; decide
    simp only [List.mem_cons, List.mem_singleton, List.not_mem_nil, or_false] at hx
    refine ⟨?_, rfl, rfl, rfl⟩
    rcases hx with rfl | rfl <;> rcases ha2 with rfl | rfl | rfl <;>
      simp [dbdata_demo, dbstore, Function.update]

/-! ## Extendible hash: arithmetic and loops -/

theorem mod_two_pow_succ (x l : Nat) :
    x % 2 ^ (l + 1) = x % 2 ^ l + (if x &&& 2 ^ l ≠ 0 then 2 ^ l else 0) := by
  rw [Nat.mod_pow_succ, Nat.and_two_pow, Nat.testBit_to_div_mod]
  have hpos : 0 < 2 ^ l := Nat.two_pow_pos l
  rcases Nat.mod_two_eq_zero_or_one (x / 2 ^ l) with h | h
  · simp [h]
  · simp [h, Nat.pos_iff_ne_zero.mp hpos]

theorem mod_two_pow_succ_eq_iff (i j l : Nat) :
    j % 2 ^ (l + 1) = i % 2 ^ (l + 1) ↔
      j % 2 ^ l = i % 2 ^ l ∧ (j &&& 2 ^ l ≠ 0 ↔ i &&& 2 ^ l ≠ 0) := by
  rw [mod_two_pow_succ i l, mod_two_pow_succ j l]
  have hpos : 0 < 2 ^ l := Nat.two_pow_pos l
  have hi : i % 2 ^ l < 2 ^ l := Nat.mod_lt _ hpos
  have hj : j % 2 ^ l < 2 ^ l := Nat.mod_lt _ hpos
  generalize i % 2 ^ l = a at *
  generalize j % 2 ^ l = b at *
  generalize 2 ^ l = m at *
  by_cases h1 : i &&& m ≠ 0 <;> by_cases h2 : j &&& m ≠ 0
  · rw [if_pos h1, if_pos h2]
    exact ⟨fun h => ⟨by omega, iff_of_true h2 h1⟩, fun h => by omega⟩
  · rw [if_pos h1, if_neg h2]
    exact ⟨fun h => by omega, fun h => absurd (h.2.mpr h1) h2⟩
  · rw [if_neg h1, if_pos h2]
    exact ⟨fun h => by omega, fun h => absurd (h.2.mp h2) h1⟩
  · rw [if_neg h1, if_neg h2]
    exact ⟨fun h => ⟨by omega, iff_of_false h2 h1⟩, fun h => by omega⟩

theorem mod_mod_two_pow (x : Nat) {l g : Nat} (h : l ≤ g) : x % 2 ^ g % 2 ^ l = x % 2 ^ l :=
  Nat.mod_mod_of_dvd x (pow_dvd_pow 2 h)

theorem two_pow_or_of_lt (l b : Nat) (h : b < 2 ^ l) : 2 ^ l ||| b = 2 ^ l + b := by
  have := Nat.mul_add_lt_is_or h 1
  rw [Nat.mul_one] at this
  exact this.symm

theorem and_two_pow_of_lt (l b : Nat) (h : b < 2 ^ l) : b &&& 2 ^ l = 0 := by
  rw [Nat.and_two_pow, Nat.testBit_lt_two_pow h]
  simp

theorem and_two_pow_add (l b : Nat) (h : b < 2 ^ l) : (2 ^ l + b) &&& 2 ^ l ≠ 0 := by
  have h1 := mod_two_pow_succ (2 ^ l + b) l
  have h2 : (2 ^ l + b) % 2 ^ (l + 1) = 2 ^ l + b :=
    Nat.mod_eq_of_lt (by rw [pow_succ]; omega)
  have h3 : (2 ^ l + b) % 2 ^ l = b := by
    rw [Nat.add_mod, Nat.mod_self, Nat.zero_add, Nat.mod_mod, Nat.mod_eq_of_lt h]
  rw [h2, h3] at h1
  intro h0
  rw [if_neg (by simpa using h0)] at h1
  have hpos : 0 < 2 ^ l := Nat.two_pow_pos l
  omega

/-- The loop of `grow_ginthash` as written computes `grow_copy`. -/
theorem grow_copy_loop_eq (sz : Nat) (d : Nat → Option bucket_ptr) :
    grow_copy_loop sz d sz = grow_copy sz d := by
  have h : ∀ n, n ≤ sz → ∀ j, grow_copy_loop sz d n j =
      if sz ≤ j ∧ j < sz + n then d (j - sz) else d j := by
    intro n
    induction n with
    | zero =>
      intro _ j
      have : ¬ (sz ≤ j ∧ j < sz + 0) := by omega
      simp only [grow_copy_loop, this, if_false]
    | succ n ih =>
      intro hn j
      simp only [grow_copy_loop]
      by_cases hj : j = sz + n
      · subst hj
        rw [Function.update_same, ih (by omega) n]
        have h1 : ¬ (sz ≤ n ∧ n < sz + n) := by omega
        have h2 : sz ≤ sz + n ∧ sz + n < sz + (n + 1) := by omega
        simp only [h1, h2, if_false, and_self, if_true, Nat.add_sub_cancel_left]
      · rw [Function.update_noteq hj, ih (by omega) j]
        by_cases h1 : sz ≤ j ∧ j < sz + n
        · have : sz ≤ j ∧ j < sz + (n + 1) := by omega
          simp [h1, this]
        · have : ¬ (sz ≤ j ∧ j < sz + (n + 1)) := by omega
          simp [h1, this]
  funext j
  rw [h sz le_rfl j]
  rfl

/-- The directory scan of `ginthash_splitbucket` as written computes `split_scan`. -/
theorem split_scan_loop_eq (msbmask : Nat) (bucket newbucket : bucket_ptr)
    (d : Nat → Option bucket_ptr) (dirsize : Nat) :
    split_scan_loop msbmask bucket newbucket d dirsize =
      split_scan msbmask bucket newbucket d dirsize := by
  have h : ∀ n j, split_scan_loop msbmask bucket newbucket d n j =
      if j < n ∧ d j = some bucket ∧ j &&& msbmask ≠ 0 then some newbucket else d j := by
    intro n
    induction n with
    | zero => intro j; simp [split_scan_loop]
    | succ n ih =>
      intro j
      simp only [split_scan_loop]
      have hn : split_scan_loop msbmask bucket newbucket d n n = d n := by
        rw [ih n]; simp
      rw [hn]
      by_cases hj : j = n
      · subst hj
        by_cases h1 : d j = some bucket <;> by_cases h2 : j &&& msbmask ≠ 0 <;>
          simp [h1, h2, hn]
      · have hlt : (j < n + 1) = (j < n) := by
          apply propext; omega
        by_cases h1 : d n = some bucket <;> by_cases h2 : n &&& msbmask ≠ 0 <;>
          simp only [h1, h2, if_true, if_false, ne_eq, not_true_eq_false, not_false_eq_true,
            Function.update_noteq hj, ih j, hlt]
  funext j
  rw [h dirsize j]
  rfl

/-! ## Extendible hash: buckets -/

theorem entries_length (b : ginthash_bucket) : (entries b).length = b.fill := by
  simp [entries]

theorem entries_getElem (b : ginthash_bucket) (j : Nat) (h : j < (entries b).length) :
    (entries b)[j] = (b.key j, b.value j) := by
  simp [entries]

theorem mem_entries (b : ginthash_bucket) (kv : Int × Int) :
    kv ∈ entries b ↔ ∃ s, s < b.fill ∧ b.key s = kv.1 ∧ b.value s = kv.2 := by
  simp only [entries, List.mem_map, List.mem_range]
  constructor
  · rintro ⟨s, hs, rfl⟩; exact ⟨s, hs, rfl, rfl⟩
  · rintro ⟨s, hs, h1, h2⟩; exact ⟨s, hs, by rw [h1, h2]⟩

theorem remove_shift_spec : ∀ (n i : Nat) (b : ginthash_bucket),
    (remove_shift i n b).level = b.level ∧ (remove_shift i n b).fill = b.fill ∧
    (∀ j, (remove_shift i n b).key j = if i ≤ j ∧ j < i + n then b.key (j + 1) else b.key j) ∧
    (∀ j, (remove_shift i n b).value j =
      if i ≤ j ∧ j < i + n then b.value (j + 1) else b.value j) := by
  intro n
  induction n with
  | zero =>
    intro i b
    refine ⟨rfl, rfl, fun j => ?_, fun j => ?_⟩ <;>
    · have : ¬ (i ≤ j ∧ j < i + 0) := by omega
      simp only [remove_shift, this, if_false]
  | succ n ih =>
    intro i b
    obtain ⟨h1, h2, h3, h4⟩ := ih (i + 1)
      { b with key := Function.update b.key i (b.key (i + 1))
               value := Function.update b.value i (b.value (i + 1)) }
    refine ⟨h1, h2, fun j => ?_, fun j => ?_⟩
    · simp only [remove_shift]
      rw [h3 j]
      by_cases hj : i + 1 ≤ j ∧ j < i + 1 + n
      · have hj2 : i ≤ j ∧ j < i + (n + 1) := by omega
        have hne : j + 1 ≠ i := by omega
        simp only [hj, hj2, and_self, if_true, Function.update_noteq hne]
      · by_cases hji : j = i
        · subst hji
          have hj2 : j ≤ j ∧ j < j + (n + 1) := by omega
          simp only [hj, hj2, and_self, if_true, if_false, Function.update_same]
        · have hj2 : ¬ (i ≤ j ∧ j < i + (n + 1)) := by omega
          simp only [hj, hj2, if_false, Function.update_noteq hji]
    · simp only [remove_shift]
      rw [h4 j]
      by_cases hj : i + 1 ≤ j ∧ j < i + 1 + n
      · have hj2 : i ≤ j ∧ j < i + (n + 1) := by omega
        have hne : j + 1 ≠ i := by omega
        simp only [hj, hj2, and_self, if_true, Function.update_noteq hne]
      · by_cases hji : j = i
        · subst hji
          have hj2 : j ≤ j ∧ j < j + (n + 1) := by omega
          simp only [hj, hj2, and_self, if_true, if_false, Function.update_same]
        · have hj2 : ¬ (i ≤ j ∧ j < i + (n + 1)) := by omega
          simp only [hj, hj2, if_false, Function.update_noteq hji]

theorem add_to_bucket_eq (mem : bucket_ptr → ginthash_bucket) (p : bucket_ptr)
    (k v : Int) (hfill : (mem p).fill ≤ GINTHASH_BUCKETCAP) :
    (add_to_bucket mem p k v).1 = Function.update mem p
      { mem p with
        key := Function.update (mem p).key (mem p).fill k
        value := Function.update (mem p).value (mem p).fill v
        fill := (mem p).fill + 1 } := by
  have hnot : ¬ (mem p).fill > GINTHASH_BUCKETCAP := by omega
  simp only [add_to_bucket, hnot, if_false]

/-- Effect of `add_to_bucket` on a bucket that has room. -/
theorem add_to_bucket_spec (mem : bucket_ptr → ginthash_bucket) (p : bucket_ptr)
    (k v : Int) (hfill : (mem p).fill ≤ GINTHASH_BUCKETCAP) :
    entries ((add_to_bucket mem p k v).1 p) = entries (mem p) ++ [(k, v)] ∧
    ((add_to_bucket mem p k v).1 p).level = (mem p).level ∧
    ((add_to_bucket mem p k v).1 p).fill = (mem p).fill + 1 ∧
    ∀ q, q ≠ p → (add_to_bucket mem p k v).1 q = mem q := by
  rw [add_to_bucket_eq mem p k v hfill]
  refine ⟨?_, ?_, ?_, fun q hq => Function.update_noteq hq _ _⟩
  · rw [Function.update_same]
    simp only [entries, List.range_succ, List.map_append, List.map_cons, List.map_nil,
      Function.update_same]
    congr 1
    apply List.map_congr_left
    intro s hs
    have hne : s ≠ (mem p).fill := by
      have := List.mem_range.mp hs; omega
    simp only [Function.update_noteq hne]
  · rw [Function.update_same]
  · rw [Function.update_same]

theorem remove_from_bucket_eq (mem : bucket_ptr → ginthash_bucket) (p : bucket_ptr)
    (idx : Nat) :
    (remove_from_bucket mem p idx).1 = Function.update mem p
      { remove_shift idx (GINTHASH_BUCKETCAP - idx) (mem p) with
        fill := (remove_shift idx (GINTHASH_BUCKETCAP - idx) (mem p)).fill - 1 } := rfl

/-- Effect of `remove_from_bucket` at a valid index. -/
theorem remove_from_bucket_spec (mem : bucket_ptr → ginthash_bucket) (p : bucket_ptr)
    (idx : Nat) (hidx : idx < (mem p).fill) (hfill : (mem p).fill ≤ GINTHASH_BUCKETCAP + 1) :
    entries ((remove_from_bucket mem p idx).1 p) =
      (entries (mem p)).take idx ++ (entries (mem p)).drop (idx + 1) ∧
    ((remove_from_bucket mem p idx).1 p).level = (mem p).level ∧
    ((remove_from_bucket mem p idx).1 p).fill = (mem p).fill - 1 ∧
    (remove_from_bucket mem p idx).2 = (mem p).value idx ∧
    ∀ q, q ≠ p → (remove_from_bucket mem p idx).1 q = mem q := by
  obtain ⟨h1, h2, h3, h4⟩ := remove_shift_spec (GINTHASH_BUCKETCAP - idx) idx (mem p)
  rw [remove_from_bucket_eq]
  refine ⟨?_, ?_, ?_, rfl, fun q hq => Function.update_noteq hq _ _⟩
  · rw [Function.update_same]
    apply List.ext_getElem
    · simp only [entries_length, List.length_append, List.length_take, List.length_drop, h2]
      omega
    · intro j hj1 hj2
      have hj3 : j < (mem p).fill - 1 := by
        simpa only [entries_length, h2] using hj1
      simp only [GINTHASH_BUCKETCAP] at hfill h3 h4 ⊢
      rw [entries_getElem]
      simp only [h3, h4]
      by_cases hlt : j < idx
      · have hc : ¬ (idx ≤ j ∧ j < idx + (3 - idx)) := by omega
        rw [List.getElem_append_left (by simp [entries_length]; omega)]
        simp only [hc, if_false, List.getElem_take, entries_getElem]
      · have hc : idx ≤ j ∧ j < idx + (3 - idx) := by omega
        rw [List.getElem_append_right (by simp [entries_length]; omega)]
        simp only [hc, and_self, if_true, List.getElem_drop, entries_getElem,
          List.length_take, entries_length]
        have : idx + 1 + (j - min idx (mem p).fill) = j + 1 := by omega
        simp only [this]
  · rw [Function.update_same]; exact h1
  · rw [Function.update_same]; show _ - 1 = _ - 1; rw [h2]

/-- Effect of the entry-splitting loop of `ginthash_splitbucket` on two distinct
buckets: the entries with the mask bit clear stay, in order; the others are appended
to the new bucket, from the last slot to the first. -/
theorem split_entries_spec (m : Nat) (cur nb : bucket_ptr) (hne : cur ≠ nb) :
    ∀ (n : Nat) (mem : bucket_ptr → ginthash_bucket),
      n ≤ (mem cur).fill → (mem cur).fill ≤ GINTHASH_BUCKETCAP + 1 →
      (mem nb).fill + n ≤ GINTHASH_BUCKETCAP + 1 →
      entries (split_entries m cur nb n mem cur) =
        ((entries (mem cur)).take n).filter
            (fun kv => !decide (GINTHASH_SCRAMBLE kv.1 &&& m ≠ 0)) ++
          (entries (mem cur)).drop n ∧
      entries (split_entries m cur nb n mem nb) =
        entries (mem nb) ++
          (((entries (mem cur)).take n).filter
            (fun kv => decide (GINTHASH_SCRAMBLE kv.1 &&& m ≠ 0))).reverse ∧
      (split_entries m cur nb n mem cur).level = (mem cur).level ∧
      (split_entries m cur nb n mem nb).level = (mem nb).level ∧
      ∀ r, r ≠ cur → r ≠ nb → split_entries m cur nb n mem r = mem r := by
  intro n
  induction n with
  | zero =>
    intro mem _ _ _
    simp [split_entries]
  | succ n ih =>
    intro mem hn hfill hroom
    have hnlt : n < (entries (mem cur)).length := by rw [entries_length]; omega
    have htake : (entries (mem cur)).take (n + 1) =
        (entries (mem cur)).take n ++ [((mem cur).key n, (mem cur).value n)] := by
      rw [List.take_succ, List.getElem?_eq_getElem hnlt, entries_getElem]
      rfl
    have hdrop : (entries (mem cur)).drop n =
        ((mem cur).key n, (mem cur).value n) :: (entries (mem cur)).drop (n + 1) := by
      rw [List.drop_eq_getElem_cons hnlt, entries_getElem]
    simp only [split_entries]
    by_cases hbit : GINTHASH_SCRAMBLE ((mem cur).key n) &&& m ≠ 0
    · rw [if_pos hbit]
      obtain ⟨r1, r2, r3, r4, r5⟩ := remove_from_bucket_spec mem cur n (by omega) hfill
      have hnb : (remove_from_bucket mem cur n).1 nb = mem nb := r5 nb (Ne.symm hne)
      obtain ⟨a1, a2, a3, a4⟩ := add_to_bucket_spec (remove_from_bucket mem cur n).1 nb
        ((mem cur).key n) (remove_from_bucket mem cur n).2 (by rw [hnb]; omega)
      have hcur := a4 cur hne
      obtain ⟨i1, i2, i3, i4, i5⟩ := ih
        (add_to_bucket (remove_from_bucket mem cur n).1 nb ((mem cur).key n)
          (remove_from_bucket mem cur n).2).1
        (by rw [hcur, r3]; omega) (by rw [hcur, r3]; omega) (by rw [a3, hnb]; omega)
      have hlen : ((entries (mem cur)).take n).length = n := by
        rw [List.length_take]; omega
      rw [hcur, r1] at i1 i2
      rw [List.take_left' hlen] at i1 i2
      rw [List.drop_left' hlen] at i1
      refine ⟨?_, ?_, ?_, ?_, ?_⟩
      · rw [i1, htake, List.filter_append]
        simp [hbit]
      · rw [i2, a1, hnb, r4, htake, List.filter_append]
        simp [hbit]
      · rw [i3, hcur, r2]
      · rw [i4, a2, hnb]
      · intro r hr1 hr2
        rw [i5 r hr1 hr2, a4 r hr2, r5 r hr1]
    · rw [if_neg hbit]
      obtain ⟨i1, i2, i3, i4, i5⟩ := ih mem (by omega) hfill (by omega)
      refine ⟨?_, ?_, i3, i4, i5⟩
      · have hb0 : GINTHASH_SCRAMBLE ((mem cur).key n) &&& m = 0 := by
          simpa using hbit
        rw [i1, htake, hdrop, List.filter_append]
        simp [hb0]
      · rw [i2, htake, List.filter_append]
        simp [hbit]

/-! ## Extendible hash: splitting and growth -/

/-- The table after a split, described abstractly, satisfies the structural invariant,
the fill bound with the overfull bucket (if any) as current bucket, and stores the
same pairs. -/
theorem split_abstract (t1 t' : ext_ginthash) (cur nb : bucket_ptr) (l i0 : Nat)
    (hwf : tbl_wf t1) (hfills : fills_ok t1 cur)
    (hl : (t1.buckets cur).level = l) (hlg : l < t1.level)
    (hi0 : i0 < 2 ^ t1.level) (hd0 : t1.directory i0 = some cur)
    (hnb1 : ¬ issued t1 nb) (hnb2 : issued t' nb) (hiss : ∀ p, issued t1 p → issued t' p)
    (hlvl : t'.level = t1.level)
    (hdir : ∀ j, t'.directory j =
      if j < 2 ^ t1.level ∧ t1.directory j = some cur ∧ j &&& 2 ^ l ≠ 0 then some nb
      else t1.directory j)
    (hcl : (t'.buckets cur).level = l + 1)
    (hce : entries (t'.buckets cur) = (entries (t1.buckets cur)).filter
      (fun kv => !decide (GINTHASH_SCRAMBLE kv.1 &&& 2 ^ l ≠ 0)))
    (hnl : (t'.buckets nb).level = l + 1)
    (hne : entries (t'.buckets nb) = ((entries (t1.buckets cur)).filter
      (fun kv => decide (GINTHASH_SCRAMBLE kv.1 &&& 2 ^ l ≠ 0))).reverse)
    (hoth : ∀ r, r ≠ cur → r ≠ nb → t'.buckets r = t1.buckets r) :
    tbl_wf t' ∧
    fills_ok t' (if (t'.buckets nb).fill > GINTHASH_BUCKETCAP then nb else cur) ∧
    (∃ i, i < 2 ^ t'.level ∧ t'.directory i =
      some (if (t'.buckets nb).fill > GINTHASH_BUCKETCAP then nb else cur)) ∧
    (∀ k v, stored t' k v ↔ stored t1 k v) := by
  obtain ⟨hg1, hg2, hslots⟩ := hwf
  have hcur_inv : ∀ i, i < 2 ^ t1.level → t1.directory i = some cur → slot_inv t1 i cur :=
    fun i hi hd => hslots i cur hi hd
  have hcur_iss : issued t1 cur := (hcur_inv i0 hi0 hd0).1
  have hcn : cur ≠ nb := fun h => hnb1 (h ▸ hcur_iss)
  have hnotdir : ∀ j, j < 2 ^ t1.level → t1.directory j ≠ some nb :=
    fun j hj hd => hnb1 (hslots j nb hj hd).1
  have hpos : 0 < 2 ^ l := Nat.two_pow_pos l
  have hpow : 2 ^ (l + 1) ≤ 2 ^ t1.level := Nat.pow_le_pow_right (by decide) hlg
  have hpow2 : 2 ^ (l + 1) = 2 ^ l + 2 ^ l := by rw [pow_succ]; omega
  -- directory characterisations
  have hdir_nb : ∀ j, j < 2 ^ t1.level →
      (t'.directory j = some nb ↔ t1.directory j = some cur ∧ j &&& 2 ^ l ≠ 0) := by
    intro j hj
    rw [hdir j]
    by_cases hc : j < 2 ^ t1.level ∧ t1.directory j = some cur ∧ j &&& 2 ^ l ≠ 0
    · rw [if_pos hc]
      exact ⟨fun _ => hc.2, fun _ => rfl⟩
    · rw [if_neg hc]
      constructor
      · intro h; exact absurd h (hnotdir j hj)
      · intro h; exact absurd ⟨hj, h⟩ hc
  have hdir_cur : ∀ j, j < 2 ^ t1.level →
      (t'.directory j = some cur ↔ t1.directory j = some cur ∧ ¬ j &&& 2 ^ l ≠ 0) := by
    intro j hj
    rw [hdir j]
    by_cases hc : j < 2 ^ t1.level ∧ t1.directory j = some cur ∧ j &&& 2 ^ l ≠ 0
    · rw [if_pos hc]
      constructor
      · intro h; exact absurd (Option.some.inj h).symm hcn
      · intro h; exact absurd hc.2.2 h.2
    · rw [if_neg hc]
      constructor
      · intro h; exact ⟨h, fun hb => hc ⟨hj, h, hb⟩⟩
      · intro h; exact h.1
  have hdir_oth : ∀ j p, p ≠ cur → p ≠ nb →
      (t'.directory j = some p ↔ t1.directory j = some p) := by
    intro j p hp1 hp2
    rw [hdir j]
    by_cases hc : j < 2 ^ t1.level ∧ t1.directory j = some cur ∧ j &&& 2 ^ l ≠ 0
    · rw [if_pos hc]
      constructor
      · intro h; exact absurd (Option.some.inj h).symm hp2
      · intro h; rw [hc.2.1] at h; exact absurd (Option.some.inj h).symm hp1
    · rw [if_neg hc]
  -- the two witness slots
  have hic : i0 % 2 ^ l < 2 ^ l := Nat.mod_lt _ hpos
  have hslot_c : t'.directory (i0 % 2 ^ l) = some cur := by
    have hlt : i0 % 2 ^ l < 2 ^ t1.level := by omega
    rw [hdir_cur _ hlt]
    refine ⟨?_, by simp [and_two_pow_of_lt l _ hic]⟩
    have := (hcur_inv i0 hi0 hd0).2.2.1 (i0 % 2 ^ l) hlt
    rw [hl] at this
    exact this.mpr (Nat.mod_mod _ _)
  have hslot_n : t'.directory (2 ^ l + i0 % 2 ^ l) = some nb := by
    have hlt : 2 ^ l + i0 % 2 ^ l < 2 ^ t1.level := by omega
    rw [hdir_nb _ hlt]
    refine ⟨?_, and_two_pow_add l _ hic⟩
    have := (hcur_inv i0 hi0 hd0).2.2.1 (2 ^ l + i0 % 2 ^ l) hlt
    rw [hl] at this
    apply this.mpr
    rw [Nat.add_mod, Nat.mod_self, Nat.zero_add, Nat.mod_mod, Nat.mod_mod]
  -- fills
  have hlen : (t'.buckets cur).fill + (t'.buckets nb).fill = (t1.buckets cur).fill := by
    rw [← entries_length, ← entries_length, ← entries_length, hce, hne, List.length_reverse,
      List.length_eq_length_filter_add (fun kv => decide (GINTHASH_SCRAMBLE kv.1 &&& 2 ^ l ≠ 0))
        (l := entries (t1.buckets cur))]
    omega
  have hcurfill : (t1.buckets cur).fill ≤ GINTHASH_BUCKETCAP + 1 := by
    rcases hfills i0 cur hi0 hd0 with h | h
    · omega
    · exact h.2
  refine ⟨⟨by rw [hlvl]; exact hg1, by rw [hlvl]; exact hg2, ?_⟩, ?_, ?_, ?_⟩
  · -- slot invariants
    intro i p hi hd
    rw [hlvl] at hi
    by_cases hpn : p = nb
    · subst hpn
      obtain ⟨hdc, hbit⟩ := (hdir_nb i hi).mp hd
      obtain ⟨_, _, hcong, hkeys⟩ := hcur_inv i hi hdc
      rw [hl] at hcong hkeys
      refine ⟨hnb2, by rw [hnl, hlvl]; omega, ?_, ?_⟩
      · intro j hj
        rw [hlvl] at hj
        rw [hnl, hdir_nb j hj, hcong j hj, mod_two_pow_succ_eq_iff]
        constructor
        · intro h; exact ⟨h.1, iff_of_true h.2 hbit⟩
        · intro h; exact ⟨h.1, h.2.mpr hbit⟩
      · intro kv hkv
        rw [hne, List.mem_reverse, List.mem_filter] at hkv
        rw [hnl, mod_two_pow_succ_eq_iff]
        exact ⟨hkeys kv hkv.1, iff_of_true (by simpa using hkv.2) hbit⟩
    · by_cases hpc : p = cur
      · subst hpc
        obtain ⟨hdc, hbit⟩ := (hdir_cur i hi).mp hd
        obtain ⟨_, _, hcong, hkeys⟩ := hcur_inv i hi hdc
        rw [hl] at hcong hkeys
        refine ⟨hiss _ hcur_iss, by rw [hcl, hlvl]; omega, ?_, ?_⟩
        · intro j hj
          rw [hlvl] at hj
          rw [hcl, hdir_cur j hj, hcong j hj, mod_two_pow_succ_eq_iff]
          constructor
          · intro h; exact ⟨h.1, iff_of_false h.2 hbit⟩
          · intro h; exact ⟨h.1, fun hb => hbit (h.2.mp hb)⟩
        · intro kv hkv
          rw [hce, List.mem_filter] at hkv
          rw [hcl, mod_two_pow_succ_eq_iff]
          exact ⟨hkeys kv hkv.1, iff_of_false (by simpa using hkv.2) hbit⟩
      · have hd1 : t1.directory i = some p := (hdir_oth i p hpc hpn).mp hd
        obtain ⟨h1, h2, h3, h4⟩ := hslots i p hi hd1
        refine ⟨hiss _ h1, by rw [hoth p hpc hpn, hlvl]; exact h2, ?_, ?_⟩
        · intro j hj
          rw [hlvl] at hj
          rw [hoth p hpc hpn, hdir_oth j p hpc hpn]
          exact h3 j hj
        · rw [hoth p hpc hpn]; exact h4
  · -- fill bounds
    intro i p hi hd
    rw [hlvl] at hi
    by_cases hpn : p = nb
    · subst hpn
      by_cases hover : (t'.buckets p).fill > GINTHASH_BUCKETCAP
      · right; rw [if_pos hover]; exact ⟨rfl, by omega⟩
      · left; omega
    · by_cases hpc : p = cur
      · subst hpc
        by_cases hover : (t'.buckets nb).fill > GINTHASH_BUCKETCAP
        · left; simp only [GINTHASH_BUCKETCAP] at *; omega
        · right; rw [if_neg hover]; exact ⟨rfl, by omega⟩
      · have hd1 : t1.directory i = some p := (hdir_oth i p hpc hpn).mp hd
        rcases hfills i p hi hd1 with h | h
        · left; rw [hoth p hpc hpn]; exact h
        · exact absurd h.1 hpc
  · -- the current bucket is referenced
    by_cases hover : (t'.buckets nb).fill > GINTHASH_BUCKETCAP
    · rw [if_pos hover]
      exact ⟨2 ^ l + i0 % 2 ^ l, by rw [hlvl]; omega, hslot_n⟩
    · rw [if_neg hover]
      exact ⟨i0 % 2 ^ l, by rw [hlvl]; omega, hslot_c⟩
  · -- stored pairs
    intro k v
    constructor
    · rintro ⟨i, p, hi, hd, hmem⟩
      rw [hlvl] at hi
      by_cases hpn : p = nb
      · subst hpn
        rw [hne, List.mem_reverse, List.mem_filter] at hmem
        exact ⟨i0, cur, hi0, hd0, hmem.1⟩
      · by_cases hpc : p = cur
        · subst hpc
          rw [hce, List.mem_filter] at hmem
          exact ⟨i0, p, hi0, hd0, hmem.1⟩
        · rw [hoth p hpc hpn] at hmem
          exact ⟨i, p, hi, (hdir_oth i p hpc hpn).mp hd, hmem⟩
    · rintro ⟨i, p, hi, hd, hmem⟩
      by_cases hpc : p = cur
      · subst hpc
        by_cases hbit : GINTHASH_SCRAMBLE k &&& 2 ^ l ≠ 0
        · refine ⟨2 ^ l + i0 % 2 ^ l, nb, by rw [hlvl]; omega, hslot_n, ?_⟩
          rw [hne, List.mem_reverse, List.mem_filter]
          exact ⟨hmem, by simpa using hbit⟩
        · refine ⟨i0 % 2 ^ l, p, by rw [hlvl]; omega, hslot_c, ?_⟩
          rw [hce, List.mem_filter]
          exact ⟨hmem, by simpa using hbit⟩
      · have hpn : p ≠ nb := fun h => hnotdir i hi (h ▸ hd)
        refine ⟨i, p, by rw [hlvl]; exact hi, (hdir_oth i p hpc hpn).mpr hd, ?_⟩
        rw [hoth p hpc hpn]; exact hmem

/-- Effect of a successful `ginthash_newbucket`: the bucket is fresh, it and all
earlier buckets count as issued afterwards, and only its fill is written. -/
theorem newbucket_spec (t t' : ext_ginthash) (nb : bucket_ptr)
    (h : ginthash_newbucket t = (some nb, t')) :
    ¬ issued t nb ∧ issued t' nb ∧ (∀ p, issued t p → issued t' p) ∧
    t'.level = t.level ∧ t'.directory = t.directory ∧
    t'.buckets = Function.update t.buckets nb { t.buckets nb with fill := 0 } := by
  unfold ginthash_newbucket at h
  by_cases hfp : t.free_pool > t.level
  · rw [if_pos hfp] at h
    exact absurd (congrArg Prod.fst h) (by simp)
  · rw [if_neg hfp] at h
    simp only [Prod.mk.injEq, Option.some.injEq] at h
    obtain ⟨h1, h2⟩ := h
    have hnext : t'.nextbucket t.free_pool = t.nextbucket t.free_pool + 1 := by
      rw [← h2]; exact Function.update_same _ _ _
    have hfree : t'.free_pool = t.free_pool ∨ t'.free_pool = t.free_pool + 1 := by
      rw [← h2]
      show (if _ then _ else _) = _ ∨ (if _ then _ else _) = _
      split_ifs <;> simp
    refine ⟨?_, ?_, ?_, by rw [← h2], by rw [← h2], by rw [← h2, ← h1]⟩
    · rw [← h1]; simp [issued]
    · rw [← h1]
      rcases hfree with hf | hf
      · right; rw [hf, hnext]; exact ⟨rfl, Nat.lt_succ_self _⟩
      · left; rw [hf]; exact Nat.lt_succ_self _
    · intro p hp
      rcases hfree with hf | hf
      · rcases hp with hp | hp
        · left; rw [hf]; exact hp
        · right; rw [hf, hnext]; exact ⟨hp.1, by omega⟩
      · left; rw [hf]; rcases hp with hp | hp <;> omega

/-- Effect of a successful `grow_ginthash` on a table of level at least 1. -/
theorem grow_spec (t t' : ext_ginthash) (hlevel : 1 ≤ t.level)
    (h : grow_ginthash t = (0, t')) :
    t'.level = t.level + 1 ∧ t'.level < GINTHASH_MAXLEVEL ∧ t'.buckets = t.buckets ∧
    t'.nextbucket = t.nextbucket ∧ t'.free_pool = t.free_pool ∧
    ∀ j, j < 2 ^ (t.level + 1) → t'.directory j = t.directory (j % 2 ^ t.level) := by
  unfold grow_ginthash at h
  by_cases hmax : t.level + 1 ≥ GINTHASH_MAXLEVEL
  · rw [if_pos hmax] at h
    exact absurd (congrArg Prod.fst h) (by simp)
  · rw [if_neg hmax] at h
    have hne : t.level ≠ 0 := by omega
    simp only [hne, ne_eq, not_false_eq_true, if_true, Prod.mk.injEq, true_and] at h
    subst h
    refine ⟨rfl, by simpa using hmax, rfl, rfl, rfl, ?_⟩
    intro j hj
    have hpos : 0 < 2 ^ t.level := Nat.two_pow_pos _
    simp only [grow_copy, Nat.one_shiftLeft]
    rw [pow_succ] at hj
    by_cases hc : 2 ^ t.level ≤ j ∧ j < 2 ^ t.level + 2 ^ t.level
    · rw [if_pos hc]
      congr 1
      rw [Nat.mod_eq_sub_mod hc.1, Nat.mod_eq_of_lt (by omega)]
    · rw [if_neg hc, Nat.mod_eq_of_lt (by omega)]

/-- A successful `grow_ginthash` preserves the invariants and the stored pairs. -/
theorem grow_wf (t t' : ext_ginthash) (cur : bucket_ptr) (hwf : tbl_wf t)
    (hfills : fills_ok t cur) (h : grow_ginthash t = (0, t')) :
    tbl_wf t' ∧ fills_ok t' cur ∧ t'.level = t.level + 1 ∧ t'.buckets = t.buckets ∧
    (∀ i p, i < 2 ^ t.level → t.directory i = some p → t'.directory i = some p) ∧
    (∀ k v, stored t' k v ↔ stored t k v) := by
  obtain ⟨hg1, hg2, hslots⟩ := hwf
  obtain ⟨e1, e2, e3, e4, e5, e6⟩ := grow_spec t t' hg1 h
  have hpos : 0 < 2 ^ t.level := Nat.two_pow_pos _
  have hmod : ∀ j, j % 2 ^ t.level < 2 ^ t.level := fun j => Nat.mod_lt _ hpos
  have hpow : 2 ^ t.level < 2 ^ (t.level + 1) := by rw [pow_succ]; omega
  refine ⟨⟨by omega, e2, ?_⟩, ?_, e1, e3, ?_, ?_⟩
  · intro i p hi hd
    rw [e1] at hi
    rw [e6 i hi] at hd
    obtain ⟨h1, h2, h3, h4⟩ := hslots _ p (hmod i) hd
    refine ⟨?_, by rw [e3, e1]; omega, ?_, ?_⟩
    · simp only [issued, e4, e5] at h1 ⊢; exact h1
    · intro j hj
      rw [e1] at hj
      rw [e6 j hj, e3, h3 _ (hmod j), mod_mod_two_pow _ h2, mod_mod_two_pow _ h2]
    · rw [e3]
      intro kv hkv
      rw [h4 kv hkv, mod_mod_two_pow _ h2]
  · intro i p hi hd
    rw [e1] at hi
    rw [e6 i hi] at hd
    rw [e3]
    exact hfills _ p (hmod i) hd
  · intro i p hi hd
    rw [e6 i (by omega), Nat.mod_eq_of_lt hi]
    exact hd
  · intro k v
    constructor
    · rintro ⟨i, p, hi, hd, hmem⟩
      rw [e1] at hi
      rw [e6 i hi] at hd
      rw [e3] at hmem
      exact ⟨_, p, hmod i, hd, hmem⟩
    · rintro ⟨i, p, hi, hd, hmem⟩
      refine ⟨i, p, by rw [e1]; omega, ?_, by rw [e3]; exact hmem⟩
      rw [e6 i (by omega), Nat.mod_eq_of_lt hi]
      exact hd

/-- A successful `split_rest` on an overfull bucket below the global level preserves
the invariants and the stored pairs. -/
theorem split_rest_wf (t1 t' : ext_ginthash) (cur nb : bucket_ptr) (i0 : Nat)
    (hwf : tbl_wf t1) (hfills : fills_ok t1 cur)
    (hfull : (t1.buckets cur).fill = GINTHASH_BUCKETCAP + 1)
    (hlg : (t1.buckets cur).level < t1.level)
    (hi0 : i0 < 2 ^ t1.level) (hd0 : t1.directory i0 = some cur)
    (h : split_rest t1 cur = (some nb, t')) :
    tbl_wf t' ∧
    fills_ok t' (if (t'.buckets nb).fill > GINTHASH_BUCKETCAP then nb else cur) ∧
    (∃ i, i < 2 ^ t'.level ∧ t'.directory i =
      some (if (t'.buckets nb).fill > GINTHASH_BUCKETCAP then nb else cur)) ∧
    (∀ k v, stored t' k v ↔ stored t1 k v) ∧
    t'.level = t1.level ∧
    (t'.buckets cur).level = (t1.buckets cur).level + 1 ∧
    (t'.buckets nb).level = (t1.buckets cur).level + 1 := by
  unfold split_rest at h
  simp only [] at h
  split at h
  · exact absurd (congrArg Prod.fst h) (by simp)
  · rename_i nb0 tbl3 hnbr
    simp only [Prod.mk.injEq, Option.some.injEq] at h
    obtain ⟨hnb, ht'⟩ := h
    subst hnb
    obtain ⟨n1, n2, n3, n4, n5, n6⟩ := newbucket_spec _ _ _ hnbr
    simp only [] at n4 n5 n6
    have n1' : ¬ issued t1 nb0 := n1
    have n3' : ∀ p, issued t1 p → issued tbl3 p := n3
    have hslot0 : slot_inv t1 i0 cur := hwf.2.2 i0 cur hi0 hd0
    have hcn : cur ≠ nb0 := fun hc => n1' (hc ▸ hslot0.1)
    have hb3cur : tbl3.buckets cur =
        { t1.buckets cur with level := (t1.buckets cur).level + 1 } := by
      rw [n6, Function.update_noteq hcn, Function.update_same]
    have hb3nb : (tbl3.buckets nb0).fill = 0 := by
      rw [n6, Function.update_same]
    have hb3oth : ∀ r, r ≠ cur → r ≠ nb0 → tbl3.buckets r = t1.buckets r := by
      intro r h1 h2
      rw [n6, Function.update_noteq h2, Function.update_noteq h1]
    obtain ⟨mem1, hmem1⟩ : ∃ m, m = Function.update tbl3.buckets nb0
        { level := (tbl3.buckets cur).level, fill := (tbl3.buckets nb0).fill,
          key := (tbl3.buckets nb0).key, value := (tbl3.buckets nb0).value } := ⟨_, rfl⟩
    rw [← hmem1] at ht'
    simp only [Nat.one_shiftLeft] at ht'
    have hm1c : mem1 cur = { t1.buckets cur with level := (t1.buckets cur).level + 1 } := by
      rw [hmem1, Function.update_noteq hcn, hb3cur]
    have hm1n : mem1 nb0 =
        ginthash_bucket.mk ((t1.buckets cur).level + 1) 0 (tbl3.buckets nb0).key
          (tbl3.buckets nb0).value := by
      rw [hmem1, Function.update_same, hb3cur, hb3nb]
    have hm1o : ∀ r, r ≠ cur → r ≠ nb0 → mem1 r = t1.buckets r := by
      intro r h1 h2
      rw [hmem1, Function.update_noteq h2, hb3oth r h1 h2]
    have hm1cf : (mem1 cur).fill = GINTHASH_BUCKETCAP + 1 := by rw [hm1c]; exact hfull
    have hm1ce : entries (mem1 cur) = entries (t1.buckets cur) := by rw [hm1c]; rfl
    have hm1ne : entries (mem1 nb0) = [] := by rw [hm1n]; rfl
    obtain ⟨s1, s2, s3, s4, s5⟩ := split_entries_spec (2 ^ (t1.buckets cur).level) cur nb0
      hcn (mem1 cur).fill mem1 le_rfl (by rw [hm1cf]) (by rw [hm1n, hm1cf]; simp)
    have hlenE : (entries (t1.buckets cur)).length = GINTHASH_BUCKETCAP + 1 := by
      rw [entries_length, hfull]
    rw [hm1ce, hm1cf, ← hlenE, List.take_length, List.drop_length, List.append_nil] at s1
    rw [hm1ce, hm1ne, hm1cf, ← hlenE, List.take_length, List.nil_append] at s2
    replace s3 : (split_entries (2 ^ (t1.buckets cur).level) cur nb0 (mem1 cur).fill mem1
        cur).level = (t1.buckets cur).level + 1 := by rw [s3, hm1c]
    replace s4 : (split_entries (2 ^ (t1.buckets cur).level) cur nb0 (mem1 cur).fill mem1
        nb0).level = (t1.buckets cur).level + 1 := by rw [s4, hm1n]
    rw [hlenE, ← hm1cf] at s1 s2
    have hlvl : t'.level = t1.level := by rw [← ht']; exact n4
    have hbk : t'.buckets = split_entries (2 ^ (t1.buckets cur).level) cur nb0
        (mem1 cur).fill mem1 := by rw [← ht']
    have hiss : ∀ p, issued tbl3 p → issued t' p := by
      intro p hp; rw [← ht']; exact hp
    have hpos : 0 < 2 ^ (t1.buckets cur).level := Nat.two_pow_pos _
    have hkey0 : GINTHASH_SCRAMBLE ((t1.buckets cur).key 0) % 2 ^ (t1.buckets cur).level =
        i0 % 2 ^ (t1.buckets cur).level := by
      apply hslot0.2.2.2 ((t1.buckets cur).key 0, (t1.buckets cur).value 0)
      rw [mem_entries]
      exact ⟨0, by rw [hfull]; simp, rfl, rfl⟩
    have hdir : ∀ j, t'.directory j =
        if j < 2 ^ t1.level ∧ t1.directory j = some cur ∧ j &&& 2 ^ (t1.buckets cur).level ≠ 0
        then some nb0 else t1.directory j := by
      intro j
      rw [← ht']
      simp only [s3, n4, n5, Function.update_same,
        Nat.and_pow_two_sub_one_eq_mod, hkey0]
      by_cases hdirect : (t1.buckets cur).level + 1 = t1.level
      · rw [if_pos hdirect]
        have hlt : i0 % 2 ^ (t1.buckets cur).level < 2 ^ (t1.buckets cur).level :=
          Nat.mod_lt _ hpos
        rw [two_pow_or_of_lt _ _ hlt]
        have hpow : 2 ^ t1.level = 2 ^ (t1.buckets cur).level + 2 ^ (t1.buckets cur).level := by
          rw [← hdirect, pow_succ]; omega
        by_cases hj : j = 2 ^ (t1.buckets cur).level + i0 % 2 ^ (t1.buckets cur).level
        · have hjlt : j < 2 ^ t1.level := by omega
          have hjd : t1.directory j = some cur := by
            apply (hslot0.2.2.1 j hjlt).mpr
            rw [hj, Nat.add_mod, Nat.mod_self, Nat.zero_add, Nat.mod_mod, Nat.mod_mod]
          have hjb : j &&& 2 ^ (t1.buckets cur).level ≠ 0 := by
            rw [hj]; exact and_two_pow_add _ _ hlt
          rw [if_pos ⟨hjlt, hjd, hjb⟩, hj, Function.update_same]
        · rw [Function.update_noteq hj]
          have hnc : ¬ (j < 2 ^ t1.level ∧ t1.directory j = some cur ∧
              j &&& 2 ^ (t1.buckets cur).level ≠ 0) := by
            rintro ⟨c1, c2, c3⟩
            have hc := (hslot0.2.2.1 j c1).mp c2
            have hm := mod_two_pow_succ j (t1.buckets cur).level
            rw [if_pos c3, hdirect, Nat.mod_eq_of_lt c1, hc] at hm
            omega
          rw [if_neg hnc]
      · rw [if_neg hdirect]
        rfl
    obtain ⟨r1, r2, r3, r4⟩ := split_abstract t1 t' cur nb0 (t1.buckets cur).level i0 hwf
      hfills rfl hlg hi0 hd0 n1' (hiss _ n2) (fun p hp => hiss p (n3' p hp)) hlvl hdir
      (by rw [hbk, s3]) (by rw [hbk, s1]) (by rw [hbk, s4]) (by rw [hbk, s2])
      (fun r h1 h2 => by rw [hbk, s5 r h1 h2, hm1o r h1 h2])
    exact ⟨r1, r2, r3, r4, hlvl, by rw [hbk, s3], by rw [hbk, s4]⟩

/-- A successful `ginthash_splitbucket` on an overfull bucket preserves the invariants
and the stored pairs; both buckets end one level deeper. -/
theorem splitbucket_wf (t t' : ext_ginthash) (cur nb : bucket_ptr) (i0 : Nat)
    (hwf : tbl_wf t) (hfills : fills_ok t cur)
    (hfull : (t.buckets cur).fill = GINTHASH_BUCKETCAP + 1)
    (hi0 : i0 < 2 ^ t.level) (hd0 : t.directory i0 = some cur)
    (h : ginthash_splitbucket t cur = (some nb, t')) :
    tbl_wf t' ∧
    fills_ok t' (if (t'.buckets nb).fill > GINTHASH_BUCKETCAP then nb else cur) ∧
    (∃ i, i < 2 ^ t'.level ∧ t'.directory i =
      some (if (t'.buckets nb).fill > GINTHASH_BUCKETCAP then nb else cur)) ∧
    (∀ k v, stored t' k v ↔ stored t k v) ∧
    (t'.buckets cur).level = (t.buckets cur).level + 1 ∧
    (t'.buckets nb).level = (t.buckets cur).level + 1 := by
  unfold ginthash_splitbucket at h
  simp only [] at h
  by_cases hlev : (t.buckets cur).level = t.level
  · rw [if_pos hlev] at h
    by_cases hrc : (grow_ginthash t).1 ≠ 0
    · rw [if_pos hrc] at h
      exact absurd (congrArg Prod.fst h) (by simp)
    · rw [if_neg hrc] at h
      have hg : grow_ginthash t = (0, (grow_ginthash t).2) := by
        have : (grow_ginthash t).1 = 0 := by simpa using hrc
        exact Prod.ext this rfl
      obtain ⟨g1, g2, g3, g4, g5, g6⟩ := grow_wf t _ cur hwf hfills hg
      obtain ⟨r1, r2, r3, r4, _, r6, r7⟩ := split_rest_wf _ t' cur nb i0 g1 g2
        (by rw [g4]; exact hfull) (by rw [g4, g3, hlev]; exact Nat.lt_succ_self _)
        (by rw [g3, pow_succ]; omega) (g5 i0 cur hi0 hd0) h
      rw [g4] at r6 r7
      exact ⟨r1, r2, r3, fun k v => (r4 k v).trans (g6 k v), r6, r7⟩
  · rw [if_neg hlev] at h
    simp only [ne_eq, not_true_eq_false, if_false] at h
    have hle : (t.buckets cur).level ≤ t.level := (hwf.2.2 i0 cur hi0 hd0).2.1
    obtain ⟨r1, r2, r3, r4, _, r6, r7⟩ := split_rest_wf t t' cur nb i0 hwf hfills hfull
      (lt_of_le_of_ne hle hlev) hi0 hd0 h
    exact ⟨r1, r2, r3, r4, r6, r7⟩

/-- The split loop of `wg_ginthash_addkey`, when it ends with status 0, restores the
invariant and keeps the stored pairs. -/
theorem addkey_loop_inv : ∀ (fuel : Nat) (t t' : ext_ginthash) (cur : bucket_ptr),
    tbl_wf t → fills_ok t cur → (∃ i, i < 2 ^ t.level ∧ t.directory i = some cur) →
    addkey_loop fuel t cur = some (0, t') →
    tbl_inv t' ∧ (∀ k v, stored t' k v ↔ stored t k v) := by
  intro fuel
  induction fuel with
  | zero => intro t t' cur _ _ _ h; simp [addkey_loop] at h
  | succ fuel ih =>
    intro t t' cur hwf hfills hslot h
    obtain ⟨i0, hi0, hd0⟩ := hslot
    unfold addkey_loop at h
    by_cases hover : (t.buckets cur).fill > GINTHASH_BUCKETCAP
    · rw [if_pos hover] at h
      have hfull : (t.buckets cur).fill = GINTHASH_BUCKETCAP + 1 := by
        rcases hfills i0 cur hi0 hd0 with h1 | h1
        · omega
        · have := h1.2; omega
      split at h
      · simp at h
      · rename_i nb t1 hs
        obtain ⟨r1, r2, r3, r4, _, _⟩ := splitbucket_wf t t1 cur nb i0 hwf hfills hfull hi0 hd0 hs
        obtain ⟨q1, q2⟩ := ih t1 t' _ r1 r2 r3 h
        exact ⟨q1, fun k v => (q2 k v).trans (r4 k v)⟩
    · rw [if_neg hover] at h
      simp only [Option.some.injEq, Prod.mk.injEq, true_and] at h
      subst h
      refine ⟨⟨hwf, ?_⟩, fun k v => Iff.rfl⟩
      intro i p hi hd
      rcases hfills i p hi hd with h1 | h1
      · exact h1
      · rw [h1.1]; omega

/-! ## Extendible hash: insertion and lookup -/

theorem addkey_hash (t : ext_ginthash) (k : Int) :
    GINTHASH_SCRAMBLE k &&& (1 <<< t.level - 1) = GINTHASH_SCRAMBLE k % 2 ^ t.level := by
  rw [Nat.one_shiftLeft, Nat.and_pow_two_sub_one_eq_mod]

/-- A key stored under the structural invariant sits in the bucket of its hash slot. -/
theorem stored_slot (t : ext_ginthash) (hwf : tbl_wf t) (i : Nat) (p : bucket_ptr)
    (kv : Int × Int) (hi : i < 2 ^ t.level) (hd : t.directory i = some p)
    (hmem : kv ∈ entries (t.buckets p)) :
    t.directory (GINTHASH_SCRAMBLE kv.1 % 2 ^ t.level) = some p := by
  obtain ⟨_, h2, h3, h4⟩ := hwf.2.2 i p hi hd
  apply (h3 _ (Nat.mod_lt _ (Nat.two_pow_pos _))).mpr
  rw [mod_mod_two_pow _ h2]
  exact h4 kv hmem

/-- A successful `wg_ginthash_addkey` preserves the invariant and stores exactly the
new pair in addition. -/
theorem addkey_inv (t t' : ext_ginthash) (k v : Int) (hinv : tbl_inv t)
    (h : wg_ginthash_addkey t k v = some (0, t')) :
    tbl_inv t' ∧ ∀ k' v', stored t' k' v' ↔ (stored t k' v' ∨ (k' = k ∧ v' = v)) := by
  obtain ⟨hwf, hfill⟩ := hinv
  have hpos : 0 < 2 ^ t.level := Nat.two_pow_pos _
  have hlt : GINTHASH_SCRAMBLE k % 2 ^ t.level < 2 ^ t.level := Nat.mod_lt _ hpos
  unfold wg_ginthash_addkey at h
  simp only [addkey_hash] at h
  split at h
  · -- empty slot
    rename_i hd
    split at h
    · simp at h
    · rename_i nb tbl1 hnbr
      simp only [Option.some.injEq, Prod.mk.injEq, true_and] at h
      obtain ⟨n1, n2, n3, n4, n5, n6⟩ := newbucket_spec _ _ _ hnbr
      have hfresh : ∀ j, j < 2 ^ t.level → t.directory j ≠ some nb :=
        fun j hj hdj => n1 (hwf.2.2 j nb hj hdj).1
      have hbk : ∃ M, t'.buckets = (add_to_bucket M nb k v).1 ∧ (M nb).fill = 0 ∧
          (M nb).level = t.level ∧ ∀ q, q ≠ nb → M q = t.buckets q := by
        refine ⟨_, by rw [← h], ?_, ?_, ?_⟩
        · rw [Function.update_same, n6, Function.update_same]
        · rw [Function.update_same]; exact n4
        · intro q hq
          rw [Function.update_noteq hq, n6, Function.update_noteq hq]
      obtain ⟨M, hM, hM0, hMl, hMo⟩ := hbk
      obtain ⟨a1, a2, a3, a4⟩ := add_to_bucket_spec M nb k v (by rw [hM0]; simp)
      have hent : entries (M nb) = [] := by
        simp only [entries, hM0, List.range_zero, List.map_nil]
      rw [hent, List.nil_append] at a1
      have hoth : ∀ q, q ≠ nb → t'.buckets q = t.buckets q := by
        intro q hq
        rw [hM, a4 q hq, hMo q hq]
      have hbn_e : entries (t'.buckets nb) = [(k, v)] := by rw [hM]; exact a1
      have hbn_l : (t'.buckets nb).level = t.level := by rw [hM, a2, hMl]
      have hlvl : t'.level = t.level := by rw [← h]; exact n4
      have hdir : t'.directory =
          Function.update t.directory (GINTHASH_SCRAMBLE k % 2 ^ t.level) (some nb) := by
        rw [← h, ← n5]
      have hiss : ∀ p, issued tbl1 p → issued t' p := by
        intro p hp; rw [← h]; exact hp
      have hdnb : ∀ j, j < 2 ^ t.level →
          (t'.directory j = some nb ↔ j = GINTHASH_SCRAMBLE k % 2 ^ t.level) := by
        intro j hj
        rw [hdir]
        by_cases hjh : j = GINTHASH_SCRAMBLE k % 2 ^ t.level
        · rw [hjh, Function.update_same]; simp
        · rw [Function.update_noteq hjh]
          exact ⟨fun hc => absurd hc (hfresh j hj), fun hc => absurd hc hjh⟩
      have hdoth : ∀ j p, p ≠ nb → (t'.directory j = some p ↔ t.directory j = some p) := by
        intro j p hp
        rw [hdir]
        by_cases hjh : j = GINTHASH_SCRAMBLE k % 2 ^ t.level
        · rw [hjh, Function.update_same, hd]
          exact ⟨fun hc => absurd (Option.some.inj hc).symm hp, fun hc => by simp at hc⟩
        · rw [Function.update_noteq hjh]
      refine ⟨⟨⟨by rw [hlvl]; exact hwf.1, by rw [hlvl]; exact hwf.2.1, ?_⟩, ?_⟩, ?_⟩
      · intro i p hi hdi
        rw [hlvl] at hi
        by_cases hp : p = nb
        · subst hp
          have hih := (hdnb i hi).mp hdi
          refine ⟨hiss _ n2, by rw [hbn_l, hlvl], ?_, ?_⟩
          · intro j hj
            rw [hlvl] at hj
            rw [hbn_l, hdnb j hj, Nat.mod_eq_of_lt hj, Nat.mod_eq_of_lt hi, hih]
          · intro kv hkv
            rw [hbn_e, List.mem_singleton] at hkv
            rw [hbn_l, hkv, Nat.mod_eq_of_lt hi, hih]
        · have hdi1 := (hdoth i p hp).mp hdi
          obtain ⟨s1, s2, s3, s4⟩ := hwf.2.2 i p hi hdi1
          refine ⟨hiss _ (n3 _ s1), by rw [hoth p hp, hlvl]; exact s2, ?_, ?_⟩
          · intro j hj
            rw [hlvl] at hj
            rw [hoth p hp, hdoth j p hp]
            exact s3 j hj
          · rw [hoth p hp]; exact s4
      · intro i p hi hdi
        rw [hlvl] at hi
        by_cases hp : p = nb
        · subst hp
          rw [← entries_length, hbn_e]; simp [GINTHASH_BUCKETCAP]
        · rw [hoth p hp]
          exact hfill i p hi ((hdoth i p hp).mp hdi)
      · intro k' v'
        constructor
        · rintro ⟨i, p, hi, hdi, hmem⟩
          rw [hlvl] at hi
          by_cases hp : p = nb
          · subst hp
            rw [hbn_e, List.mem_singleton, Prod.mk.injEq] at hmem
            exact Or.inr hmem
          · rw [hoth p hp] at hmem
            exact Or.inl ⟨i, p, hi, (hdoth i p hp).mp hdi, hmem⟩
        · rintro (⟨i, p, hi, hdi, hmem⟩ | ⟨rfl, rfl⟩)
          · have hp : p ≠ nb := fun hc => hfresh i hi (hc ▸ hdi)
            exact ⟨i, p, by rw [hlvl]; exact hi, (hdoth i p hp).mpr hdi,
              by rw [hoth p hp]; exact hmem⟩
          · exact ⟨_, nb, by rw [hlvl]; exact hlt, (hdnb _ hlt).mpr rfl,
              by rw [hbn_e]; exact List.mem_singleton.mpr rfl⟩
  · -- occupied slot
    rename_i p hd
    obtain ⟨a1, a2, a3, a4⟩ := add_to_bucket_spec t.buckets p k v (hfill _ p hlt hd)
    have hwf1 : tbl_wf { t with buckets := (add_to_bucket t.buckets p k v).1 } := by
      refine ⟨hwf.1, hwf.2.1, ?_⟩
      intro i q hi hdi
      obtain ⟨s1, s2, s3, s4⟩ := hwf.2.2 i q hi hdi
      by_cases hq : q = p
      · subst hq
        refine ⟨s1, ?_, ?_, ?_⟩
        · simp only [a2]; exact s2
        · intro j hj
          simp only [a2]; exact s3 j hj
        · intro kv hkv
          simp only [a1, List.mem_append, List.mem_singleton] at hkv
          simp only [a2]
          rcases hkv with hkv | hkv
          · exact s4 kv hkv
          · rw [hkv]
            have := (s3 _ hlt).mp hd
            rw [mod_mod_two_pow _ s2] at this
            exact this
      · have hq' : (add_to_bucket t.buckets p k v).1 q = t.buckets q := a4 q hq
        refine ⟨s1, ?_, ?_, ?_⟩
        · simp only [hq']; exact s2
        · intro j hj
          simp only [hq']; exact s3 j hj
        · intro kv hkv
          simp only [hq'] at hkv ⊢
          exact s4 kv hkv
    have hfills1 : fills_ok { t with buckets := (add_to_bucket t.buckets p k v).1 } p := by
      intro i q hi hdi
      by_cases hq : q = p
      · subst hq
        right
        refine ⟨rfl, ?_⟩
        show ((add_to_bucket t.buckets q k v).1 q).fill ≤ _
        rw [a3]
        have := hfill i q hi hdi
        omega
      · left
        show ((add_to_bucket t.buckets p k v).1 q).fill ≤ _
        rw [a4 q hq]
        exact hfill i q hi hdi
    obtain ⟨r1, r2⟩ := addkey_loop_inv _ _ t' p hwf1 hfills1 ⟨_, hlt, hd⟩ h
    refine ⟨r1, fun k' v' => (r2 k' v').trans ?_⟩
    constructor
    · rintro ⟨i, q, hi, hdi, hmem⟩
      have hmem' : (k', v') ∈ entries ((add_to_bucket t.buckets p k v).1 q) := hmem
      by_cases hq : q = p
      · subst hq
        rw [a1, List.mem_append, List.mem_singleton, Prod.mk.injEq] at hmem'
        rcases hmem' with hm | hm
        · exact Or.inl ⟨i, q, hi, hdi, hm⟩
        · exact Or.inr hm
      · rw [a4 q hq] at hmem'
        exact Or.inl ⟨i, q, hi, hdi, hmem'⟩
    · rintro (⟨i, q, hi, hdi, hmem⟩ | ⟨rfl, rfl⟩)
      · refine ⟨i, q, hi, hdi, ?_⟩
        show (k', v') ∈ entries ((add_to_bucket t.buckets p k v).1 q)
        by_cases hq : q = p
        · subst hq
          rw [a1]; exact List.mem_append_left _ hmem
        · rw [a4 q hq]; exact hmem
      · refine ⟨_, p, hlt, hd, ?_⟩
        show (k', v') ∈ entries ((add_to_bucket t.buckets p k' v').1 p)
        rw [a1]; exact List.mem_append_right _ (List.mem_singleton.mpr rfl)

/-- The table returned by `wg_ginthash_init` satisfies the invariant and is empty. -/
theorem init_inv (heap : bucket_ptr → ginthash_bucket) (t0 : ext_ginthash)
    (h : wg_ginthash_init heap = some t0) :
    tbl_inv t0 ∧ ∀ k v, ¬ stored t0 k v := by
  have hlevel : t0.level = 1 := by
    rw [← Option.some.inj h]; rfl
  have hdir : ∀ j, t0.directory j = none := by
    intro j
    rw [← Option.some.inj h]
    show Function.update (Function.update (fun _ => none) 0 none) 1 none j = none
    by_cases h1 : j = 1
    · rw [h1, Function.update_same]
    · rw [Function.update_noteq h1]
      by_cases h0 : j = 0
      · rw [h0, Function.update_same]
      · rw [Function.update_noteq h0]
  refine ⟨⟨⟨by rw [hlevel], by rw [hlevel]; decide, ?_⟩, ?_⟩, ?_⟩
  · intro i p _ hd; rw [hdir i] at hd; exact absurd hd (by simp)
  · intro i p _ hd; rw [hdir i] at hd; exact absurd hd (by simp)
  · rintro k v ⟨i, p, _, hd, _⟩; rw [hdir i] at hd; exact absurd hd (by simp)

theorem getkey_scan_some (b : ginthash_bucket) (k : Int) :
    ∀ (n i : Nat) (v : Int), getkey_scan b k i n = some v →
      ∃ s, i ≤ s ∧ s < i + n ∧ b.key s = k ∧ b.value s = v := by
  intro n
  induction n with
  | zero => intro i v h; simp [getkey_scan] at h
  | succ n ih =>
    intro i v h
    unfold getkey_scan at h
    by_cases hk : b.key i = k
    · rw [if_pos hk] at h
      exact ⟨i, le_rfl, by omega, hk, Option.some.inj h⟩
    · rw [if_neg hk] at h
      obtain ⟨s, h1, h2, h3, h4⟩ := ih (i + 1) v h
      exact ⟨s, by omega, by omega, h3, h4⟩

theorem getkey_scan_none (b : ginthash_bucket) (k : Int) :
    ∀ (n i : Nat), getkey_scan b k i n = none →
      ∀ s, i ≤ s → s < i + n → b.key s ≠ k := by
  intro n
  induction n with
  | zero => intro i _ s h1 h2; omega
  | succ n ih =>
    intro i h s h1 h2
    unfold getkey_scan at h
    by_cases hk : b.key i = k
    · rw [if_pos hk] at h; simp at h
    · rw [if_neg hk] at h
      by_cases hs : s = i
      · rw [hs]; exact hk
      · exact ih (i + 1) h s (by omega) (by omega)

/-- `wg_ginthash_getkey` on a table satisfying the structural invariant: it either
returns 0 with a stored value of the key, or returns -1, leaves `*val` as it was, and
the key is not stored. -/
theorem getkey_spec (t : ext_ginthash) (hwf : tbl_wf t) (k val : Int) :
    (∃ v, wg_ginthash_getkey t k val = (0, v) ∧ stored t k v) ∨
    (wg_ginthash_getkey t k val = (-1, val) ∧ ∀ v, ¬ stored t k v) := by
  have hlt : GINTHASH_SCRAMBLE k % 2 ^ t.level < 2 ^ t.level :=
    Nat.mod_lt _ (Nat.two_pow_pos _)
  unfold wg_ginthash_getkey
  simp only [addkey_hash]
  cases hd : t.directory (GINTHASH_SCRAMBLE k % 2 ^ t.level) with
  | none =>
    right
    refine ⟨rfl, ?_⟩
    rintro v ⟨i, p, hi, hdi, hmem⟩
    have := stored_slot t hwf i p (k, v) hi hdi hmem
    rw [hd] at this
    exact absurd this (by simp)
  | some p =>
    simp only []
    cases hs : getkey_scan (t.buckets p) k 0 (t.buckets p).fill with
    | none =>
      right
      refine ⟨rfl, ?_⟩
      rintro v ⟨i, q, hi, hdi, hmem⟩
      have hq := stored_slot t hwf i q (k, v) hi hdi hmem
      rw [hd] at hq
      have hqp : p = q := Option.some.inj hq
      subst hqp
      obtain ⟨s, hs1, hs2, _⟩ := (mem_entries _ _).mp hmem
      exact getkey_scan_none _ k _ 0 hs s (Nat.zero_le _) (by omega) hs2
    | some v =>
      left
      refine ⟨v, rfl, ?_⟩
      obtain ⟨s, _, hs2, hs3, hs4⟩ := getkey_scan_some _ k _ 0 v hs
      exact ⟨_, p, hlt, hd, (mem_entries _ _).mpr ⟨s, by omega, hs3, hs4⟩⟩

/-- A sequence of successful insertions preserves the invariant and stores exactly
the inserted pairs in addition. -/
theorem addkeys_inv : ∀ (kvs : List (Int × Int)) (t t' : ext_ginthash),
    tbl_inv t → addkeys t kvs = some t' →
    tbl_inv t' ∧ ∀ k v, stored t' k v ↔ (stored t k v ∨ (k, v) ∈ kvs) := by
  intro kvs
  induction kvs with
  | nil =>
    intro t t' hinv h
    simp only [addkeys, Option.some.injEq] at h
    subst h
    exact ⟨hinv, fun k v => by simp⟩
  | cons kv kvs ih =>
    intro t t' hinv h
    unfold addkeys at h
    split at h
    · rename_i rc t1 hadd
      by_cases hrc : rc = 0
      · rw [if_pos hrc] at h
        subst hrc
        obtain ⟨a1, a2⟩ := addkey_inv t t1 kv.1 kv.2 hinv hadd
        obtain ⟨b1, b2⟩ := ih t1 t' a1 h
        refine ⟨b1, fun k v => ?_⟩
        rw [b2 k v, a2 k v, List.mem_cons]
        constructor
        · rintro ((h1 | ⟨h1, h2⟩) | h1)
          · exact Or.inl h1
          · exact Or.inr (Or.inl (Prod.ext h1 h2))
          · exact Or.inr (Or.inr h1)
        · rintro (h1 | h1 | h1)
          · exact Or.inl (Or.inl h1)
          · exact Or.inl (Or.inr ⟨congrArg Prod.fst h1, congrArg Prod.snd h1⟩)
          · exact Or.inr h1
      · rw [if_neg hrc] at h; simp at h
    · simp at h

/-- C1. For the table of `wg_ginthash_init` after any sequence of
`wg_ginthash_addkey` calls with pairwise distinct keys that all return 0, every
inserted pair `(k, v)` is found: `wg_ginthash_getkey` returns 0 and sets `*val` to
`v`, whatever `*val` held before, so also when the lookup is repeated. -/
theorem wg_ginthash_getkey_inserted (heap : bucket_ptr → ginthash_bucket)
    (t0 t : ext_ginthash) (kvs : List (Int × Int))
    (hinit : wg_ginthash_init heap = some t0) (hdistinct : (kvs.map Prod.fst).Nodup)
    (hadd : addkeys t0 kvs = some t) (k v : Int) (hkv : (k, v) ∈ kvs) (val : Int) :
    wg_ginthash_getkey t k val = (0, v) ∧
    wg_ginthash_getkey t k (wg_ginthash_getkey t k val).2 = (0, v) := by
  obtain ⟨i1, i2⟩ := init_inv heap t0 hinit
  obtain ⟨a1, a2⟩ := addkeys_inv kvs t0 t i1 hadd
  have hfound : ∀ val', wg_ginthash_getkey t k val' = (0, v) := by
    intro val'
    rcases getkey_spec t a1.1 k val' with ⟨v', h1, h2⟩ | ⟨_, h2⟩
    · rcases (a2 k v').mp h2 with h3 | h3
      · exact absurd h3 (i2 k v')
      · have hinj := List.inj_on_of_nodup_map hdistinct h3 hkv rfl
        rw [h1, (Prod.mk.inj hinj).2]
    · exact absurd ((a2 k v).mpr (Or.inr hkv)) (h2 v)
  exact ⟨hfound val, hfound _⟩

/-- C2. For the table of `wg_ginthash_init` after any sequence of
`wg_ginthash_addkey` calls that all return 0, `wg_ginthash_getkey` on a key that was
never inserted returns -1 and leaves `*val` as it was. -/
theorem wg_ginthash_getkey_missing (heap : bucket_ptr → ginthash_bucket)
    (t0 t : ext_ginthash) (kvs : List (Int × Int))
    (hinit : wg_ginthash_init heap = some t0) (hadd : addkeys t0 kvs = some t) (k : Int)
    (hk : k ∉ kvs.map Prod.fst) (val : Int) :
    wg_ginthash_getkey t k val = (-1, val) := by
  obtain ⟨i1, i2⟩ := init_inv heap t0 hinit
  obtain ⟨a1, a2⟩ := addkeys_inv kvs t0 t i1 hadd
  rcases getkey_spec t a1.1 k val with ⟨v', _, h2⟩ | ⟨h1, _⟩
  · rcases (a2 k v').mp h2 with h3 | h3
    · exact absurd h3 (i2 k v')
    · exact absurd (List.mem_map.mpr ⟨(k, v'), h3, rfl⟩) hk
  · exact h1

/-- C10 (amended). After `wg_ginthash_init` followed by any sequence of
`wg_ginthash_addkey` calls that all return 0 (and any number of `wg_ginthash_getkey`
calls, which do not write the table), every bucket referenced by the directory has
`fill ≤ GINTHASH_BUCKETCAP`: the overflow slot is not among the valid slots. -/
theorem ginthash_fill_le_cap (heap : bucket_ptr → ginthash_bucket)
    (t0 t : ext_ginthash) (kvs : List (Int × Int))
    (hinit : wg_ginthash_init heap = some t0) (hadd : addkeys t0 kvs = some t)
    (i : Nat) (p : bucket_ptr) (hi : i < 2 ^ t.level) (hd : t.directory i = some p) :
    (t.buckets p).fill ≤ GINTHASH_BUCKETCAP :=
  (addkeys_inv kvs t0 t (init_inv heap t0 hinit).1 hadd).1.2 i p hi hd

/-- The bound of `GINTHASH_MAXLEVEL` loop tests is never exhausted: under the
invariants the split loop returns. -/
theorem addkey_loop_returns : ∀ (fuel : Nat) (t : ext_ginthash) (cur : bucket_ptr),
    tbl_wf t → fills_ok t cur → (∃ i, i < 2 ^ t.level ∧ t.directory i = some cur) →
    GINTHASH_MAXLEVEL ≤ fuel + (t.buckets cur).level →
    ∃ rc t', addkey_loop fuel t cur = some (rc, t') ∧ (rc = 0 ∨ rc = -1) := by
  intro fuel
  induction fuel with
  | zero =>
    intro t cur hwf _ hslot hfuel
    obtain ⟨i0, hi0, hd0⟩ := hslot
    have := (hwf.2.2 i0 cur hi0 hd0).2.1
    have := hwf.2.1
    omega
  | succ fuel ih =>
    intro t cur hwf hfills hslot hfuel
    obtain ⟨i0, hi0, hd0⟩ := hslot
    unfold addkey_loop
    by_cases hover : (t.buckets cur).fill > GINTHASH_BUCKETCAP
    · rw [if_pos hover]
      have hfull : (t.buckets cur).fill = GINTHASH_BUCKETCAP + 1 := by
        rcases hfills i0 cur hi0 hd0 with h1 | h1
        · omega
        · have := h1.2; omega
      split
      · exact ⟨-1, _, rfl, Or.inr rfl⟩
      · rename_i nb t1 hs
        obtain ⟨r1, r2, r3, _, r5, r6⟩ :=
          splitbucket_wf t t1 cur nb i0 hwf hfills hfull hi0 hd0 hs
        apply ih t1 _ r1 r2 r3
        split_ifs
        · rw [r6]; omega
        · rw [r5]; omega
    · rw [if_neg hover]
      exact ⟨0, _, rfl, Or.inl rfl⟩

/-- On a table satisfying the invariant `wg_ginthash_addkey` returns, with status 0
or -1. -/
theorem wg_ginthash_addkey_returns (t : ext_ginthash) (hinv : tbl_inv t) (k v : Int) :
    ∃ rc t', wg_ginthash_addkey t k v = some (rc, t') ∧ (rc = 0 ∨ rc = -1) := by
  obtain ⟨hwf, hfill⟩ := hinv
  have hlt : GINTHASH_SCRAMBLE k % 2 ^ t.level < 2 ^ t.level :=
    Nat.mod_lt _ (Nat.two_pow_pos _)
  unfold wg_ginthash_addkey
  simp only [addkey_hash]
  split
  · split
    · exact ⟨-1, _, rfl, Or.inr rfl⟩
    · exact ⟨0, _, rfl, Or.inl rfl⟩
  · rename_i p hd
    obtain ⟨a1, a2, a3, a4⟩ := add_to_bucket_spec t.buckets p k v (hfill _ p hlt hd)
    obtain ⟨s1, s2, s3, s4⟩ := hwf.2.2 _ p hlt hd
    apply addkey_loop_returns
    · refine ⟨hwf.1, hwf.2.1, ?_⟩
      intro i q hi hdi
      obtain ⟨u1, u2, u3, u4⟩ := hwf.2.2 i q hi hdi
      by_cases hq : q = p
      · subst hq
        refine ⟨u1, ?_, ?_, ?_⟩
        · simp only [a2]; exact u2
        · intro j hj
          simp only [a2]; exact u3 j hj
        · intro kv hkv
          simp only [a1, List.mem_append, List.mem_singleton] at hkv
          simp only [a2]
          rcases hkv with hkv | hkv
          · exact u4 kv hkv
          · rw [hkv]
            have := (u3 _ hlt).mp hd
            rw [mod_mod_two_pow _ u2] at this
            exact this
      · have hq' : (add_to_bucket t.buckets p k v).1 q = t.buckets q := a4 q hq
        refine ⟨u1, ?_, ?_, ?_⟩
        · simp only [hq']; exact u2
        · intro j hj
          simp only [hq']; exact u3 j hj
        · intro kv hkv
          simp only [hq'] at hkv ⊢
          exact u4 kv hkv
    · intro i q hi hdi
      by_cases hq : q = p
      · subst hq
        right
        refine ⟨rfl, ?_⟩
        show ((add_to_bucket t.buckets q k v).1 q).fill ≤ _
        rw [a3]
        have := hfill i q hi hdi
        omega
      · left
        show ((add_to_bucket t.buckets p k v).1 q).fill ≤ _
        rw [a4 q hq]
        exact hfill i q hi hdi
    · exact ⟨_, hlt, hd⟩
    · show GINTHASH_MAXLEVEL ≤ GINTHASH_MAXLEVEL + _
      omega

/-- Witness for C1: eight keys that are multiples of 8, with splits and directory
growth on the way; the pair (24, 3) is found. -/
theorem wg_ginthash_getkey_inserted_witness :
    ∃ t0 t, wg_ginthash_init (fun _ => zero_bucket) = some t0 ∧
      addkeys t0 [(8, 1), (16, 2), (24, 3), (32, 4), (40, 5), (48, 6), (56, 7), (64, 8)] =
        some t ∧
      wg_ginthash_getkey t 24 0 = (0, 3) := by
  have h : ((wg_ginthash_init fun _ => zero_bucket).bind fun t0 =>
      addkeys t0 [(8, 1), (16, 2), (24, 3), (32, 4), (40, 5), (48, 6), (56, 7),
        (64, 8)]).isSome = true := by decide!
  obtain ⟨t, ht⟩ := Option.isSome_iff_exists.mp h
  obtain ⟨t0, h0, h1⟩ := Option.bind_eq_some.mp ht
  exact ⟨t0, t, h0, h1, (wg_ginthash_getkey_inserted _ t0 t _ h0 (by decide) h1 24 3
    (by decide) 0).1⟩

/-- Witness for C2: after the same eight insertions the key 72 is not found and
`*val` keeps its value 7. -/
theorem wg_ginthash_getkey_missing_witness :
    ∃ t0 t, wg_ginthash_init (fun _ => zero_bucket) = some t0 ∧
      addkeys t0 [(8, 1), (16, 2), (24, 3), (32, 4), (40, 5), (48, 6), (56, 7), (64, 8)] =
        some t ∧
      wg_ginthash_getkey t 72 7 = (-1, 7) := by
  have h : ((wg_ginthash_init fun _ => zero_bucket).bind fun t0 =>
      addkeys t0 [(8, 1), (16, 2), (24, 3), (32, 4), (40, 5), (48, 6), (56, 7),
        (64, 8)]).isSome = true := by decide!
  obtain ⟨t, ht⟩ := Option.isSome_iff_exists.mp h
  obtain ⟨t0, h0, h1⟩ := Option.bind_eq_some.mp ht
  exact ⟨t0, t, h0, h1, wg_ginthash_getkey_missing _ t0 t _ h0 h1 72 (by decide) 7⟩

/-- Witness for C10 (amended): after the same eight insertions the bucket of slot 0
is within capacity. -/
theorem ginthash_fill_le_cap_witness :
    ∃ t0 t p, wg_ginthash_init (fun _ => zero_bucket) = some t0 ∧
      addkeys t0 [(8, 1), (16, 2), (24, 3), (32, 4), (40, 5), (48, 6), (56, 7), (64, 8)] =
        some t ∧
      t.directory 0 = some p ∧ (t.buckets p).fill ≤ GINTHASH_BUCKETCAP := by
  have h : ((wg_ginthash_init fun _ => zero_bucket).bind fun t0 =>
      (addkeys t0 [(8, 1), (16, 2), (24, 3), (32, 4), (40, 5), (48, 6), (56, 7),
        (64, 8)]).bind fun t => (t.directory 0).map fun p => (t, p)).isSome = true := by
    decide!
  obtain ⟨⟨t, p⟩, ht⟩ := Option.isSome_iff_exists.mp h
  obtain ⟨t0, h0, h1⟩ := Option.bind_eq_some.mp ht
  obtain ⟨t', h2, h3⟩ := Option.bind_eq_some.mp h1
  obtain ⟨p', h4, h5⟩ := Option.map_eq_some'.mp h3
  obtain ⟨rfl, rfl⟩ := Prod.mk.inj h5
  exact ⟨t0, t', p', h0, h2, h4,
    ginthash_fill_le_cap _ t0 t' _ h0 h2 0 p' (Nat.two_pow_pos _) h4⟩

/-- Counterexample to C10 as stated: on a fresh table the key 0 is inserted four
times; the calls return 0, 0, 0 and -1 (the directory cannot grow past level 23), and
afterwards slot 0 of the directory references the bucket `(1, 0)`, whose fill is 4:
the overflow slot is occupied after `wg_ginthash_addkey` has returned. -/
theorem ginthash_fill_counterexample :
    ((wg_ginthash_init fun _ => zero_bucket).bind fun t0 =>
      (addkeys_any t0 [(0, 1), (0, 2), (0, 3), (0, 4)]).map fun r =>
        (r.1, r.2.level, r.2.directory 0, (r.2.buckets (1, 0)).fill)) =
      some ([0, 0, 0, -1], 23, some (1, 0), 4) := by
  decide!

/-! ## String hash: dependence on the bytes only -/

theorem strhash_data_append (e : List Int) (n : Nat) :
    ∀ (d : List Int) (h : Nat),
      strhash_data (d ++ e) (d.length + n) h = strhash_data e n (strhash_data d d.length h) := by
  intro d
  induction d with
  | nil =>
    intro h
    cases n <;> simp [strhash_data]
  | cons c d ih =>
    intro h
    have : (c :: d).length + n = (d.length + n) + 1 := by simp; omega
    rw [List.cons_append, this]
    simp only [strhash_data, List.length_cons]
    exact ih _

theorem strhash_extra_eq_data :
    ∀ (e : List Int) (h : Nat), (∀ c ∈ e, c ≠ 0) →
      strhash_extra e h = strhash_data e e.length h := by
  intro e
  induction e with
  | nil => intro h _; rfl
  | cons c e ih =>
    intro h hnz
    have hc : c ≠ 0 := hnz c (List.mem_cons_self _ _)
    simp only [strhash_extra, strhash_data, List.length_cons, hc, if_false]
    exact ih _ (fun x hx => hnz x (List.mem_cons_of_mem _ hx))

theorem strhash_step_eq (hash : Nat) (c : Int) :
    strhash_step hash c = ((c + 65599 * (hash : Int)) % 2 ^ 64).toNat := by
  unfold strhash_step
  congr 2
  ring

/-- C20. `wg_hash_typedstr` depends only on the concatenated chars and the table
length: for all payloads `d` and NUL-free secondary strings `e`, all type tags and
every segment, hashing `d` with secondary string `e` equals hashing `d ++ e` with no
secondary string; a `NULL` secondary string hashes like the empty one; every round of
the fold is `(c + 65599 * hash) mod 2^64`; and the empty payload (or `NULL`) with no
secondary string has index 0. -/
theorem wg_hash_typedstr_concat (db : db_memsegment) (d e : List Int) (t1 t2 : Int) :
    ((∀ c ∈ e, c ≠ 0) →
      wg_hash_typedstr db (some d) (some e) t1 d.length =
        wg_hash_typedstr db (some (d ++ e)) none t2 (d.length + e.length : Nat)) ∧
    wg_hash_typedstr db (some d) none t1 d.length =
      wg_hash_typedstr db (some d) (some []) t2 d.length ∧
    (∀ (hash : Nat) (c : Int),
      strhash_step hash c = ((c + 65599 * (hash : Int)) % 2 ^ 64).toNat) ∧
    wg_hash_typedstr db (some []) none t1 0 = 0 ∧
    wg_hash_typedstr db none none t1 0 = 0 := by
  refine ⟨?_, rfl, strhash_step_eq, ?_, ?_⟩
  · intro hnz
    simp only [wg_hash_typedstr, Int.toNat_ofNat]
    rw [strhash_data_append, strhash_extra_eq_data e _ hnz]
  · simp [wg_hash_typedstr, strhash_data, wrap_int]
  · simp [wg_hash_typedstr, wrap_int]

/-- Witness for C20: payload "ab" with secondary string "c" hashes like payload "abc",
in a table of 7 slots. -/
theorem wg_hash_typedstr_concat_witness :
    wg_hash_typedstr ⟨fun _ => 0, 0, 7⟩ (some [97, 98]) (some [99]) 1 2 =
      wg_hash_typedstr ⟨fun _ => 0, 0, 7⟩ (some [97, 98, 99]) none 2 3 :=
  (wg_hash_typedstr_concat ⟨fun _ => 0, 0, 7⟩ [97, 98] [99] 1 2).1 (by decide)

/-! ## Extendible hash: single steps without fill bounds -/

/-- A successful `ginthash_newbucket` in terms of the pool bookkeeping. -/
theorem newbucket_fields (t t' : ext_ginthash) (nb : bucket_ptr)
    (h : ginthash_newbucket t = (some nb, t')) : pool_step t t' nb := by
  unfold ginthash_newbucket at h
  by_cases hfp : t.free_pool > t.level
  · rw [if_pos hfp] at h
    exact absurd (congrArg Prod.fst h) (by simp)
  · rw [if_neg hfp] at h
    simp only [Prod.mk.injEq, Option.some.injEq] at h
    obtain ⟨h1, h2⟩ := h
    refine ⟨by omega, h1.symm, by rw [← h2], ?_⟩
    rw [← h2]
    simp only [Function.update_same, ginthash_poolsz]

/-- `ginthash_newbucket` returns `NULL` exactly in the `free_pool > level` branch. -/
theorem newbucket_none_iff (t : ext_ginthash) :
    (ginthash_newbucket t).1 = none ↔ t.free_pool > t.level := by
  unfold ginthash_newbucket
  by_cases hfp : t.free_pool > t.level
  · rw [if_pos hfp]; simp [hfp]
  · rw [if_neg hfp]; simp [hfp]

/-- `split_rest` returns `NULL` exactly when its `ginthash_newbucket` does. -/
theorem split_rest_none_iff (t1 : ext_ginthash) (cur : bucket_ptr) :
    (split_rest t1 cur).1 = none ↔ t1.free_pool > t1.level := by
  unfold split_rest ginthash_newbucket
  simp only []
  by_cases hfp : t1.free_pool > t1.level
  · rw [if_pos hfp]; simp [hfp]
  · rw [if_neg hfp]; simp [hfp]

/-- A successful `split_rest` on an overfull bucket below the global level, described
by `split_rel`. -/
theorem split_rest_rel (t1 t' : ext_ginthash) (cur nb : bucket_ptr) (i0 : Nat)
    (hwf : tbl_wf t1)
    (hfull : (t1.buckets cur).fill = GINTHASH_BUCKETCAP + 1)
    (hi0 : i0 < 2 ^ t1.level) (hd0 : t1.directory i0 = some cur)
    (h : split_rest t1 cur = (some nb, t')) :
    split_rel t1 t' cur nb ∧ ¬ issued t1 nb ∧ issued t' nb ∧
      (∀ p, issued t1 p → issued t' p) := by
  unfold split_rest at h
  simp only [] at h
  split at h
  · exact absurd (congrArg Prod.fst h) (by simp)
  · rename_i nb0 tbl3 hnbr
    simp only [Prod.mk.injEq, Option.some.injEq] at h
    obtain ⟨hnb, ht'⟩ := h
    subst hnb
    obtain ⟨n1, n2, n3, n4, n5, n6⟩ := newbucket_spec _ _ _ hnbr
    obtain ⟨f1, f2, f3, f4⟩ := newbucket_fields _ _ _ hnbr
    simp only [] at n4 n5 n6 f1 f2 f3 f4
    have n1' : ¬ issued t1 nb0 := n1
    have n3' : ∀ p, issued t1 p → issued tbl3 p := n3
    have hslot0 : slot_inv t1 i0 cur := hwf.2.2 i0 cur hi0 hd0
    have hcn : cur ≠ nb0 := fun hc => n1' (hc ▸ hslot0.1)
    have hb3cur : tbl3.buckets cur =
        { t1.buckets cur with level := (t1.buckets cur).level + 1 } := by
      rw [n6, Function.update_noteq hcn, Function.update_same]
    have hb3nb : (tbl3.buckets nb0).fill = 0 := by
      rw [n6, Function.update_same]
    have hb3oth : ∀ r, r ≠ cur → r ≠ nb0 → tbl3.buckets r = t1.buckets r := by
      intro r h1 h2
      rw [n6, Function.update_noteq h2, Function.update_noteq h1]
    obtain ⟨mem1, hmem1⟩ : ∃ m, m = Function.update tbl3.buckets nb0
        { level := (tbl3.buckets cur).level, fill := (tbl3.buckets nb0).fill,
          key := (tbl3.buckets nb0).key, value := (tbl3.buckets nb0).value } := ⟨_, rfl⟩
    rw [← hmem1] at ht'
    simp only [Nat.one_shiftLeft] at ht'
    have hm1c : mem1 cur = { t1.buckets cur with level := (t1.buckets cur).level + 1 } := by
      rw [hmem1, Function.update_noteq hcn, hb3cur]
    have hm1n : mem1 nb0 =
        ginthash_bucket.mk ((t1.buckets cur).level + 1) 0 (tbl3.buckets nb0).key
          (tbl3.buckets nb0).value := by
      rw [hmem1, Function.update_same, hb3cur, hb3nb]
    have hm1o : ∀ r, r ≠ cur → r ≠ nb0 → mem1 r = t1.buckets r := by
      intro r h1 h2
      rw [hmem1, Function.update_noteq h2, hb3oth r h1 h2]
    have hm1cf : (mem1 cur).fill = GINTHASH_BUCKETCAP + 1 := by rw [hm1c]; exact hfull
    have hm1ce : entries (mem1 cur) = entries (t1.buckets cur) := by rw [hm1c]; rfl
    have hm1ne : entries (mem1 nb0) = [] := by rw [hm1n]; rfl
    obtain ⟨s1, s2, s3, s4, s5⟩ := split_entries_spec (2 ^ (t1.buckets cur).level) cur nb0
      hcn (mem1 cur).fill mem1 le_rfl (by rw [hm1cf]) (by rw [hm1n, hm1cf]; simp)
    have hlenE : (entries (t1.buckets cur)).length = GINTHASH_BUCKETCAP + 1 := by
      rw [entries_length, hfull]
    rw [hm1ce, hm1cf, ← hlenE, List.take_length, List.drop_length, List.append_nil] at s1
    rw [hm1ce, hm1ne, hm1cf, ← hlenE, List.take_length, List.nil_append] at s2
    replace s3 : (split_entries (2 ^ (t1.buckets cur).level) cur nb0 (mem1 cur).fill mem1
        cur).level = (t1.buckets cur).level + 1 := by rw [s3, hm1c]
    replace s4 : (split_entries (2 ^ (t1.buckets cur).level) cur nb0 (mem1 cur).fill mem1
        nb0).level = (t1.buckets cur).level + 1 := by rw [s4, hm1n]
    rw [hlenE, ← hm1cf] at s1 s2
    have hlvl : t'.level = t1.level := by rw [← ht']; exact n4
    have hbk : t'.buckets = split_entries (2 ^ (t1.buckets cur).level) cur nb0
        (mem1 cur).fill mem1 := by rw [← ht']
    have hiss : ∀ p, issued tbl3 p → issued t' p := by
      intro p hp; rw [← ht']; exact hp
    have hpos : 0 < 2 ^ (t1.buckets cur).level := Nat.two_pow_pos _
    have hkey0 : GINTHASH_SCRAMBLE ((t1.buckets cur).key 0) % 2 ^ (t1.buckets cur).level =
        i0 % 2 ^ (t1.buckets cur).level := by
      apply hslot0.2.2.2 ((t1.buckets cur).key 0, (t1.buckets cur).value 0)
      rw [mem_entries]
      exact ⟨0, by rw [hfull]; simp, rfl, rfl⟩
    have hdir : ∀ j, t'.directory j =
        if j < 2 ^ t1.level ∧ t1.directory j = some cur ∧ j &&& 2 ^ (t1.buckets cur).level ≠ 0
        then some nb0 else t1.directory j := by
      intro j
      rw [← ht']
      simp only [s3, n4, n5, Function.update_same,
        Nat.and_pow_two_sub_one_eq_mod, hkey0]
      by_cases hdirect : (t1.buckets cur).level + 1 = t1.level
      · rw [if_pos hdirect]
        have hlt : i0 % 2 ^ (t1.buckets cur).level < 2 ^ (t1.buckets cur).level :=
          Nat.mod_lt _ hpos
        rw [two_pow_or_of_lt _ _ hlt]
        have hpow : 2 ^ t1.level = 2 ^ (t1.buckets cur).level + 2 ^ (t1.buckets cur).level := by
          rw [← hdirect, pow_succ]; omega
        by_cases hj : j = 2 ^ (t1.buckets cur).level + i0 % 2 ^ (t1.buckets cur).level
        · have hjlt : j < 2 ^ t1.level := by omega
          have hjd : t1.directory j = some cur := by
            apply (hslot0.2.2.1 j hjlt).mpr
            rw [hj, Nat.add_mod, Nat.mod_self, Nat.zero_add, Nat.mod_mod, Nat.mod_mod]
          have hjb : j &&& 2 ^ (t1.buckets cur).level ≠ 0 := by
            rw [hj]; exact and_two_pow_add _ _ hlt
          rw [if_pos ⟨hjlt, hjd, hjb⟩, hj, Function.update_same]
        · rw [Function.update_noteq hj]
          have hnc : ¬ (j < 2 ^ t1.level ∧ t1.directory j = some cur ∧
              j &&& 2 ^ (t1.buckets cur).level ≠ 0) := by
            rintro ⟨c1, c2, c3⟩
            have hc := (hslot0.2.2.1 j c1).mp c2
            have hm := mod_two_pow_succ j (t1.buckets cur).level
            rw [if_pos c3, hdirect, Nat.mod_eq_of_lt c1, hc] at hm
            omega
          rw [if_neg hnc]
      · rw [if_neg hdirect]
        rfl
    refine ⟨⟨⟨f1, f2, by rw [← ht']; exact f3, by rw [← ht']; exact f4⟩, hlvl, hdir,
      by rw [hbk, s3], by rw [hbk, s1]; rfl, by rw [hbk, s4], by rw [hbk, s2]; rfl,
      fun r h1 h2 => by rw [hbk, s5 r h1 h2, hm1o r h1 h2]⟩, n1', hiss _ n2,
      fun p hp => hiss p (n3' p hp)⟩

/-- A successful `grow_ginthash` on a table of level at least 1 is a `grow_rel` step. -/
theorem grow_rel_of (t t' : ext_ginthash) (hlevel : 1 ≤ t.level)
    (h : grow_ginthash t = (0, t')) : grow_rel t t' :=
  grow_spec t t' hlevel h

/-- `grow_ginthash` returns 0 or -1, and -1 exactly at the maximum level, where it
leaves the table as it is. -/
theorem grow_cases (t : ext_ginthash) :
    (t.level + 1 ≥ GINTHASH_MAXLEVEL ∧ grow_ginthash t = (-1, t)) ∨
    (t.level + 1 < GINTHASH_MAXLEVEL ∧ (grow_ginthash t).1 = 0) := by
  unfold grow_ginthash
  by_cases hmax : t.level + 1 ≥ GINTHASH_MAXLEVEL
  · left; simp only []; rw [if_pos hmax]; exact ⟨hmax, rfl⟩
  · right; simp only []; rw [if_neg hmax]; exact ⟨by omega, rfl⟩

/-- A growth step preserves the structural invariant, the referenced buckets, the
stored pairs and the slot counts. -/
theorem grow_rel_wf (t t' : ext_ginthash) (hwf : tbl_wf t) (h : grow_rel t t') :
    tbl_wf t' ∧ (∀ p, referenced t' p ↔ referenced t p) ∧
    (∀ k v, stored t' k v ↔ stored t k v) ∧
    (∀ r, slot_count t' r = slot_count t r) := by
  obtain ⟨hg1, hg2, hslots⟩ := hwf
  obtain ⟨e1, e2, e3, e4, e5, e6⟩ := h
  have hpos : 0 < 2 ^ t.level := Nat.two_pow_pos _
  have hmod : ∀ j, j % 2 ^ t.level < 2 ^ t.level := fun j => Nat.mod_lt _ hpos
  have hpow : 2 ^ t.level < 2 ^ (t.level + 1) := by rw [pow_succ]; omega
  refine ⟨⟨by omega, e2, ?_⟩, ?_, ?_, ?_⟩
  · intro i p hi hd
    rw [e1] at hi
    rw [e6 i hi] at hd
    obtain ⟨h1, h2, h3, h4⟩ := hslots _ p (hmod i) hd
    refine ⟨?_, by rw [e3, e1]; omega, ?_, ?_⟩
    · simp only [issued, e4, e5] at h1 ⊢; exact h1
    · intro j hj
      rw [e1] at hj
      rw [e6 j hj, e3, h3 _ (hmod j), mod_mod_two_pow _ h2, mod_mod_two_pow _ h2]
    · rw [e3]
      intro kv hkv
      rw [h4 kv hkv, mod_mod_two_pow _ h2]
  · intro p
    constructor
    · rintro ⟨i, hi, hd⟩
      rw [e1] at hi
      rw [e6 i hi] at hd
      exact ⟨_, hmod i, hd⟩
    · rintro ⟨i, hi, hd⟩
      refine ⟨i, by rw [e1]; omega, ?_⟩
      rw [e6 i (by omega), Nat.mod_eq_of_lt hi]
      exact hd
  · intro k v
    constructor
    · rintro ⟨i, p, hi, hd, hmem⟩
      rw [e1] at hi
      rw [e6 i hi] at hd
      rw [e3] at hmem
      exact ⟨_, p, hmod i, hd, hmem⟩
    · rintro ⟨i, p, hi, hd, hmem⟩
      refine ⟨i, p, by rw [e1]; omega, ?_, by rw [e3]; exact hmem⟩
      rw [e6 i (by omega), Nat.mod_eq_of_lt hi]
      exact hd
  · intro r
    unfold slot_count
    rw [e1, e6 _ (Nat.mod_lt _ (Nat.two_pow_pos _)), mod_mod_two_pow r (Nat.le_succ _), e3]

/-- Agreement on the low bits fixes every bit below the maximum level. -/
theorem low_agree_bit (r l : Nat) (kv : Int × Int) (hl : l + 1 < GINTHASH_MAXLEVEL)
    (h : low_agree r kv = true) :
    (GINTHASH_SCRAMBLE kv.1 &&& 2 ^ l ≠ 0 ↔ r &&& 2 ^ l ≠ 0) := by
  unfold low_agree at h
  have h1 : GINTHASH_SCRAMBLE kv.1 % 2 ^ (GINTHASH_MAXLEVEL - 1) =
      r % 2 ^ (GINTHASH_MAXLEVEL - 1) := by simpa using h
  have h2 : GINTHASH_SCRAMBLE kv.1 % 2 ^ (l + 1) = r % 2 ^ (l + 1) := by
    have hle : l + 1 ≤ GINTHASH_MAXLEVEL - 1 := by omega
    rw [← mod_mod_two_pow (GINTHASH_SCRAMBLE kv.1) hle, h1, mod_mod_two_pow r hle]
  exact ((mod_two_pow_succ_eq_iff _ _ _).mp h2).2

/-- The bit `l` of a slot index below the directory size is that of the full value. -/
theorem mod_bit (r l g : Nat) (hlg : l < g) :
    (r % 2 ^ g &&& 2 ^ l ≠ 0 ↔ r &&& 2 ^ l ≠ 0) := by
  have h2 : r % 2 ^ g % 2 ^ (l + 1) = r % 2 ^ (l + 1) := mod_mod_two_pow r hlg
  exact ((mod_two_pow_succ_eq_iff _ _ _).mp h2).2

/-- A split step on a bucket below the global level preserves the structural
invariant, keeps every referenced bucket referenced, adds the new bucket to them, and
keeps the stored pairs and the slot counts. -/
theorem split_rel_wf (t1 t' : ext_ginthash) (cur nb : bucket_ptr) (i0 : Nat)
    (hwf : tbl_wf t1) (hlg : (t1.buckets cur).level < t1.level)
    (hi0 : i0 < 2 ^ t1.level) (hd0 : t1.directory i0 = some cur)
    (hrel : split_rel t1 t' cur nb)
    (hnb1 : ¬ issued t1 nb) (hnb2 : issued t' nb) (hiss : ∀ p, issued t1 p → issued t' p) :
    tbl_wf t' ∧ referenced t' cur ∧ referenced t' nb ∧
    (∀ p, referenced t' p ↔ (p = nb ∨ referenced t1 p)) ∧
    (∀ k v, stored t' k v ↔ stored t1 k v) ∧
    (∀ r, slot_count t' r = slot_count t1 r) ∧
    (t'.buckets cur).fill + (t'.buckets nb).fill = (t1.buckets cur).fill ∧ cur ≠ nb := by
  obtain ⟨_, hlvl, hdir, hcl, hce, hnl, hne, hoth⟩ := hrel
  obtain ⟨l, hl⟩ : ∃ l, (t1.buckets cur).level = l := ⟨_, rfl⟩
  rw [hl] at hlg hdir hcl hce hnl hne
  obtain ⟨hg1, hg2, hslots⟩ := hwf
  have hcur_inv : ∀ i, i < 2 ^ t1.level → t1.directory i = some cur → slot_inv t1 i cur :=
    fun i hi hd => hslots i cur hi hd
  have hcur_iss : issued t1 cur := (hcur_inv i0 hi0 hd0).1
  have hcn : cur ≠ nb := fun h => hnb1 (h ▸ hcur_iss)
  have hnotdir : ∀ j, j < 2 ^ t1.level → t1.directory j ≠ some nb :=
    fun j hj hd => hnb1 (hslots j nb hj hd).1
  have hpos : 0 < 2 ^ l := Nat.two_pow_pos l
  have hpow : 2 ^ (l + 1) ≤ 2 ^ t1.level := Nat.pow_le_pow_right (by decide) hlg
  have hpow2 : 2 ^ (l + 1) = 2 ^ l + 2 ^ l := by rw [pow_succ]; omega
  have hdir_nb : ∀ j, j < 2 ^ t1.level →
      (t'.directory j = some nb ↔ t1.directory j = some cur ∧ j &&& 2 ^ l ≠ 0) := by
    intro j hj
    rw [hdir j]
    by_cases hc : j < 2 ^ t1.level ∧ t1.directory j = some cur ∧ j &&& 2 ^ l ≠ 0
    · rw [if_pos hc]
      exact ⟨fun _ => hc.2, fun _ => rfl⟩
    · rw [if_neg hc]
      constructor
      · intro h; exact absurd h (hnotdir j hj)
      · intro h; exact absurd ⟨hj, h⟩ hc
  have hdir_cur : ∀ j, j < 2 ^ t1.level →
      (t'.directory j = some cur ↔ t1.directory j = some cur ∧ ¬ j &&& 2 ^ l ≠ 0) := by
    intro j hj
    rw [hdir j]
    by_cases hc : j < 2 ^ t1.level ∧ t1.directory j = some cur ∧ j &&& 2 ^ l ≠ 0
    · rw [if_pos hc]
      constructor
      · intro h; exact absurd (Option.some.inj h).symm hcn
      · intro h; exact absurd hc.2.2 h.2
    · rw [if_neg hc]
      constructor
      · intro h; exact ⟨h, fun hb => hc ⟨hj, h, hb⟩⟩
      · intro h; exact h.1
  have hdir_oth : ∀ j p, p ≠ cur → p ≠ nb →
      (t'.directory j = some p ↔ t1.directory j = some p) := by
    intro j p hp1 hp2
    rw [hdir j]
    by_cases hc : j < 2 ^ t1.level ∧ t1.directory j = some cur ∧ j &&& 2 ^ l ≠ 0
    · rw [if_pos hc]
      constructor
      · intro h; exact absurd (Option.some.inj h).symm hp2
      · intro h; rw [hc.2.1] at h; exact absurd (Option.some.inj h).symm hp1
    · rw [if_neg hc]
  have hic : i0 % 2 ^ l < 2 ^ l := Nat.mod_lt _ hpos
  have hslot_c : t'.directory (i0 % 2 ^ l) = some cur := by
    have hlt : i0 % 2 ^ l < 2 ^ t1.level := by omega
    rw [hdir_cur _ hlt]
    refine ⟨?_, by simp [and_two_pow_of_lt l _ hic]⟩
    have := (hcur_inv i0 hi0 hd0).2.2.1 (i0 % 2 ^ l) hlt
    rw [hl] at this
    exact this.mpr (Nat.mod_mod _ _)
  have hslot_n : t'.directory (2 ^ l + i0 % 2 ^ l) = some nb := by
    have hlt : 2 ^ l + i0 % 2 ^ l < 2 ^ t1.level := by omega
    rw [hdir_nb _ hlt]
    refine ⟨?_, and_two_pow_add l _ hic⟩
    have := (hcur_inv i0 hi0 hd0).2.2.1 (2 ^ l + i0 % 2 ^ l) hlt
    rw [hl] at this
    apply this.mpr
    rw [Nat.add_mod, Nat.mod_self, Nat.zero_add, Nat.mod_mod, Nat.mod_mod]
  have hlen : (t'.buckets cur).fill + (t'.buckets nb).fill = (t1.buckets cur).fill := by
    rw [← entries_length, ← entries_length, ← entries_length, hce, hne, List.length_reverse,
      List.length_eq_length_filter_add (entry_bit l) (l := entries (t1.buckets cur))]
    omega
  have hrefc : referenced t' cur := ⟨i0 % 2 ^ l, by rw [hlvl]; omega, hslot_c⟩
  have hrefn : referenced t' nb := ⟨2 ^ l + i0 % 2 ^ l, by rw [hlvl]; omega, hslot_n⟩
  refine ⟨⟨by rw [hlvl]; exact hg1, by rw [hlvl]; exact hg2, ?_⟩, hrefc, hrefn, ?_, ?_, ?_,
    hlen, hcn⟩
  · -- slot invariants
    intro i p hi hd
    rw [hlvl] at hi
    by_cases hpn : p = nb
    · subst hpn
      obtain ⟨hdc, hbit⟩ := (hdir_nb i hi).mp hd
      obtain ⟨_, _, hcong, hkeys⟩ := hcur_inv i hi hdc
      rw [hl] at hcong hkeys
      refine ⟨hnb2, by rw [hnl, hlvl]; omega, ?_, ?_⟩
      · intro j hj
        rw [hlvl] at hj
        rw [hnl, hdir_nb j hj, hcong j hj, mod_two_pow_succ_eq_iff]
        constructor
        · intro h; exact ⟨h.1, iff_of_true h.2 hbit⟩
        · intro h; exact ⟨h.1, h.2.mpr hbit⟩
      · intro kv hkv
        rw [hne, List.mem_reverse, List.mem_filter] at hkv
        rw [hnl, mod_two_pow_succ_eq_iff]
        exact ⟨hkeys kv hkv.1, iff_of_true (by simpa [entry_bit] using hkv.2) hbit⟩
    · by_cases hpc : p = cur
      · subst hpc
        obtain ⟨hdc, hbit⟩ := (hdir_cur i hi).mp hd
        obtain ⟨_, _, hcong, hkeys⟩ := hcur_inv i hi hdc
        rw [hl] at hcong hkeys
        refine ⟨hiss _ hcur_iss, by rw [hcl, hlvl]; omega, ?_, ?_⟩
        · intro j hj
          rw [hlvl] at hj
          rw [hcl, hdir_cur j hj, hcong j hj, mod_two_pow_succ_eq_iff]
          constructor
          · intro h; exact ⟨h.1, iff_of_false h.2 hbit⟩
          · intro h; exact ⟨h.1, fun hb => hbit (h.2.mp hb)⟩
        · intro kv hkv
          rw [hce, List.mem_filter] at hkv
          rw [hcl, mod_two_pow_succ_eq_iff]
          exact ⟨hkeys kv hkv.1, iff_of_false (by simpa [entry_bit] using hkv.2) hbit⟩
      · have hd1 : t1.directory i = some p := (hdir_oth i p hpc hpn).mp hd
        obtain ⟨h1, h2, h3, h4⟩ := hslots i p hi hd1
        refine ⟨hiss _ h1, by rw [hoth p hpc hpn, hlvl]; exact h2, ?_, ?_⟩
        · intro j hj
          rw [hlvl] at hj
          rw [hoth p hpc hpn, hdir_oth j p hpc hpn]
          exact h3 j hj
        · rw [hoth p hpc hpn]; exact h4
  · -- referenced buckets
    intro p
    constructor
    · rintro ⟨i, hi, hd⟩
      rw [hlvl] at hi
      by_cases hpn : p = nb
      · exact Or.inl hpn
      · right
        by_cases hpc : p = cur
        · exact ⟨i0, hi0, hpc ▸ hd0⟩
        · exact ⟨i, hi, (hdir_oth i p hpc hpn).mp hd⟩
    · rintro (hp | ⟨i, hi, hd⟩)
      · exact hp ▸ hrefn
      · by_cases hpc : p = cur
        · exact hpc ▸ hrefc
        · have hpn : p ≠ nb := fun h => hnotdir i hi (h ▸ hd)
          exact ⟨i, by rw [hlvl]; exact hi, (hdir_oth i p hpc hpn).mpr hd⟩
  · -- stored pairs
    intro k v
    constructor
    · rintro ⟨i, p, hi, hd, hmem⟩
      rw [hlvl] at hi
      by_cases hpn : p = nb
      · subst hpn
        rw [hne, List.mem_reverse, List.mem_filter] at hmem
        exact ⟨i0, cur, hi0, hd0, hmem.1⟩
      · by_cases hpc : p = cur
        · subst hpc
          rw [hce, List.mem_filter] at hmem
          exact ⟨i0, p, hi0, hd0, hmem.1⟩
        · rw [hoth p hpc hpn] at hmem
          exact ⟨i, p, hi, (hdir_oth i p hpc hpn).mp hd, hmem⟩
    · rintro ⟨i, p, hi, hd, hmem⟩
      by_cases hpc : p = cur
      · subst hpc
        by_cases hbit : GINTHASH_SCRAMBLE k &&& 2 ^ l ≠ 0
        · refine ⟨2 ^ l + i0 % 2 ^ l, nb, by rw [hlvl]; omega, hslot_n, ?_⟩
          rw [hne, List.mem_reverse, List.mem_filter]
          exact ⟨hmem, by simpa [entry_bit] using hbit⟩
        · refine ⟨i0 % 2 ^ l, p, by rw [hlvl]; omega, hslot_c, ?_⟩
          rw [hce, List.mem_filter]
          exact ⟨hmem, by simpa [entry_bit] using hbit⟩
      · have hpn : p ≠ nb := fun h => hnotdir i hi (h ▸ hd)
        refine ⟨i, p, by rw [hlvl]; exact hi, (hdir_oth i p hpc hpn).mpr hd, ?_⟩
        rw [hoth p hpc hpn]; exact hmem
  · -- slot counts
    intro r
    have hjlt : r % 2 ^ t1.level < 2 ^ t1.level := Nat.mod_lt _ (Nat.two_pow_pos _)
    have hl23 : l + 1 < GINTHASH_MAXLEVEL := by omega
    have hbitr : (r % 2 ^ t1.level &&& 2 ^ l ≠ 0 ↔ r &&& 2 ^ l ≠ 0) := mod_bit r l _ hlg
    unfold slot_count
    rw [hlvl]
    cases hdj : t1.directory (r % 2 ^ t1.level) with
    | none =>
      have : t'.directory (r % 2 ^ t1.level) = none := by
        rw [hdir, if_neg (by rw [hdj]; simp), hdj]
      rw [this]
    | some p =>
      by_cases hpc : p = cur
      · subst hpc
        by_cases hbit : r % 2 ^ t1.level &&& 2 ^ l ≠ 0
        · rw [(hdir_nb _ hjlt).mpr ⟨hdj, hbit⟩]
          simp only [hne, List.countP_reverse, List.countP_filter]
          apply List.countP_congr
          intro kv _
          have := low_agree_bit r l kv hl23
          simp only [Bool.and_eq_true, entry_bit, decide_eq_true_eq]
          constructor
          · intro h; exact h.1
          · intro h; exact ⟨h, (this h).mpr (hbitr.mp hbit)⟩
        · rw [(hdir_cur _ hjlt).mpr ⟨hdj, hbit⟩]
          simp only [hce, List.countP_filter]
          apply List.countP_congr
          intro kv _
          have := low_agree_bit r l kv hl23
          simp only [Bool.and_eq_true, entry_bit, Bool.not_eq_true', decide_eq_false_iff_not,
            decide_eq_true_eq]
          constructor
          · intro h; exact h.1
          · intro h; exact ⟨h, fun hb => hbit (hbitr.mpr ((this h).mp hb))⟩
      · have hpn : p ≠ nb := fun h => hnotdir _ hjlt (h ▸ hdj)
        rw [(hdir_oth _ p hpc hpn).mpr hdj]
        simp only [hoth p hpc hpn]

/-- A successful `ginthash_splitbucket` on an overfull referenced bucket: an optional
growth step to `t1`, then a split step from `t1`. -/
theorem splitbucket_rel (t t' : ext_ginthash) (b nb : bucket_ptr) (i0 : Nat)
    (hwf : tbl_wf t) (hfull : (t.buckets b).fill = GINTHASH_BUCKETCAP + 1)
    (hi0 : i0 < 2 ^ t.level) (hd0 : t.directory i0 = some b)
    (h : ginthash_splitbucket t b = (some nb, t')) :
    ∃ t1, (t1 = t ∨ (grow_rel t t1 ∧ (t.buckets b).level = t.level)) ∧ tbl_wf t1 ∧ t1.buckets = t.buckets ∧
      t1.nextbucket = t.nextbucket ∧ t1.free_pool = t.free_pool ∧
      (t.buckets b).level < t1.level ∧ t.level ≤ t1.level ∧
      i0 < 2 ^ t1.level ∧ t1.directory i0 = some b ∧
      (∀ j, j < 2 ^ t1.level → t1.directory j = t.directory (j % 2 ^ t.level)) ∧
      (∀ p, referenced t1 p ↔ referenced t p) ∧
      (∀ k v, stored t1 k v ↔ stored t k v) ∧
      (∀ r, slot_count t1 r = slot_count t r) ∧
      split_rel t1 t' b nb ∧ ¬ issued t1 nb ∧ issued t' nb ∧
      (∀ p, issued t1 p → issued t' p) := by
  unfold ginthash_splitbucket at h
  simp only [] at h
  by_cases hlev : (t.buckets b).level = t.level
  · rw [if_pos hlev] at h
    by_cases hrc : (grow_ginthash t).1 ≠ 0
    · rw [if_pos hrc] at h
      exact absurd (congrArg Prod.fst h) (by simp)
    · rw [if_neg hrc] at h
      have hg : grow_ginthash t = (0, (grow_ginthash t).2) := by
        have : (grow_ginthash t).1 = 0 := by simpa using hrc
        exact Prod.ext this rfl
      have hrel : grow_rel t (grow_ginthash t).2 := grow_rel_of t _ hwf.1 hg
      obtain ⟨w1, w2, w3, w4⟩ := grow_rel_wf t _ hwf hrel
      obtain ⟨e1, e2, e3, e4, e5, e6⟩ := hrel
      have hi1 : i0 < 2 ^ (grow_ginthash t).2.level := by rw [e1, pow_succ]; omega
      have hd1 : (grow_ginthash t).2.directory i0 = some b := by
        rw [e6 i0 (by rw [pow_succ]; omega), Nat.mod_eq_of_lt hi0]; exact hd0
      obtain ⟨s1, s2, s3, s4⟩ := split_rest_rel _ t' b nb i0 w1 (by rw [e3]; exact hfull)
        hi1 hd1 h
      refine ⟨_, Or.inr ⟨⟨e1, e2, e3, e4, e5, e6⟩, hlev⟩, w1, e3, e4, e5, by rw [e1, hlev]; omega,
        by rw [e1]; omega, hi1, hd1, ?_, w2, w3, w4, s1, s2, s3, s4⟩
      intro j hj
      rw [e1] at hj
      exact e6 j hj
  · rw [if_neg hlev] at h
    simp only [ne_eq, not_true_eq_false, if_false] at h
    have hle : (t.buckets b).level ≤ t.level := (hwf.2.2 i0 b hi0 hd0).2.1
    obtain ⟨s1, s2, s3, s4⟩ := split_rest_rel t t' b nb i0 hwf hfull hi0 hd0 h
    refine ⟨t, Or.inl rfl, hwf, rfl, rfl, rfl, lt_of_le_of_ne hle hlev, le_rfl, hi0, hd0, ?_,
      fun _ => Iff.rfl, fun _ _ => Iff.rfl, fun _ => rfl, s1, s2, s3, s4⟩
    intro j hj
    rw [Nat.mod_eq_of_lt hj]

/-- C15. `grow_ginthash` on a table of level `L ≥ 1`: it returns -1 exactly when
`L + 1 ≥ GINTHASH_MAXLEVEL`, and then returns the table as it was (level and directory
unchanged); a level below the maximum stays below the maximum; otherwise it returns 0,
the level is `L + 1`, for every `i < 2^L` the slots `i` and `2^L + i` both hold the
bucket that slot `i` held before, the buckets are untouched, and the pool allocated for
`buckets[L+1]` has `nextpool_sz = 2^L` buckets, which is the size that
`ginthash_newbucket` assumes for pool `L + 1`. -/
theorem grow_ginthash_spec (t : ext_ginthash) (hL : 1 ≤ t.level) :
    ((grow_ginthash t).1 = -1 ↔ t.level + 1 ≥ GINTHASH_MAXLEVEL) ∧
    (t.level + 1 ≥ GINTHASH_MAXLEVEL → grow_ginthash t = (-1, t)) ∧
    (t.level < GINTHASH_MAXLEVEL → (grow_ginthash t).2.level < GINTHASH_MAXLEVEL) ∧
    (t.level + 1 < GINTHASH_MAXLEVEL →
      (grow_ginthash t).1 = 0 ∧ (grow_ginthash t).2.level = t.level + 1 ∧
      (∀ i, i < 2 ^ t.level →
        (grow_ginthash t).2.directory i = t.directory i ∧
        (grow_ginthash t).2.directory (2 ^ t.level + i) = t.directory i) ∧
      (grow_ginthash t).2.buckets = t.buckets ∧
      grow_nextpool_sz t = 2 ^ t.level ∧
      ginthash_poolsz (t.level + 1) = 2 ^ t.level) := by
  have hpos : 0 < 2 ^ t.level := Nat.two_pow_pos _
  rcases grow_cases t with ⟨hmax, hg⟩ | ⟨hmax, hg⟩
  · refine ⟨?_, fun _ => hg, ?_, fun h => absurd hmax (by omega)⟩
    · rw [hg]; exact ⟨fun _ => hmax, fun _ => rfl⟩
    · intro h; rw [hg]; exact h
  · have hg2 : grow_ginthash t = (0, (grow_ginthash t).2) := Prod.ext hg rfl
    obtain ⟨e1, e2, e3, e4, e5, e6⟩ := grow_spec t _ hL hg2
    refine ⟨?_, fun h => absurd h (by omega), fun _ => e2, fun _ => ⟨hg, e1, ?_, e3, ?_, ?_⟩⟩
    · rw [hg]
      constructor
      · intro h; exact absurd h (by decide)
      · intro h; exact absurd h (by omega)
    · intro i hi
      constructor
      · rw [e6 i (by rw [pow_succ]; omega), Nat.mod_eq_of_lt hi]
      · rw [e6 _ (by rw [pow_succ]; omega), Nat.add_mod, Nat.mod_self, Nat.zero_add,
          Nat.mod_mod, Nat.mod_eq_of_lt hi]
    · unfold grow_nextpool_sz
      rw [if_pos (by omega), Nat.one_shiftLeft]
    · unfold ginthash_poolsz
      rw [if_neg (by omega), Nat.one_shiftLeft, Nat.add_sub_cancel]

/-- Witness for C15: a table of level 1 with two empty slots grows to level 2. -/
theorem grow_ginthash_spec_witness :
    (grow_ginthash ⟨1, fun _ => none, fun _ => zero_bucket, fun _ => 0, 1⟩).1 = 0 ∧
    (grow_ginthash ⟨1, fun _ => none, fun _ => zero_bucket, fun _ => 0, 1⟩).2.level = 2 :=
  ⟨((grow_ginthash_spec ⟨1, fun _ => none, fun _ => zero_bucket, fun _ => 0, 1⟩
      (by decide)).2.2.2 (by decide)).1,
   ((grow_ginthash_spec ⟨1, fun _ => none, fun _ => zero_bucket, fun _ => 0, 1⟩
      (by decide)).2.2.2 (by decide)).2.1⟩

/-- C16. `ginthash_splitbucket` on an overfull bucket `b` (fill 4, local level `l`)
referenced by a table satisfying the directory invariant, when it returns the sibling
`nb`: both buckets have local level `l + 1`; the pairs of `b` and of the sibling together
are a permutation of the pairs of `b` before; a pair is in the sibling iff it was in `b`
and its scrambled key has bit `l` set, and stays in `b` iff the bit is clear; the pairs
that stay keep their order (they are the old list filtered); the pairs that move are the
old ones in reverse order; a directory slot holds the sibling iff the slot it was copied
from pointed at `b` and its index has bit `l` set, and every other slot keeps its bucket;
no other bucket is touched. -/
theorem ginthash_splitbucket_spec (t t' : ext_ginthash) (b nb : bucket_ptr) (i0 : Nat)
    (hwf : tbl_wf t) (hfull : (t.buckets b).fill = GINTHASH_BUCKETCAP + 1)
    (hi0 : i0 < 2 ^ t.level) (hd0 : t.directory i0 = some b)
    (h : ginthash_splitbucket t b = (some nb, t')) :
    nb ≠ b ∧
    (t'.buckets b).level = (t.buckets b).level + 1 ∧
    (t'.buckets nb).level = (t.buckets b).level + 1 ∧
    (entries (t'.buckets b) ++ entries (t'.buckets nb)).Perm (entries (t.buckets b)) ∧
    (∀ kv, kv ∈ entries (t'.buckets nb) ↔
      kv ∈ entries (t.buckets b) ∧ GINTHASH_SCRAMBLE kv.1 &&& 2 ^ (t.buckets b).level ≠ 0) ∧
    (∀ kv, kv ∈ entries (t'.buckets b) ↔
      kv ∈ entries (t.buckets b) ∧ ¬ GINTHASH_SCRAMBLE kv.1 &&& 2 ^ (t.buckets b).level ≠ 0) ∧
    entries (t'.buckets b) =
      (entries (t.buckets b)).filter (fun kv => !entry_bit (t.buckets b).level kv) ∧
    entries (t'.buckets nb) =
      ((entries (t.buckets b)).filter (entry_bit (t.buckets b).level)).reverse ∧
    (entries (t'.buckets b)).Sublist (entries (t.buckets b)) ∧
    (t'.level = if (t.buckets b).level = t.level then t.level + 1 else t.level) ∧
    (∀ j, j < 2 ^ t'.level → t'.directory j =
      if t.directory (j % 2 ^ t.level) = some b ∧ j &&& 2 ^ (t.buckets b).level ≠ 0
      then some nb else t.directory (j % 2 ^ t.level)) ∧
    (∀ r, r ≠ b → r ≠ nb → t'.buckets r = t.buckets r) := by
  obtain ⟨t1, hcase, w1, b1, _, _, hlt, _, hi1, hd1, hdir1, _, _, _, hrel, n1, n2, n3⟩ :=
    splitbucket_rel t t' b nb i0 hwf hfull hi0 hd0 h
  obtain ⟨_, _, _, _, _, _, _, hcn⟩ := split_rel_wf t1 t' b nb i0 w1 (by rw [b1]; exact hlt)
    hi1 hd1 hrel n1 n2 n3
  obtain ⟨_, hlvl, hdir, hcl, hce, hnl, hne, hoth⟩ := hrel
  rw [b1] at hdir hcl hce hnl hne hoth
  refine ⟨fun hc => hcn hc.symm, hcl, hnl, ?_, ?_, ?_, hce, hne, ?_, ?_, ?_, hoth⟩
  · rw [hce, hne]
    refine List.Perm.trans (List.Perm.append_left _ (List.reverse_perm _)) ?_
    exact List.Perm.trans List.perm_append_comm (List.filter_append_perm _ _)
  · intro kv
    rw [hne, List.mem_reverse, List.mem_filter]
    simp [entry_bit]
  · intro kv
    rw [hce, List.mem_filter]
    simp [entry_bit]
  · rw [hce]; exact List.filter_sublist _
  · rcases hcase with hc | hc
    · rw [hc] at hlt
      rw [hlvl, hc, if_neg (by omega)]
    · rw [hlvl, hc.1.1, if_pos hc.2]
  · intro j hj
    rw [hlvl] at hj
    rw [hdir j, hdir1 j hj]
    simp only [hj, true_and]

/-! ## Extendible hash: the directory invariant in numbers -/

/-- Among the slots of a directory of level `g`, those congruent to `c` modulo `2^l`
are `2^(g-l)` in number. -/
theorem card_congruent_slots (g l c : Nat) (hlg : l ≤ g) (hc : c < 2 ^ l) :
    ((Finset.range (2 ^ g)).filter (fun j => j % 2 ^ l = c)).card = 2 ^ (g - l) := by
  have hpos : 0 < 2 ^ l := Nat.two_pow_pos l
  have hpow : 2 ^ g = 2 ^ l * 2 ^ (g - l) := by
    rw [← pow_add]; congr 1; omega
  have himg : (Finset.range (2 ^ g)).filter (fun j => j % 2 ^ l = c) =
      (Finset.range (2 ^ (g - l))).image (fun q => c + 2 ^ l * q) := by
    ext j
    simp only [Finset.mem_filter, Finset.mem_range, Finset.mem_image]
    constructor
    · rintro ⟨hj, hm⟩
      refine ⟨j / 2 ^ l, ?_, ?_⟩
      · rw [Nat.div_lt_iff_lt_mul hpos, mul_comm, ← hpow]; exact hj
      · rw [← hm]; exact Nat.mod_add_div j (2 ^ l)
    · rintro ⟨q, hq, rfl⟩
      constructor
      · calc c + 2 ^ l * q < 2 ^ l + 2 ^ l * q := by omega
          _ = 2 ^ l * (q + 1) := by ring
          _ ≤ 2 ^ l * 2 ^ (g - l) := Nat.mul_le_mul_left _ hq
          _ = 2 ^ g := hpow.symm
      · rw [Nat.add_mul_mod_self_left, Nat.mod_eq_of_lt hc]
  rw [himg, Finset.card_image_of_injective, Finset.card_range]
  intro a b hab
  have : 2 ^ l * a = 2 ^ l * b := by
    have hab' : c + 2 ^ l * a = c + 2 ^ l * b := hab
    omega
  exact Nat.eq_of_mul_eq_mul_left hpos this

/-- The low bits of `GINTHASH_SCRAMBLE(k)` are the residue of the signed value
`rehash_gint(k)`. -/
theorem scramble_mod (k : Int) (l : Nat) (hl : l ≤ 64) :
    ((GINTHASH_SCRAMBLE k % 2 ^ l : Nat) : Int) = rehash_gint k % 2 ^ l := by
  unfold GINTHASH_SCRAMBLE to_size_t
  rw [Int.natCast_mod, Int.toNat_of_nonneg (Int.emod_nonneg _ (by norm_num))]
  push_cast
  exact Int.emod_emod_of_dvd _ (pow_dvd_pow 2 hl)

/-- C11. Directory invariant: in every table reached from `wg_ginthash_init` by
`wg_ginthash_addkey` calls that each return 0, the global level `g` is at least 1, and
for every directory slot `i` holding a bucket `b` of local level `l`: `l ≤ g`; the slots
`j < 2^g` holding `b` are exactly those congruent to `i` modulo `2^l`; there are exactly
`2^(g-l)` of them; and every key in a valid slot of `b` has `rehash_gint(key)` congruent
to `i` modulo `2^l`. -/
theorem ginthash_directory_invariant (heap : bucket_ptr → ginthash_bucket)
    (t0 t : ext_ginthash) (kvs : List (Int × Int))
    (hinit : wg_ginthash_init heap = some t0) (hadd : addkeys t0 kvs = some t)
    (i : Nat) (b : bucket_ptr) (hi : i < 2 ^ t.level) (hd : t.directory i = some b) :
    1 ≤ t.level ∧ (t.buckets b).level ≤ t.level ∧
    (∀ j, j < 2 ^ t.level →
      (t.directory j = some b ↔ j % 2 ^ (t.buckets b).level = i % 2 ^ (t.buckets b).level)) ∧
    ((Finset.range (2 ^ t.level)).filter (fun j => t.directory j = some b)).card =
      2 ^ (t.level - (t.buckets b).level) ∧
    (∀ s, s < (t.buckets b).fill →
      rehash_gint ((t.buckets b).key s) % 2 ^ (t.buckets b).level =
        (i : Int) % 2 ^ (t.buckets b).level) := by
  have hinv := (addkeys_inv kvs t0 t (init_inv heap t0 hinit).1 hadd).1
  obtain ⟨hg1, hg2, hslots⟩ := hinv.1
  obtain ⟨_, h2, h3, h4⟩ := hslots i b hi hd
  refine ⟨hg1, h2, h3, ?_, ?_⟩
  · rw [← card_congruent_slots t.level (t.buckets b).level (i % 2 ^ (t.buckets b).level) h2
      (Nat.mod_lt _ (Nat.two_pow_pos _))]
    congr 1
    apply Finset.filter_congr
    intro j hj
    exact h3 j (Finset.mem_range.mp hj)
  · intro s hs
    have hmem : ((t.buckets b).key s, (t.buckets b).value s) ∈ entries (t.buckets b) :=
      (mem_entries _ _).mpr ⟨s, hs, rfl, rfl⟩
    have hk := h4 _ hmem
    have hl64 : (t.buckets b).level ≤ 64 := by
      have : t.level < 24 := hg2
      omega
    rw [← scramble_mod _ _ hl64, hk]
    push_cast
    rfl

/-- Witness for C11: after eight insertions of multiples of 8 the bucket of slot 0
satisfies the invariant. -/
theorem ginthash_directory_invariant_witness :
    ∃ t0 t p, wg_ginthash_init (fun _ => zero_bucket) = some t0 ∧
      addkeys t0 [(8, 1), (16, 2), (24, 3), (32, 4), (40, 5), (48, 6), (56, 7), (64, 8)] =
        some t ∧
      t.directory 0 = some p ∧ (t.buckets p).level ≤ t.level ∧
      ((Finset.range (2 ^ t.level)).filter (fun j => t.directory j = some p)).card =
        2 ^ (t.level - (t.buckets p).level) := by
  have h : ((wg_ginthash_init fun _ => zero_bucket).bind fun t0 =>
      (addkeys t0 [(8, 1), (16, 2), (24, 3), (32, 4), (40, 5), (48, 6), (56, 7),
        (64, 8)]).bind fun t => (t.directory 0).map fun p => (t, p)).isSome = true := by
    decide!
  obtain ⟨⟨t, p⟩, ht⟩ := Option.isSome_iff_exists.mp h
  obtain ⟨t0, h0, h1⟩ := Option.bind_eq_some.mp ht
  obtain ⟨t', h2, h3⟩ := Option.bind_eq_some.mp h1
  obtain ⟨p', h4, h5⟩ := Option.map_eq_some'.mp h3
  obtain ⟨rfl, rfl⟩ := Prod.mk.inj h5
  have hw := ginthash_directory_invariant _ t0 t' _ h0 h2 0 p' (Nat.two_pow_pos _) h4
  exact ⟨t0, t', p', h0, h2, h4, hw.2.1, hw.2.2.2.1⟩

/-! ## Extendible hash: the bucket pools -/

/-- A pool has room for at least one bucket. -/
theorem ginthash_poolsz_pos (pool : Nat) : 0 < ginthash_poolsz pool := by
  unfold ginthash_poolsz
  split
  · decide
  · rw [Nat.one_shiftLeft]; exact Nat.two_pow_pos _

/-- The buckets handed out are at most as many as the directory slots other than a
slot `s` that is not needed to reference any of them. -/
theorem issued_count_le_erase (t : ext_ginthash) (hpool : pool_inv t) (s : Nat)
    (hs : ∀ p, referenced t p → ∃ i, i ≠ s ∧ i < 2 ^ t.level ∧ t.directory i = some p) :
    issued_count t ≤ ((Finset.range (2 ^ t.level)).erase s).card := by
  obtain ⟨_, _, _, H, hcard, href⟩ := hpool
  rw [← hcard, ← Finset.card_image_of_injective H (Option.some_injective _)]
  have hsub : H.image some ⊆ ((Finset.range (2 ^ t.level)).erase s).image t.directory := by
    intro x hx
    obtain ⟨p, hp, rfl⟩ := Finset.mem_image.mp hx
    obtain ⟨i, hne, hi, hd⟩ := hs p (href p hp)
    exact Finset.mem_image.mpr ⟨i, Finset.mem_erase.mpr ⟨hne, Finset.mem_range.mpr hi⟩, hd⟩
  exact le_trans (Finset.card_le_card hsub) Finset.card_image_le

/-- With an empty slot, or a bucket below the global level, fewer buckets have been
handed out than there are directory slots. -/
theorem issued_count_lt (t : ext_ginthash) (hwf : tbl_wf t) (hpool : pool_inv t)
    (h : (∃ i, i < 2 ^ t.level ∧ t.directory i = none) ∨
      (∃ i p, i < 2 ^ t.level ∧ t.directory i = some p ∧ (t.buckets p).level < t.level)) :
    issued_count t < 2 ^ t.level := by
  have hpos : 0 < 2 ^ t.level := Nat.two_pow_pos _
  have hcard : ∀ s, s < 2 ^ t.level →
      ((Finset.range (2 ^ t.level)).erase s).card < 2 ^ t.level := by
    intro s hs
    rw [Finset.card_erase_of_mem (Finset.mem_range.mpr hs), Finset.card_range]
    omega
  rcases h with ⟨s, hs, hnone⟩ | ⟨i0, p0, hi0, hd0, hlt⟩
  · refine lt_of_le_of_lt (issued_count_le_erase t hpool s ?_) (hcard s hs)
    rintro p ⟨i, hi, hd⟩
    refine ⟨i, ?_, hi, hd⟩
    intro hc
    rw [hc, hnone] at hd
    exact absurd hd (by simp)
  · obtain ⟨_, _, hcong, _⟩ := hwf.2.2 i0 p0 hi0 hd0
    obtain ⟨l, hl⟩ : ∃ l, (t.buckets p0).level = l := ⟨_, rfl⟩
    rw [hl] at hcong hlt
    have hpl : 0 < 2 ^ l := Nat.two_pow_pos l
    have hpow : 2 ^ (l + 1) ≤ 2 ^ t.level := Nat.pow_le_pow_right (by decide) hlt
    have hpow2 : 2 ^ (l + 1) = 2 ^ l + 2 ^ l := by rw [pow_succ]; omega
    have hic : i0 % 2 ^ l < 2 ^ l := Nat.mod_lt _ hpl
    have hlo : t.directory (i0 % 2 ^ l) = some p0 :=
      (hcong _ (by omega)).mpr (Nat.mod_mod _ _)
    have hhi : t.directory (2 ^ l + i0 % 2 ^ l) = some p0 := by
      apply (hcong _ (by omega)).mpr
      rw [Nat.add_mod, Nat.mod_self, Nat.zero_add, Nat.mod_mod, Nat.mod_mod]
    refine lt_of_le_of_lt (issued_count_le_erase t hpool (2 ^ l + i0 % 2 ^ l) ?_)
      (hcard _ (by omega))
    rintro p ⟨i, hi, hd⟩
    by_cases hc : i = 2 ^ l + i0 % 2 ^ l
    · rw [hc, hhi] at hd
      rw [← Option.some.inj hd]
      exact ⟨i0 % 2 ^ l, by omega, by omega, hlo⟩
    · exact ⟨i, hc, hi, hd⟩

/-- When fewer buckets have been handed out than there are directory slots, the pool
`free_pool` has been allocated. -/
theorem free_pool_le_level (t : ext_ginthash) (hlevel : 1 ≤ t.level)
    (h : issued_count t < 2 ^ t.level) : t.free_pool ≤ t.level := by
  unfold issued_count at h
  by_cases hfp : t.free_pool ≤ 1
  · omega
  · rw [if_neg hfp] at h
    have h2 : 2 ^ (t.free_pool - 1) < 2 ^ t.level := by omega
    have := (Nat.pow_lt_pow_iff_right (by decide : 1 < 2)).mp h2
    omega

/-- The pool invariant reads only the level, the directory and the pool counters. -/
theorem pool_inv_congr (t t' : ext_ginthash) (hl : t'.level = t.level)
    (hd : t'.directory = t.directory) (hn : t'.nextbucket = t.nextbucket)
    (hf : t'.free_pool = t.free_pool) (h : pool_inv t) : pool_inv t' := by
  unfold pool_inv issued_count referenced at *
  rw [hl, hd, hn, hf]
  exact h

/-- A growth step preserves the pool invariant. -/
theorem pool_inv_grow (t t' : ext_ginthash) (hwf : tbl_wf t) (hrel : grow_rel t t')
    (h : pool_inv t) : pool_inv t' := by
  obtain ⟨_, hrefd, _, _⟩ := grow_rel_wf t t' hwf hrel
  obtain ⟨e1, e2, e3, e4, e5, e6⟩ := hrel
  obtain ⟨h1, h2, h3, H, hcard, href⟩ := h
  refine ⟨by rw [e5]; exact h1, by rw [e4, e5]; exact h2, by rw [e4, e5]; exact h3, H, ?_, ?_⟩
  · rw [hcard]; unfold issued_count; rw [e4, e5]
  · intro p hp; exact (hrefd p).mpr (href p hp)

/-- Handing out a bucket that becomes referenced preserves the pool invariant. -/
theorem pool_inv_step (t t' : ext_ginthash) (nb : bucket_ptr) (hstep : pool_step t t' nb)
    (hnew : ¬ referenced t nb)
    (href : ∀ p, referenced t' p ↔ (p = nb ∨ referenced t p))
    (h : pool_inv t) : pool_inv t' := by
  obtain ⟨s1, s2, s3, s4⟩ := hstep
  obtain ⟨h1, h2, h3, H, hcard, hH⟩ := h
  have hpz := ginthash_poolsz_pos (t.free_pool + 1)
  have hnext : t'.nextbucket t.free_pool = t.nextbucket t.free_pool + 1 := by
    rw [s3, Function.update_same]
  have hnext2 : ∀ q, q ≠ t.free_pool → t'.nextbucket q = t.nextbucket q := by
    intro q hq; rw [s3, Function.update_noteq hq]
  have hnH : nb ∉ H := fun hc => hnew (hH nb hc)
  have hcount : issued_count t' = issued_count t + 1 := by
    unfold issued_count
    by_cases hfull : t.nextbucket t.free_pool + 1 ≥ ginthash_poolsz t.free_pool
    · rw [if_pos hfull] at s4
      rw [s4, hnext2 _ (by omega), h3 _ (by omega), if_neg (by omega), Nat.add_sub_cancel]
      unfold ginthash_poolsz at hfull h2
      by_cases hp1 : t.free_pool = 1
      · rw [if_pos hp1] at hfull h2
        have hp2 : 2 ^ t.free_pool = 2 := by rw [hp1]; rfl
        rw [if_pos (by omega)]
        omega
      · rw [if_neg hp1, Nat.one_shiftLeft] at hfull h2
        rw [if_neg (by omega)]
        have hp2 : 2 ^ t.free_pool = 2 * 2 ^ (t.free_pool - 1) := by
          rw [← pow_succ']; congr 1; omega
        omega
    · rw [if_neg hfull] at s4
      rw [s4, hnext]
      omega
  refine ⟨?_, ?_, ?_, insert nb H, ?_, ?_⟩
  · rw [s4]; split <;> omega
  · by_cases hfull : t.nextbucket t.free_pool + 1 ≥ ginthash_poolsz t.free_pool
    · rw [if_pos hfull] at s4
      rw [s4, hnext2 _ (by omega), h3 _ (by omega)]
      exact hpz
    · rw [if_neg hfull] at s4
      rw [s4, hnext]
      omega
  · intro q hq
    have hq2 : t.free_pool < q := by
      rw [s4] at hq
      split at hq <;> omega
    rw [hnext2 q (by omega)]
    exact h3 q hq2
  · rw [Finset.card_insert_of_not_mem hnH, hcard, hcount]
  · intro p hp
    rcases Finset.mem_insert.mp hp with hp | hp
    · exact (href p).mpr (Or.inl hp)
    · exact (href p).mpr (Or.inr (hH p hp))

/-! ## Extendible hash: the split loop in any state -/

/-- The second part of `ginthash_splitbucket` on the overfull current bucket, when the
bucket is below the global level: it succeeds, the loop invariant holds for the bucket
that the loop continues with, and stored pairs and slot counts are kept. -/
theorem split_rest_step (t1 : ext_ginthash) (cur : bucket_ptr)
    (hwf : tbl_wf t1) (hpool : pool_inv t1) (href : referenced t1 cur)
    (hfw : fills_weak t1 (some cur))
    (hover : (t1.buckets cur).fill > GINTHASH_BUCKETCAP)
    (hlt : (t1.buckets cur).level < t1.level) :
    t1.free_pool ≤ t1.level ∧
    ∃ nb t', split_rest t1 cur = (some nb, t') ∧
      loop_inv t' (if (t'.buckets nb).fill > GINTHASH_BUCKETCAP then nb else cur) ∧
      (t'.buckets (if (t'.buckets nb).fill > GINTHASH_BUCKETCAP then nb else cur)).level =
        (t1.buckets cur).level + 1 ∧
      (∀ k v, stored t' k v ↔ stored t1 k v) ∧
      (∀ r, slot_count t' r = slot_count t1 r) ∧
      ((t'.buckets (if (t'.buckets nb).fill > GINTHASH_BUCKETCAP then nb else cur)).fill >
          GINTHASH_BUCKETCAP →
        ∀ kv, kv ∈ entries (t'.buckets
            (if (t'.buckets nb).fill > GINTHASH_BUCKETCAP then nb else cur)) ↔
          kv ∈ entries (t1.buckets cur)) ∧
      ((t'.buckets (if (t'.buckets nb).fill > GINTHASH_BUCKETCAP then nb else cur)).fill ≤
          GINTHASH_BUCKETCAP → ¬ all_agree (t1.buckets cur)) := by
  obtain ⟨i0, hi0, hd0⟩ := href
  have hfull : (t1.buckets cur).fill = GINTHASH_BUCKETCAP + 1 := by
    rcases hfw cur ⟨i0, hi0, hd0⟩ with h | h
    · omega
    · exact h.1
  have hcount : issued_count t1 < 2 ^ t1.level :=
    issued_count_lt t1 hwf hpool (Or.inr ⟨i0, cur, hi0, hd0, hlt⟩)
  have hfp : t1.free_pool ≤ t1.level := free_pool_le_level t1 hwf.1 hcount
  refine ⟨hfp, ?_⟩
  have hsome : (split_rest t1 cur).1 ≠ none := by
    intro hc
    have := (split_rest_none_iff t1 cur).mp hc
    omega
  obtain ⟨nb, hnb⟩ := Option.ne_none_iff_exists'.mp hsome
  have hsplit : split_rest t1 cur = (some nb, (split_rest t1 cur).2) := Prod.ext hnb rfl
  obtain ⟨t', ht'⟩ : ∃ t', t' = (split_rest t1 cur).2 := ⟨_, rfl⟩
  rw [← ht'] at hsplit
  obtain ⟨hrel, n1, n2, n3⟩ := split_rest_rel t1 t' cur nb i0 hwf hfull hi0 hd0 hsplit
  obtain ⟨w1, refc, refn, href', hst, hcnt, hlen, hcn⟩ :=
    split_rel_wf t1 t' cur nb i0 hwf hlt hi0 hd0 hrel n1 n2 n3
  have hnew : ¬ referenced t1 nb := by
    rintro ⟨i, hi, hd⟩
    exact n1 (hwf.2.2 i nb hi hd).1
  have hpool' : pool_inv t' := pool_inv_step t1 t' nb hrel.1 hnew href' hpool
  obtain ⟨_, hlvl, hdir, hcl, hce, hnl, hne, hoth⟩ := hrel
  have hl23 : (t1.buckets cur).level + 1 < GINTHASH_MAXLEVEL := by
    have := hwf.2.1
    omega
  have hmem_nb : ∀ kv, kv ∈ entries (t'.buckets nb) ↔
      kv ∈ entries (t1.buckets cur) ∧ entry_bit (t1.buckets cur).level kv = true := by
    intro kv; rw [hne, List.mem_reverse, List.mem_filter]
  have hmem_cur : ∀ kv, kv ∈ entries (t'.buckets cur) ↔
      kv ∈ entries (t1.buckets cur) ∧ entry_bit (t1.buckets cur).level kv = false := by
    intro kv; rw [hce, List.mem_filter]; simp
  have hnil : ∀ b : ginthash_bucket, b.fill = 0 → ∀ kv, kv ∉ entries b := by
    intro b hb kv hkv
    have : (entries b).length = 0 := by rw [entries_length, hb]
    rw [List.eq_nil_of_length_eq_zero this] at hkv
    exact absurd hkv (List.not_mem_nil _)
  have hex : ∀ b : ginthash_bucket, 0 < b.fill → ∃ kv, kv ∈ entries b := by
    intro b hb
    have : 0 < (entries b).length := by rw [entries_length]; exact hb
    exact List.exists_mem_of_length_pos this
  refine ⟨nb, t', hsplit, ?_, ?_, hst, hcnt, ?_, ?_⟩
  · -- loop invariant
    refine ⟨w1, hpool', ?_, ?_⟩
    · split
      · exact refn
      · exact refc
    · intro p hp
      by_cases hpn : p = nb
      · subst hpn
        by_cases hov : (t'.buckets p).fill > GINTHASH_BUCKETCAP
        · right; rw [if_pos hov]; exact ⟨by omega, Or.inl rfl⟩
        · left; omega
      · by_cases hpc : p = cur
        · subst hpc
          by_cases hov : (t'.buckets nb).fill > GINTHASH_BUCKETCAP
          · left; omega
          · rw [if_neg hov]
            by_cases hov2 : (t'.buckets p).fill > GINTHASH_BUCKETCAP
            · right; exact ⟨by omega, Or.inl rfl⟩
            · left; omega
        · have hp1 : referenced t1 p := by
            rcases (href' p).mp hp with h | h
            · exact absurd h hpn
            · exact h
          rw [hoth p hpc hpn]
          rcases hfw p hp1 with h | h
          · exact Or.inl h
          · right
            refine ⟨h.1, Or.inr ?_⟩
            rcases h.2 with h2 | h2
            · exact absurd (Option.some.inj h2) hpc
            · exact h2
  · split
    · exact hnl
    · exact hcl
  · -- the bucket is still overfull: it holds the same pairs
    intro hov kv
    by_cases hovn : (t'.buckets nb).fill > GINTHASH_BUCKETCAP
    · rw [if_pos hovn] at hov ⊢
      have hc0 : (t'.buckets cur).fill = 0 := by omega
      rw [hmem_nb]
      constructor
      · intro h; exact h.1
      · intro h
        refine ⟨h, ?_⟩
        by_contra hb
        exact hnil _ hc0 kv ((hmem_cur kv).mpr ⟨h, by simpa using hb⟩)
    · rw [if_neg hovn] at hov ⊢
      have hn0 : (t'.buckets nb).fill = 0 := by omega
      rw [hmem_cur]
      constructor
      · intro h; exact h.1
      · intro h
        refine ⟨h, ?_⟩
        by_contra hb
        exact hnil _ hn0 kv ((hmem_nb kv).mpr ⟨h, by simpa using hb⟩)
  · -- the bucket is within capacity: two pairs differ in the tested bit
    intro hle hagree
    have hovn : ¬ (t'.buckets nb).fill > GINTHASH_BUCKETCAP := by
      intro hc
      rw [if_pos hc] at hle
      omega
    rw [if_neg hovn] at hle
    obtain ⟨x, hx⟩ := hex (t'.buckets nb) (by omega)
    obtain ⟨y, hy⟩ := hex (t'.buckets cur) (by omega)
    obtain ⟨hx1, hx2⟩ := (hmem_nb x).mp hx
    obtain ⟨hy1, hy2⟩ := (hmem_cur y).mp hy
    have hb := low_agree_bit (GINTHASH_SCRAMBLE x.1) (t1.buckets cur).level y hl23
      (hagree x hx1 y hy1)
    have hxb : GINTHASH_SCRAMBLE x.1 &&& 2 ^ (t1.buckets cur).level ≠ 0 := by
      simpa [entry_bit] using hx2
    have hyb : ¬ GINTHASH_SCRAMBLE y.1 &&& 2 ^ (t1.buckets cur).level ≠ 0 := by
      simpa [entry_bit] using hy2
    exact hyb (hb.mpr hxb)

/-- The first part of `ginthash_splitbucket` (growing the directory when the bucket is
at the global level) succeeds below the maximum level and leads to a table in which
the bucket is below the global level. -/
theorem splitbucket_pre (t : ext_ginthash) (cur : bucket_ptr) (hinv : loop_inv t cur)
    (hl23 : (t.buckets cur).level + 1 < GINTHASH_MAXLEVEL) :
    ∃ t1, (if (t.buckets cur).level = t.level then grow_ginthash t else (0, t)) = (0, t1) ∧
      tbl_wf t1 ∧ pool_inv t1 ∧ referenced t1 cur ∧ fills_weak t1 (some cur) ∧
      t1.buckets = t.buckets ∧ (t.buckets cur).level < t1.level ∧
      (∀ k v, stored t1 k v ↔ stored t k v) ∧
      (∀ r, slot_count t1 r = slot_count t r) := by
  obtain ⟨hwf, hpool, href, hfw⟩ := hinv
  obtain ⟨i0, hi0, hd0⟩ := href
  have hle : (t.buckets cur).level ≤ t.level := (hwf.2.2 i0 cur hi0 hd0).2.1
  by_cases hlev : (t.buckets cur).level = t.level
  · rw [if_pos hlev]
    rcases grow_cases t with ⟨hmax, _⟩ | ⟨_, hg⟩
    · omega
    · have hg2 : grow_ginthash t = (0, (grow_ginthash t).2) := Prod.ext hg rfl
      have hrel : grow_rel t (grow_ginthash t).2 := grow_rel_of t _ hwf.1 hg2
      obtain ⟨w1, w2, w3, w4⟩ := grow_rel_wf t _ hwf hrel
      have hp1 := pool_inv_grow t _ hwf hrel hpool
      obtain ⟨e1, e2, e3, e4, e5, e6⟩ := hrel
      refine ⟨_, hg2, w1, hp1, (w2 cur).mpr ⟨i0, hi0, hd0⟩, ?_, e3, by rw [e1]; omega, w3, w4⟩
      intro p hp
      rw [e3]
      exact hfw p ((w2 p).mp hp)
  · rw [if_neg hlev]
    exact ⟨t, rfl, hwf, hpool, ⟨i0, hi0, hd0⟩, hfw, rfl, lt_of_le_of_ne hle hlev,
      fun _ _ => Iff.rfl, fun _ => rfl⟩

/-- One call of `ginthash_splitbucket` from the split loop on the overfull current
bucket.  At the maximum level it returns `NULL` and leaves the table as it is; below
it, it succeeds, its call of `ginthash_newbucket` stays within the pools, and the loop
invariant holds for the bucket that the loop continues with. -/
theorem splitbucket_step (t : ext_ginthash) (cur : bucket_ptr) (hinv : loop_inv t cur)
    (hover : (t.buckets cur).fill > GINTHASH_BUCKETCAP) :
    ((t.buckets cur).level + 1 = GINTHASH_MAXLEVEL ∧ t.level + 1 = GINTHASH_MAXLEVEL ∧
      ginthash_splitbucket t cur = (none, t) ∧ splitbucket_newbucket_calls t cur = []) ∨
    ((t.buckets cur).level + 1 < GINTHASH_MAXLEVEL ∧
      (∀ c ∈ splitbucket_newbucket_calls t cur, call_ok c) ∧
      ∃ nb t', ginthash_splitbucket t cur = (some nb, t') ∧
        loop_inv t' (if (t'.buckets nb).fill > GINTHASH_BUCKETCAP then nb else cur) ∧
        (t'.buckets (if (t'.buckets nb).fill > GINTHASH_BUCKETCAP then nb else cur)).level =
          (t.buckets cur).level + 1 ∧
        (∀ k v, stored t' k v ↔ stored t k v) ∧
        (∀ r, slot_count t' r = slot_count t r) ∧
        ((t'.buckets (if (t'.buckets nb).fill > GINTHASH_BUCKETCAP then nb else cur)).fill >
            GINTHASH_BUCKETCAP →
          ∀ kv, kv ∈ entries (t'.buckets
              (if (t'.buckets nb).fill > GINTHASH_BUCKETCAP then nb else cur)) ↔
            kv ∈ entries (t.buckets cur)) ∧
        ((t'.buckets (if (t'.buckets nb).fill > GINTHASH_BUCKETCAP then nb else cur)).fill ≤
            GINTHASH_BUCKETCAP → ¬ all_agree (t.buckets cur))) := by
  have hwf := hinv.1
  obtain ⟨i0, hi0, hd0⟩ := hinv.2.2.1
  have hle : (t.buckets cur).level ≤ t.level := (hwf.2.2 i0 cur hi0 hd0).2.1
  have hg24 : t.level < GINTHASH_MAXLEVEL := hwf.2.1
  by_cases hl23 : (t.buckets cur).level + 1 < GINTHASH_MAXLEVEL
  · right
    obtain ⟨t1, hg, w1, p1, r1, f1, b1, hlt, st1, c1⟩ := splitbucket_pre t cur hinv hl23
    obtain ⟨hfp, nb, t', hs, q1, q2, q3, q4, q5, q6⟩ := split_rest_step t1 cur w1 p1 r1 f1
      (by rw [b1]; exact hover) (by rw [b1]; exact hlt)
    rw [b1] at q2 q5 q6
    refine ⟨hl23, ?_, nb, t', ?_, q1, q2, fun k v => (q3 k v).trans (st1 k v),
      fun r => (q4 r).trans (c1 r), q5, q6⟩
    · intro c hc
      unfold splitbucket_newbucket_calls at hc
      simp only [hg, ne_eq, not_true_eq_false, if_false, List.mem_singleton] at hc
      rw [hc]
      exact ⟨p1.1, hfp, w1.2.1, p1.2.1⟩
    · unfold ginthash_splitbucket
      simp only [hg, ne_eq, not_true_eq_false, if_false]
      exact hs
  · left
    have hlev : (t.buckets cur).level = t.level := by omega
    have hmax : t.level + 1 ≥ GINTHASH_MAXLEVEL := by omega
    rcases grow_cases t with ⟨_, hg⟩ | ⟨h1, _⟩
    · refine ⟨by omega, by omega, ?_, ?_⟩
      · unfold ginthash_splitbucket
        simp [hlev, hg]
      · unfold splitbucket_newbucket_calls
        simp [hlev, hg]
    · omega

/-- At the maximum level the entries of a referenced bucket agree on the low bits. -/
theorem all_agree_of_max (t : ext_ginthash) (hwf : tbl_wf t) (cur : bucket_ptr)
    (href : referenced t cur) (hl : (t.buckets cur).level + 1 = GINTHASH_MAXLEVEL) :
    all_agree (t.buckets cur) := by
  obtain ⟨i0, hi0, hd0⟩ := href
  obtain ⟨_, _, _, hkeys⟩ := hwf.2.2 i0 cur hi0 hd0
  have hl2 : GINTHASH_MAXLEVEL - 1 = (t.buckets cur).level := by omega
  intro x hx y hy
  unfold low_agree
  rw [hl2, hkeys x hx, hkeys y hy]
  simp

/-- The split loop of `wg_ginthash_addkey`: it returns within `GINTHASH_MAXLEVEL` loop
tests, with status 0 or -1; the table it leaves satisfies the invariant that holds
between calls and stores the same pairs; the status is -1 exactly when the current
bucket is overfull with entries that agree on the low bits, and then the table is at
the maximum level with an overfull bucket holding these entries; every call of
`ginthash_newbucket` stays within the pools. -/
theorem addkey_loop_master : ∀ (fuel : Nat) (t : ext_ginthash) (cur : bucket_ptr),
    loop_inv t cur → GINTHASH_MAXLEVEL ≤ fuel + (t.buckets cur).level →
    ∃ rc t', addkey_loop fuel t cur = some (rc, t') ∧ (rc = 0 ∨ rc = -1) ∧
      reach_inv t' ∧
      (∀ k v, stored t' k v ↔ stored t k v) ∧
      (∀ r, slot_count t' r = slot_count t r) ∧
      (rc = -1 ↔ ((t.buckets cur).fill > GINTHASH_BUCKETCAP ∧ all_agree (t.buckets cur))) ∧
      (rc = -1 → t'.level + 1 = GINTHASH_MAXLEVEL ∧
        ∃ p, referenced t' p ∧ (t'.buckets p).fill = GINTHASH_BUCKETCAP + 1 ∧
          (t'.buckets p).level + 1 = GINTHASH_MAXLEVEL ∧
          ∀ kv, kv ∈ entries (t'.buckets p) ↔ kv ∈ entries (t.buckets cur)) ∧
      (∀ c ∈ addkey_loop_newbucket_calls fuel t cur, call_ok c) := by
  intro fuel
  induction fuel with
  | zero =>
    intro t cur hinv hfuel
    obtain ⟨i0, hi0, hd0⟩ := hinv.2.2.1
    have hle : (t.buckets cur).level ≤ t.level := (hinv.1.2.2 i0 cur hi0 hd0).2.1
    have := hinv.1.2.1
    omega
  | succ fuel ih =>
    intro t cur hinv hfuel
    have hwf := hinv.1
    have hfw := hinv.2.2.2
    by_cases hover : (t.buckets cur).fill > GINTHASH_BUCKETCAP
    · have hfull : (t.buckets cur).fill = GINTHASH_BUCKETCAP + 1 := by
        rcases hfw cur hinv.2.2.1 with h | h
        · omega
        · exact h.1
      rcases splitbucket_step t cur hinv hover with ⟨h1, h2, h3, h4⟩ |
        ⟨h1, hcalls, nb, t1, hs, q1, q2, q3, q4, q5, q6⟩
      · have hag := all_agree_of_max t hwf cur hinv.2.2.1 h1
        refine ⟨-1, t, ?_, Or.inr rfl, ⟨hwf, hinv.2.1, ?_⟩, fun _ _ => Iff.rfl, fun _ => rfl,
          ⟨fun _ => ⟨hover, hag⟩, fun _ => rfl⟩,
          fun _ => ⟨h2, cur, hinv.2.2.1, hfull, h1, fun _ => Iff.rfl⟩, ?_⟩
        · unfold addkey_loop
          rw [if_pos hover, h3]
        · intro p hp
          rcases hfw p hp with h | h
          · exact Or.inl h
          · right
            refine ⟨h.1, Or.inr ?_⟩
            rcases h.2 with h5 | h5
            · rw [Option.some.inj h5]; exact h1
            · exact h5
        · intro c hc
          unfold addkey_loop_newbucket_calls at hc
          rw [if_pos hover, h3, h4] at hc
          simp at hc
      · obtain ⟨rc, t', r1, r2, r3, r4, r5, r6, r7, r8⟩ := ih t1 _ q1 (by rw [q2]; omega)
        refine ⟨rc, t', ?_, r2, r3, fun k v => (r4 k v).trans (q3 k v),
          fun r => (r5 r).trans (q4 r), ?_, ?_, ?_⟩
        · unfold addkey_loop
          rw [if_pos hover, hs]
          exact r1
        · rw [r6]
          constructor
          · rintro ⟨g1, g2⟩
            refine ⟨hover, ?_⟩
            have hm := q5 g1
            intro x hx y hy
            exact g2 x ((hm x).mpr hx) y ((hm y).mpr hy)
          · rintro ⟨_, g2⟩
            have g1 : (t1.buckets (if (t1.buckets nb).fill > GINTHASH_BUCKETCAP then nb
                else cur)).fill > GINTHASH_BUCKETCAP := by
              by_contra hc
              exact q6 (by omega) g2
            refine ⟨g1, ?_⟩
            have hm := q5 g1
            intro x hx y hy
            exact g2 x ((hm x).mp hx) y ((hm y).mp hy)
        · intro hrc
          obtain ⟨g1, p, g2, g3, g4, g5⟩ := r7 hrc
          have hov1 := (r6.mp hrc).1
          refine ⟨g1, p, g2, g3, g4, fun kv => (g5 kv).trans (q5 hov1 kv)⟩
        · intro c hc
          unfold addkey_loop_newbucket_calls at hc
          rw [if_pos hover, hs] at hc
          rcases List.mem_append.mp hc with hc | hc
          · exact hcalls c hc
          · exact r8 c hc
    · refine ⟨0, t, ?_, Or.inl rfl, ⟨hwf, hinv.2.1, ?_⟩, fun _ _ => Iff.rfl, fun _ => rfl,
        ⟨fun h => absurd h (by decide), fun h => absurd h.1 hover⟩,
        fun h => absurd h (by decide), ?_⟩
      · unfold addkey_loop
        rw [if_neg hover]
      · intro p hp
        rcases hfw p hp with h | h
        · exact Or.inl h
        · right
          refine ⟨h.1, Or.inr ?_⟩
          rcases h.2 with h5 | h5
          · rw [Option.some.inj h5] at h; omega
          · exact h5
      · intro c hc
        unfold addkey_loop_newbucket_calls at hc
        rw [if_neg hover] at hc
        simp at hc

/-! ## Extendible hash: insertion in any state -/

/-- An entry that agrees with `r` on the low bits lies in the slot of `r`. -/
theorem low_agree_slot (r g : Nat) (kv : Int × Int) (hg : g < GINTHASH_MAXLEVEL)
    (h : low_agree r kv = true) : GINTHASH_SCRAMBLE kv.1 % 2 ^ g = r % 2 ^ g := by
  unfold low_agree at h
  have h1 : GINTHASH_SCRAMBLE kv.1 % 2 ^ (GINTHASH_MAXLEVEL - 1) =
      r % 2 ^ (GINTHASH_MAXLEVEL - 1) := by simpa using h
  have hle : g ≤ GINTHASH_MAXLEVEL - 1 := by omega
  rw [← mod_mod_two_pow (GINTHASH_SCRAMBLE kv.1) hle, h1, mod_mod_two_pow r hle]

/-- The branch of `wg_ginthash_addkey` for an empty directory slot: the call of
`ginthash_newbucket` stays within the pools and succeeds, the call returns 0, and
exactly the new pair is stored in addition. -/
theorem addkey_fresh (t : ext_ginthash) (hinv : reach_inv t) (k v : Int)
    (hd : t.directory (GINTHASH_SCRAMBLE k % 2 ^ t.level) = none) :
    call_ok t ∧ ∃ t', wg_ginthash_addkey t k v = some (0, t') ∧ reach_inv t' ∧
      (∀ k' v', stored t' k' v' ↔ (stored t k' v' ∨ (k' = k ∧ v' = v))) ∧
      (∀ r, slot_count t' r = slot_count t r + if low_agree r (k, v) then 1 else 0) := by
  obtain ⟨hwf, hpool, hfw⟩ := hinv
  have hpos : 0 < 2 ^ t.level := Nat.two_pow_pos _
  have hlt : GINTHASH_SCRAMBLE k % 2 ^ t.level < 2 ^ t.level := Nat.mod_lt _ hpos
  have hcount : issued_count t < 2 ^ t.level :=
    issued_count_lt t hwf hpool (Or.inl ⟨_, hlt, hd⟩)
  have hfp : t.free_pool ≤ t.level := free_pool_le_level t hwf.1 hcount
  refine ⟨⟨hpool.1, hfp, hwf.2.1, hpool.2.1⟩, ?_⟩
  have hsome : (ginthash_newbucket t).1 ≠ none := by
    intro hc
    have := (newbucket_none_iff t).mp hc
    omega
  obtain ⟨nb, hnb⟩ := Option.ne_none_iff_exists'.mp hsome
  obtain ⟨tbl1, htbl1⟩ : ∃ t1, t1 = (ginthash_newbucket t).2 := ⟨_, rfl⟩
  have hnbr : ginthash_newbucket t = (some nb, tbl1) := by
    rw [htbl1]; exact Prod.ext hnb rfl
  obtain ⟨n1, n2, n3, n4, n5, n6⟩ := newbucket_spec _ _ _ hnbr
  obtain ⟨f1, f2, f3, f4⟩ := newbucket_fields _ _ _ hnbr
  obtain ⟨t', h⟩ : ∃ t' : ext_ginthash, { tbl1 with
      buckets := (add_to_bucket (Function.update tbl1.buckets nb
        { tbl1.buckets nb with level := tbl1.level }) nb k v).1
      directory := Function.update tbl1.directory (GINTHASH_SCRAMBLE k % 2 ^ t.level)
        (some nb) } = t' := ⟨_, rfl⟩
  have hcall : wg_ginthash_addkey t k v = some (0, t') := by
    unfold wg_ginthash_addkey
    simp only [addkey_hash, hd, hnbr]
    rw [← h]
  have hfresh : ∀ j, j < 2 ^ t.level → t.directory j ≠ some nb :=
    fun j hj hdj => n1 (hwf.2.2 j nb hj hdj).1
  have hbk : ∃ M, t'.buckets = (add_to_bucket M nb k v).1 ∧ (M nb).fill = 0 ∧
      (M nb).level = t.level ∧ ∀ q, q ≠ nb → M q = t.buckets q := by
    refine ⟨_, by rw [← h], ?_, ?_, ?_⟩
    · rw [Function.update_same, n6, Function.update_same]
    · rw [Function.update_same]; exact n4
    · intro q hq
      rw [Function.update_noteq hq, n6, Function.update_noteq hq]
  obtain ⟨M, hM, hM0, hMl, hMo⟩ := hbk
  obtain ⟨a1, a2, a3, a4⟩ := add_to_bucket_spec M nb k v (by rw [hM0]; simp)
  have hent : entries (M nb) = [] := by
    simp only [entries, hM0, List.range_zero, List.map_nil]
  rw [hent, List.nil_append] at a1
  have hoth : ∀ q, q ≠ nb → t'.buckets q = t.buckets q := by
    intro q hq
    rw [hM, a4 q hq, hMo q hq]
  have hbn_e : entries (t'.buckets nb) = [(k, v)] := by rw [hM]; exact a1
  have hbn_l : (t'.buckets nb).level = t.level := by rw [hM, a2, hMl]
  have hbn_f : (t'.buckets nb).fill = 1 := by rw [hM, a3, hM0]
  have hlvl : t'.level = t.level := by rw [← h]; exact n4
  have hdir : t'.directory =
      Function.update t.directory (GINTHASH_SCRAMBLE k % 2 ^ t.level) (some nb) := by
    rw [← h, ← n5]
  have hiss : ∀ p, issued tbl1 p → issued t' p := by
    intro p hp; rw [← h]; exact hp
  have hdnb : ∀ j, j < 2 ^ t.level →
      (t'.directory j = some nb ↔ j = GINTHASH_SCRAMBLE k % 2 ^ t.level) := by
    intro j hj
    rw [hdir]
    by_cases hjh : j = GINTHASH_SCRAMBLE k % 2 ^ t.level
    · rw [hjh, Function.update_same]; simp
    · rw [Function.update_noteq hjh]
      exact ⟨fun hc => absurd hc (hfresh j hj), fun hc => absurd hc hjh⟩
  have hdoth : ∀ j p, p ≠ nb → (t'.directory j = some p ↔ t.directory j = some p) := by
    intro j p hp
    rw [hdir]
    by_cases hjh : j = GINTHASH_SCRAMBLE k % 2 ^ t.level
    · rw [hjh, Function.update_same, hd]
      exact ⟨fun hc => absurd (Option.some.inj hc).symm hp, fun hc => by simp at hc⟩
    · rw [Function.update_noteq hjh]
  have hnew : ¬ referenced t nb := by
    rintro ⟨i, hi, hdi⟩
    exact hfresh i hi hdi
  have href : ∀ p, referenced t' p ↔ (p = nb ∨ referenced t p) := by
    intro p
    constructor
    · rintro ⟨i, hi, hdi⟩
      rw [hlvl] at hi
      by_cases hp : p = nb
      · exact Or.inl hp
      · exact Or.inr ⟨i, hi, (hdoth i p hp).mp hdi⟩
    · rintro (hp | ⟨i, hi, hdi⟩)
      · rw [hp]; exact ⟨_, by rw [hlvl]; exact hlt, (hdnb _ hlt).mpr rfl⟩
      · have hp : p ≠ nb := fun hc => hfresh i hi (hc ▸ hdi)
        exact ⟨i, by rw [hlvl]; exact hi, (hdoth i p hp).mpr hdi⟩
  have hstep : pool_step t t' nb :=
    ⟨f1, f2, by rw [← h]; exact f3, by rw [← h]; exact f4⟩
  refine ⟨t', hcall, ⟨⟨by rw [hlvl]; exact hwf.1, by rw [hlvl]; exact hwf.2.1, ?_⟩,
    pool_inv_step t t' nb hstep hnew href hpool, ?_⟩, ?_, ?_⟩
  · intro i p hi hdi
    rw [hlvl] at hi
    by_cases hp : p = nb
    · subst hp
      have hih := (hdnb i hi).mp hdi
      refine ⟨hiss _ n2, by rw [hbn_l, hlvl], ?_, ?_⟩
      · intro j hj
        rw [hlvl] at hj
        rw [hbn_l, hdnb j hj, Nat.mod_eq_of_lt hj, Nat.mod_eq_of_lt hi, hih]
      · intro kv hkv
        rw [hbn_e, List.mem_singleton] at hkv
        rw [hbn_l, hkv, Nat.mod_eq_of_lt hi, hih]
    · have hdi1 := (hdoth i p hp).mp hdi
      obtain ⟨s1, s2, s3, s4⟩ := hwf.2.2 i p hi hdi1
      refine ⟨hiss _ (n3 _ s1), by rw [hoth p hp, hlvl]; exact s2, ?_, ?_⟩
      · intro j hj
        rw [hlvl] at hj
        rw [hoth p hp, hdoth j p hp]
        exact s3 j hj
      · rw [hoth p hp]; exact s4
  · intro p hp
    by_cases hpn : p = nb
    · left; rw [hpn, hbn_f]; simp [GINTHASH_BUCKETCAP]
    · rw [hoth p hpn]
      rcases (href p).mp hp with h1 | h1
      · exact absurd h1 hpn
      · exact hfw p h1
  · intro k' v'
    constructor
    · rintro ⟨i, p, hi, hdi, hmem⟩
      rw [hlvl] at hi
      by_cases hp : p = nb
      · subst hp
        rw [hbn_e, List.mem_singleton, Prod.mk.injEq] at hmem
        exact Or.inr hmem
      · rw [hoth p hp] at hmem
        exact Or.inl ⟨i, p, hi, (hdoth i p hp).mp hdi, hmem⟩
    · rintro (⟨i, p, hi, hdi, hmem⟩ | ⟨rfl, rfl⟩)
      · have hp : p ≠ nb := fun hc => hfresh i hi (hc ▸ hdi)
        exact ⟨i, p, by rw [hlvl]; exact hi, (hdoth i p hp).mpr hdi,
          by rw [hoth p hp]; exact hmem⟩
      · exact ⟨_, nb, by rw [hlvl]; exact hlt, (hdnb _ hlt).mpr rfl,
          by rw [hbn_e]; exact List.mem_singleton.mpr rfl⟩
  · intro r
    have hjlt : r % 2 ^ t.level < 2 ^ t.level := Nat.mod_lt _ hpos
    unfold slot_count
    rw [hlvl]
    by_cases hjh : r % 2 ^ t.level = GINTHASH_SCRAMBLE k % 2 ^ t.level
    · rw [(hdnb _ hjlt).mpr hjh, hjh, hd]
      simp only [hbn_e, List.countP_singleton, Nat.zero_add]
    · have hna : low_agree r (k, v) = false := by
        by_contra hc
        have := low_agree_slot r t.level (k, v) hwf.2.1 (by simpa using hc)
        exact hjh this.symm
      rw [hna]
      cases hdj : t.directory (r % 2 ^ t.level) with
      | none =>
        have : t'.directory (r % 2 ^ t.level) = none := by
          rw [hdir, Function.update_noteq hjh, hdj]
        rw [this]; rfl
      | some p =>
        have hp : p ≠ nb := fun hc => hfresh _ hjlt (hc ▸ hdj)
        rw [(hdoth _ p hp).mpr hdj]
        simp only [hoth p hp]
        simp

/-- The table after the `add_to_bucket` statement in the branch of
`wg_ginthash_addkey` for an occupied slot satisfies the loop invariant. -/
theorem add_entry_loop_inv (t : ext_ginthash) (hinv : reach_inv t) (k v : Int)
    (p : bucket_ptr) (hd : t.directory (GINTHASH_SCRAMBLE k % 2 ^ t.level) = some p) :
    loop_inv { t with buckets := (add_to_bucket t.buckets p k v).1 } p := by
  obtain ⟨hwf, hpool, hfw⟩ := hinv
  have hpos : 0 < 2 ^ t.level := Nat.two_pow_pos _
  have hlt : GINTHASH_SCRAMBLE k % 2 ^ t.level < 2 ^ t.level := Nat.mod_lt _ hpos
  by_cases hfill : (t.buckets p).fill ≤ GINTHASH_BUCKETCAP
  · obtain ⟨a1, a2, a3, a4⟩ := add_to_bucket_spec t.buckets p k v hfill
    refine ⟨⟨hwf.1, hwf.2.1, ?_⟩, pool_inv_congr t _ rfl rfl rfl rfl hpool, ⟨_, hlt, hd⟩, ?_⟩
    · intro i q hi hdi
      obtain ⟨s1, s2, s3, s4⟩ := hwf.2.2 i q hi hdi
      by_cases hq : q = p
      · subst hq
        refine ⟨s1, ?_, ?_, ?_⟩
        · simp only [a2]; exact s2
        · intro j hj
          simp only [a2]; exact s3 j hj
        · intro kv hkv
          simp only [a1, List.mem_append, List.mem_singleton] at hkv
          simp only [a2]
          rcases hkv with hkv | hkv
          · exact s4 kv hkv
          · rw [hkv]
            have := (s3 _ hlt).mp hd
            rw [mod_mod_two_pow _ s2] at this
            exact this
      · have hq' : (add_to_bucket t.buckets p k v).1 q = t.buckets q := a4 q hq
        refine ⟨s1, ?_, ?_, ?_⟩
        · simp only [hq']; exact s2
        · intro j hj
          simp only [hq']; exact s3 j hj
        · intro kv hkv
          simp only [hq'] at hkv ⊢
          exact s4 kv hkv
    · intro q hq
      have hq0 : referenced t q := hq
      by_cases hqp : q = p
      · subst hqp
        show ((add_to_bucket t.buckets q k v).1 q).fill ≤ _ ∨
          (((add_to_bucket t.buckets q k v).1 q).fill = _ ∧ _)
        rw [a3]
        by_cases h3 : (t.buckets q).fill + 1 ≤ GINTHASH_BUCKETCAP
        · exact Or.inl h3
        · exact Or.inr ⟨by omega, Or.inl rfl⟩
      · show ((add_to_bucket t.buckets p k v).1 q).fill ≤ _ ∨
          (((add_to_bucket t.buckets p k v).1 q).fill = _ ∧
            (_ ∨ ((add_to_bucket t.buckets p k v).1 q).level + 1 = _))
        rw [a4 q hqp]
        rcases hfw q hq0 with h | h
        · exact Or.inl h
        · exact Or.inr ⟨h.1, Or.inr (h.2.resolve_left (by simp))⟩
  · have hsame : (add_to_bucket t.buckets p k v).1 = t.buckets := by
      unfold add_to_bucket
      simp only []
      rw [if_pos (by omega)]
    rw [hsame]
    refine ⟨hwf, hpool, ⟨_, hlt, hd⟩, ?_⟩
    intro q hq
    rcases hfw q hq with h | h
    · exact Or.inl h
    · exact Or.inr ⟨h.1, Or.inr (h.2.resolve_left (by simp))⟩

/-- The effect of the `add_to_bucket` statement in the branch of `wg_ginthash_addkey`
for an occupied slot whose bucket is within capacity. -/
theorem add_entry_effect (t : ext_ginthash) (hwf : tbl_wf t) (k v : Int)
    (p : bucket_ptr) (hd : t.directory (GINTHASH_SCRAMBLE k % 2 ^ t.level) = some p)
    (hfill : (t.buckets p).fill ≤ GINTHASH_BUCKETCAP) (ta : ext_ginthash)
    (hta : { t with buckets := (add_to_bucket t.buckets p k v).1 } = ta) :
    entries (ta.buckets p) = entries (t.buckets p) ++ [(k, v)] ∧
    (ta.buckets p).fill = (t.buckets p).fill + 1 ∧
    (∀ k' v', stored ta k' v' ↔ (stored t k' v' ∨ (k' = k ∧ v' = v))) ∧
    (∀ r, slot_count ta r = slot_count t r + if low_agree r (k, v) then 1 else 0) := by
  have hpos : 0 < 2 ^ t.level := Nat.two_pow_pos _
  have hlt : GINTHASH_SCRAMBLE k % 2 ^ t.level < 2 ^ t.level := Nat.mod_lt _ hpos
  obtain ⟨a1, a2, a3, a4⟩ := add_to_bucket_spec t.buckets p k v hfill
  have hlvl : ta.level = t.level := by rw [← hta]
  have hdir : ta.directory = t.directory := by rw [← hta]
  have hbk : ta.buckets = (add_to_bucket t.buckets p k v).1 := by rw [← hta]
  refine ⟨by rw [hbk]; exact a1, by rw [hbk]; exact a3, ?_, ?_⟩
  · intro k' v'
    constructor
    · rintro ⟨i, q, hi, hdi, hmem⟩
      rw [hlvl] at hi
      rw [hdir] at hdi
      rw [hbk] at hmem
      by_cases hq : q = p
      · subst hq
        rw [a1, List.mem_append, List.mem_singleton, Prod.mk.injEq] at hmem
        rcases hmem with hm | hm
        · exact Or.inl ⟨i, q, hi, hdi, hm⟩
        · exact Or.inr hm
      · rw [a4 q hq] at hmem
        exact Or.inl ⟨i, q, hi, hdi, hmem⟩
    · rintro (⟨i, q, hi, hdi, hmem⟩ | ⟨rfl, rfl⟩)
      · refine ⟨i, q, by rw [hlvl]; exact hi, by rw [hdir]; exact hdi, ?_⟩
        rw [hbk]
        by_cases hq : q = p
        · subst hq
          rw [a1]; exact List.mem_append_left _ hmem
        · rw [a4 q hq]; exact hmem
      · refine ⟨_, p, by rw [hlvl]; exact hlt, by rw [hdir]; exact hd, ?_⟩
        rw [hbk, a1]; exact List.mem_append_right _ (List.mem_singleton.mpr rfl)
  · intro r
    unfold slot_count
    rw [hlvl, hdir, hbk]
    have hna : r % 2 ^ t.level ≠ GINTHASH_SCRAMBLE k % 2 ^ t.level →
        low_agree r (k, v) = false := by
      intro hne
      by_contra hc
      have := low_agree_slot r t.level (k, v) hwf.2.1 (by simpa using hc)
      exact hne this.symm
    cases hdj : t.directory (r % 2 ^ t.level) with
    | none =>
      rw [hna (by intro hc; rw [hc, hd] at hdj; exact absurd hdj (by simp))]
      rfl
    | some q =>
      by_cases hq : q = p
      · subst hq
        simp only [a1, List.countP_append, List.countP_singleton]
      · rw [hna (by intro hc; rw [hc, hd] at hdj; exact hq (Option.some.inj hdj).symm)]
        simp only [a4 q hq]
        simp

/-- The branch of `wg_ginthash_addkey` for an occupied slot: the call returns 0 or -1,
preserves the invariant that holds between calls, and every call of
`ginthash_newbucket` stays within the pools.  When the bucket of the slot is within
capacity, exactly the new pair is stored in addition, and the status is -1 exactly
when the bucket holds three entries agreeing with the key on the low bits. -/
theorem addkey_existing (t : ext_ginthash) (hinv : reach_inv t) (k v : Int)
    (p : bucket_ptr) (hd : t.directory (GINTHASH_SCRAMBLE k % 2 ^ t.level) = some p) :
    ∃ rc t', wg_ginthash_addkey t k v = some (rc, t') ∧ (rc = 0 ∨ rc = -1) ∧
      reach_inv t' ∧
      (∀ c ∈ addkey_newbucket_calls t k v, call_ok c) ∧
      ((t.buckets p).fill ≤ GINTHASH_BUCKETCAP →
        (∀ k' v', stored t' k' v' ↔ (stored t k' v' ∨ (k' = k ∧ v' = v))) ∧
        (∀ r, slot_count t' r = slot_count t r + if low_agree r (k, v) then 1 else 0) ∧
        (rc = -1 ↔ 3 ≤ slot_count t (GINTHASH_SCRAMBLE k)) ∧
        (rc = -1 → t'.level + 1 = GINTHASH_MAXLEVEL ∧
          ∃ p', t'.directory (GINTHASH_SCRAMBLE k % 2 ^ t'.level) = some p' ∧
            (t'.buckets p').fill = GINTHASH_BUCKETCAP + 1 ∧
            (k, v) ∈ entries (t'.buckets p'))) := by
  have hloop := add_entry_loop_inv t hinv k v p hd
  obtain ⟨ta, hta⟩ : ∃ ta : ext_ginthash,
      { t with buckets := (add_to_bucket t.buckets p k v).1 } = ta := ⟨_, rfl⟩
  rw [hta] at hloop
  have hcall : wg_ginthash_addkey t k v = addkey_loop GINTHASH_MAXLEVEL ta p := by
    unfold wg_ginthash_addkey
    simp only [addkey_hash, hd]
    rw [← hta]
  have hcalls : addkey_newbucket_calls t k v =
      addkey_loop_newbucket_calls GINTHASH_MAXLEVEL ta p := by
    unfold addkey_newbucket_calls
    simp only [addkey_hash, hd]
    rw [← hta]
  obtain ⟨rc, t', r1, r2, r3, r4, r5, r6, r7, r8⟩ :=
    addkey_loop_master GINTHASH_MAXLEVEL ta p hloop (Nat.le_add_right _ _)
  refine ⟨rc, t', by rw [hcall]; exact r1, r2, r3, by rw [hcalls]; exact r8, ?_⟩
  intro hfill
  obtain ⟨e1, e2, e3, e4⟩ := add_entry_effect t hinv.1 k v p hd hfill ta hta
  have hsc : slot_count t (GINTHASH_SCRAMBLE k) =
      (entries (t.buckets p)).countP (low_agree (GINTHASH_SCRAMBLE k)) := by
    unfold slot_count; rw [hd]
  have hlen : (entries (t.buckets p)).length = (t.buckets p).fill := entries_length _
  refine ⟨fun k' v' => (r4 k' v').trans (e3 k' v'), fun r => (r5 r).trans (e4 r), ?_, ?_⟩
  · rw [r6, hsc, e2]
    unfold all_agree
    rw [e1]
    constructor
    · rintro ⟨g1, g2⟩
      have hall : ∀ y ∈ entries (t.buckets p), low_agree (GINTHASH_SCRAMBLE k) y = true := by
        intro y hy
        exact g2 (k, v) (List.mem_append_right _ (List.mem_singleton.mpr rfl)) y
          (List.mem_append_left _ hy)
      rw [List.countP_eq_length.mpr hall, hlen]
      simp only [GINTHASH_BUCKETCAP] at g1 ⊢
      omega
    · intro h3
      have hle := List.countP_le_length (low_agree (GINTHASH_SCRAMBLE k))
        (l := entries (t.buckets p))
      have hceq : (entries (t.buckets p)).countP (low_agree (GINTHASH_SCRAMBLE k)) =
          (entries (t.buckets p)).length := by
        simp only [GINTHASH_BUCKETCAP] at hfill
        omega
      have hall := List.countP_eq_length.mp hceq
      refine ⟨by simp only [GINTHASH_BUCKETCAP]; omega, ?_⟩
      have hk : ∀ y ∈ entries (t.buckets p) ++ [(k, v)],
          GINTHASH_SCRAMBLE y.1 % 2 ^ (GINTHASH_MAXLEVEL - 1) =
            GINTHASH_SCRAMBLE k % 2 ^ (GINTHASH_MAXLEVEL - 1) := by
        intro y hy
        rcases List.mem_append.mp hy with hy | hy
        · simpa [low_agree] using hall y hy
        · rw [List.mem_singleton.mp hy]
      intro x hx y hy
      unfold low_agree
      rw [hk x hx, hk y hy]
      simp
  · intro hrc
    obtain ⟨g1, p', g2, g3, _, g5⟩ := r7 hrc
    obtain ⟨i, hi, hdi⟩ := g2
    have hmem : (k, v) ∈ entries (t'.buckets p') :=
      (g5 (k, v)).mpr (by rw [e1]; exact List.mem_append_right _ (List.mem_singleton.mpr rfl))
    exact ⟨g1, p', stored_slot t' r3.1 i p' (k, v) hi hdi hmem, g3, hmem⟩

/-- A table within capacity satisfies the invariant that holds between calls. -/
theorem reach_inv_of_inv (t : ext_ginthash) (hinv : tbl_inv t) (hpool : pool_inv t) :
    reach_inv t :=
  ⟨hinv.1, hpool, fun p hp => by
    obtain ⟨i, hi, hd⟩ := hp
    exact Or.inl (hinv.2 i p hi hd)⟩

/-- One call of `wg_ginthash_addkey` in any state between calls: it returns with
status 0 or -1, preserves the invariant that holds between calls, and every call of
`ginthash_newbucket` stays within the pools.  On a table within capacity, exactly the
new pair is stored in addition; the status is -1 exactly when the slot of the key holds
three entries agreeing with the key on the low bits, and then the table is left at the
maximum level with the pair stored in an overfull bucket; with status 0 the table
is within capacity again. -/
theorem addkey_master (t : ext_ginthash) (hinv : reach_inv t) (k v : Int) :
    ∃ rc t', wg_ginthash_addkey t k v = some (rc, t') ∧ (rc = 0 ∨ rc = -1) ∧
      reach_inv t' ∧
      (∀ c ∈ addkey_newbucket_calls t k v, call_ok c) ∧
      (tbl_inv t →
        (∀ k' v', stored t' k' v' ↔ (stored t k' v' ∨ (k' = k ∧ v' = v))) ∧
        (∀ r, slot_count t' r = slot_count t r + if low_agree r (k, v) then 1 else 0) ∧
        (rc = -1 ↔ 3 ≤ slot_count t (GINTHASH_SCRAMBLE k)) ∧
        (rc = 0 → tbl_inv t') ∧
        (rc = -1 → t'.level + 1 = GINTHASH_MAXLEVEL ∧
          ∃ p', t'.directory (GINTHASH_SCRAMBLE k % 2 ^ t'.level) = some p' ∧
            (t'.buckets p').fill = GINTHASH_BUCKETCAP + 1 ∧
            (k, v) ∈ entries (t'.buckets p'))) := by
  have hlt : GINTHASH_SCRAMBLE k % 2 ^ t.level < 2 ^ t.level :=
    Nat.mod_lt _ (Nat.two_pow_pos _)
  cases hd : t.directory (GINTHASH_SCRAMBLE k % 2 ^ t.level) with
  | none =>
    obtain ⟨hcall, t', h1, h2, h3, h4⟩ := addkey_fresh t hinv k v hd
    refine ⟨0, t', h1, Or.inl rfl, h2, ?_, fun hti => ⟨h3, h4, ?_, fun _ => ?_, ?_⟩⟩
    · intro c hc
      unfold addkey_newbucket_calls at hc
      simp only [addkey_hash, hd, List.mem_singleton] at hc
      rw [hc]; exact hcall
    · have h0 : slot_count t (GINTHASH_SCRAMBLE k) = 0 := by
        unfold slot_count; rw [hd]
      rw [h0]
      exact ⟨fun h => absurd h (by decide), fun h => absurd h (by decide)⟩
    · exact (addkey_inv t t' k v hti h1).1
    · intro h; exact absurd h (by decide)
  | some p =>
    obtain ⟨rc, t', h1, h2, h3, h4, h5⟩ := addkey_existing t hinv k v p hd
    refine ⟨rc, t', h1, h2, h3, h4, fun hti => ?_⟩
    obtain ⟨g1, g2, g3, g4⟩ := h5 (hti.2 _ p hlt hd)
    refine ⟨g1, g2, g3, fun hrc => ?_, g4⟩
    rw [hrc] at h1
    exact (addkey_inv t t' k v hti h1).1

/-- The table returned by `wg_ginthash_init` holds no pairs and has handed out no
bucket. -/
theorem init_inserted (heap : bucket_ptr → ginthash_bucket) (t0 : ext_ginthash)
    (h : wg_ginthash_init heap = some t0) : inserted_inv t0 [] := by
  obtain ⟨i1, i2⟩ := init_inv heap t0 h
  have hfp : t0.free_pool = 1 := by rw [← Option.some.inj h]
  have hnext : ∀ q, t0.nextbucket q = 0 := by
    intro q; rw [← Option.some.inj h]; rfl
  have hdir : ∀ j, t0.directory j = none := by
    intro j
    cases hj : t0.directory j with
    | none => rfl
    | some p =>
      exfalso
      have hl : t0.level = 1 := by rw [← Option.some.inj h]; rfl
      rw [← Option.some.inj h] at hj
      have hj2 : Function.update (Function.update (fun _ => none) 0 none) 1 none j =
          some p := hj
      by_cases h1 : j = 1
      · rw [h1, Function.update_same] at hj2; exact absurd hj2 (by simp)
      · rw [Function.update_noteq h1] at hj2
        by_cases h0 : j = 0
        · rw [h0, Function.update_same] at hj2; exact absurd hj2 (by simp)
        · rw [Function.update_noteq h0] at hj2; exact absurd hj2 (by simp)
  refine ⟨i1, ⟨by rw [hfp], ?_, fun q _ => hnext q, ∅, ?_, ?_⟩, ?_, ?_⟩
  · rw [hnext, hfp]; decide
  · unfold issued_count; rw [hfp, hnext]; rfl
  · intro p hp; exact absurd hp (Finset.not_mem_empty p)
  · intro k v; simp only [List.not_mem_nil, iff_false]; exact i2 k v
  · intro r
    unfold slot_count
    rw [hdir]; rfl

/-- A call of `wg_ginthash_addkey` that returns 0 adds its pair to the pairs held. -/
theorem addkey_inserted (t t' : ext_ginthash) (done : List (Int × Int)) (k v : Int)
    (hinv : inserted_inv t done) (h : wg_ginthash_addkey t k v = some (0, t')) :
    inserted_inv t' (done ++ [(k, v)]) := by
  obtain ⟨h1, h2, h3, h4⟩ := hinv
  obtain ⟨rc, t'', e1, _, e3, _, e5⟩ := addkey_master t (reach_inv_of_inv t h1 h2) k v
  rw [h] at e1
  obtain ⟨hrc, ht⟩ := Prod.mk.inj (Option.some.inj e1)
  subst hrc ht
  obtain ⟨g1, g2, _, g4, _⟩ := e5 h1
  refine ⟨g4 rfl, e3.2.1, ?_, ?_⟩
  · intro k' v'
    rw [g1, h3, List.mem_append, List.mem_singleton, Prod.mk.injEq]
  · intro r
    rw [g2, h4, List.countP_append, List.countP_singleton]

/-- A sequence of calls of `wg_ginthash_addkey` that all return 0 adds its pairs to
the pairs held. -/
theorem addkeys_inserted : ∀ (kvs done : List (Int × Int)) (t t' : ext_ginthash),
    inserted_inv t done → addkeys t kvs = some t' → inserted_inv t' (done ++ kvs) := by
  intro kvs
  induction kvs with
  | nil =>
    intro done t t' hinv h
    simp only [addkeys, Option.some.injEq] at h
    subst h
    rw [List.append_nil]; exact hinv
  | cons kv kvs ih =>
    intro done t t' hinv h
    unfold addkeys at h
    split at h
    · rename_i rc t1 hadd
      by_cases hrc : rc = 0
      · rw [if_pos hrc] at h
        subst hrc
        have h1 := addkey_inserted t t1 done kv.1 kv.2 hinv hadd
        have h2 := ih (done ++ [(kv.1, kv.2)]) t1 t' h1 h
        rw [List.append_assoc] at h2
        exact h2
      · rw [if_neg hrc] at h; simp at h
    · simp at h

/-- Pairs whose scrambled keys are pairwise different on the low bits are all
inserted with status 0. -/
theorem addkeys_nodup : ∀ (kvs done : List (Int × Int)) (t : ext_ginthash),
    inserted_inv t done →
    ((done ++ kvs).map
      (fun kv => GINTHASH_SCRAMBLE kv.1 % 2 ^ (GINTHASH_MAXLEVEL - 1))).Nodup →
    ∃ t', addkeys t kvs = some t' ∧ inserted_inv t' (done ++ kvs) := by
  intro kvs
  induction kvs with
  | nil =>
    intro done t hinv _
    exact ⟨t, rfl, by rw [List.append_nil]; exact hinv⟩
  | cons kv kvs ih =>
    intro done t hinv hnd
    obtain ⟨h1, h2, h3, h4⟩ := hinv
    obtain ⟨rc, t1, e1, e2, _, _, e5⟩ := addkey_master t (reach_inv_of_inv t h1 h2) kv.1 kv.2
    obtain ⟨_, _, g3, _, _⟩ := e5 h1
    have hcount : slot_count t (GINTHASH_SCRAMBLE kv.1) = 0 := by
      rw [h4, List.countP_eq_zero]
      intro x hx hag
      have hres : GINTHASH_SCRAMBLE x.1 % 2 ^ (GINTHASH_MAXLEVEL - 1) =
          GINTHASH_SCRAMBLE kv.1 % 2 ^ (GINTHASH_MAXLEVEL - 1) := by
        simpa [low_agree] using hag
      rw [List.map_append, List.map_cons] at hnd
      have hdisj := (List.nodup_append.mp hnd).2.2
      exact hdisj (List.mem_map.mpr ⟨x, hx, rfl⟩) (by rw [hres]; exact List.mem_cons_self _ _)
    have hrc : rc = 0 := by
      rcases e2 with h | h
      · exact h
      · have := g3.mp h
        omega
    subst hrc
    have hins := addkey_inserted t t1 done kv.1 kv.2 ⟨h1, h2, h3, h4⟩ e1
    obtain ⟨t', f1, f2⟩ := ih (done ++ [(kv.1, kv.2)]) t1 hins (by
      rw [List.append_assoc]; exact hnd)
    refine ⟨t', ?_, by rw [List.append_assoc] at f2; exact f2⟩
    unfold addkeys
    simp only [e1, if_true]
    exact f1

/-! ## Extendible hash: refused insertions -/

/-- Agreement with the scrambled key of `k` on the low bits, in terms of the signed
values of `rehash_gint`. -/
theorem low_agree_iff (k : Int) (kv : Int × Int) :
    low_agree (GINTHASH_SCRAMBLE k) kv = true ↔
      rehash_gint kv.1 % 2 ^ 23 = rehash_gint k % 2 ^ 23 := by
  have h23 : GINTHASH_MAXLEVEL - 1 = 23 := rfl
  unfold low_agree
  rw [h23, decide_eq_true_eq, ← scramble_mod kv.1 23 (by decide),
    ← scramble_mod k 23 (by decide), Nat.cast_inj]

/-- One call of `wg_ginthash_addkey` on a table that holds the pairs `done`: the
status is -1 exactly when three of them agree with the key on the low bits. -/
theorem addkey_step_count (t : ext_ginthash) (done : List (Int × Int)) (k v : Int)
    (hinv : inserted_inv t done) :
    ∃ rc t', wg_ginthash_addkey t k v = some (rc, t') ∧ (rc = 0 ∨ rc = -1) ∧
      (rc = -1 ↔ 3 ≤ done.countP (low_agree (GINTHASH_SCRAMBLE k))) ∧
      (rc = 0 → inserted_inv t' (done ++ [(k, v)])) ∧
      (rc = -1 → t'.level + 1 = GINTHASH_MAXLEVEL) := by
  obtain ⟨h1, h2, h3, h4⟩ := hinv
  obtain ⟨rc, t', e1, e2, _, _, e5⟩ := addkey_master t (reach_inv_of_inv t h1 h2) k v
  obtain ⟨_, _, g3, _, g5⟩ := e5 h1
  refine ⟨rc, t', e1, e2, by rw [g3, h4], ?_, fun h => (g5 h).1⟩
  intro hrc
  rw [hrc] at e1
  exact addkey_inserted t t' done k v ⟨h1, h2, h3, h4⟩ e1

/-- C19. Exact failure condition of insertion.  For the table `t` reached from
`wg_ginthash_init` by the calls `wg_ginthash_addkey` for the pairs `kvs`, all returning
0, the call `wg_ginthash_addkey(t, k, v)` returns 0 or -1, and -1 if and only if at
least three of the stored pairs have a key whose `rehash_gint` value agrees with
`rehash_gint(k)` modulo `2^23`; on -1 the table is at level 23.  In particular
inserting the same key four times into a fresh table returns 0, 0, 0, -1 and leaves
the table at level 23. -/
theorem wg_ginthash_addkey_fails_iff (heap : bucket_ptr → ginthash_bucket)
    (t0 : ext_ginthash) (hinit : wg_ginthash_init heap = some t0) :
    (∀ (kvs : List (Int × Int)) (t : ext_ginthash), addkeys t0 kvs = some t →
      ∀ k v : Int, ∃ rc t', wg_ginthash_addkey t k v = some (rc, t') ∧
        (rc = 0 ∨ rc = -1) ∧
        (rc = -1 ↔ 3 ≤ kvs.countP
          (fun kv => decide (rehash_gint kv.1 % 2 ^ 23 = rehash_gint k % 2 ^ 23))) ∧
        (rc = -1 → t'.level = 23)) ∧
    (∀ k v1 v2 v3 v4 : Int, ∃ t4,
      addkeys_any t0 [(k, v1), (k, v2), (k, v3), (k, v4)] = some ([0, 0, 0, -1], t4) ∧
      t4.level = 23) := by
  have h0 := init_inserted heap t0 hinit
  have h24 : GINTHASH_MAXLEVEL = 24 := rfl
  constructor
  · intro kvs t hadd k v
    have hins := addkeys_inserted kvs [] t0 t h0 hadd
    rw [List.nil_append] at hins
    obtain ⟨rc, t', e1, e2, e3, _, e5⟩ := addkey_step_count t kvs k v hins
    refine ⟨rc, t', e1, e2, ?_, fun h => by have := e5 h; omega⟩
    rw [e3]
    have hc : kvs.countP (low_agree (GINTHASH_SCRAMBLE k)) = kvs.countP
        (fun kv => decide (rehash_gint kv.1 % 2 ^ 23 = rehash_gint k % 2 ^ 23)) := by
      apply List.countP_congr
      intro kv _
      rw [low_agree_iff, decide_eq_true_eq]
    rw [hc]
  · intro k v1 v2 v3 v4
    have hself : ∀ v, low_agree (GINTHASH_SCRAMBLE k) (k, v) = true := by
      intro v; simp [low_agree]
    obtain ⟨rc1, t1, a1, a2, a3, a4, _⟩ := addkey_step_count t0 [] k v1 h0
    have hrc1 : rc1 = 0 := by
      rcases a2 with h | h
      · exact h
      · have := a3.mp h
        simp at this
    subst hrc1
    obtain ⟨rc2, t2, b1, b2, b3, b4, _⟩ := addkey_step_count t1 _ k v2 (a4 rfl)
    have hrc2 : rc2 = 0 := by
      rcases b2 with h | h
      · exact h
      · have := b3.mp h
        simp [hself] at this
    subst hrc2
    obtain ⟨rc3, t3, c1, c2, c3, c4, _⟩ := addkey_step_count t2 _ k v3 (b4 rfl)
    have hrc3 : rc3 = 0 := by
      rcases c2 with h | h
      · exact h
      · have := c3.mp h
        simp [hself] at this
    subst hrc3
    obtain ⟨rc4, t4, d1, _, d3, _, d5⟩ := addkey_step_count t3 _ k v4 (c4 rfl)
    have hrc4 : rc4 = -1 := d3.mpr (by simp [hself])
    subst hrc4
    refine ⟨t4, ?_, by have := d5 rfl; omega⟩
    simp only [addkeys_any, a1, b1, c1, d1]

/-- Witness for C19: after the three keys 1, 2146851 and 3104239, whose scrambled
values agree on the low 23 bits, the key 4228165 with the same low bits is refused. -/
theorem wg_ginthash_addkey_fails_iff_witness :
    ∃ t0 t rc t', wg_ginthash_init (fun _ => zero_bucket) = some t0 ∧
      addkeys t0 [(1, 10), (2146851, 20), (3104239, 30)] = some t ∧
      wg_ginthash_addkey t 4228165 40 = some (rc, t') ∧
      (rc = -1 ↔ 3 ≤ [((1 : Int), (10 : Int)), (2146851, 20), (3104239, 30)].countP
        (fun kv => decide (rehash_gint kv.1 % 2 ^ 23 = rehash_gint 4228165 % 2 ^ 23))) := by
  have h : ((wg_ginthash_init fun _ => zero_bucket).bind fun t0 =>
      addkeys t0 [(1, 10), (2146851, 20), (3104239, 30)]).isSome = true := by decide!
  obtain ⟨t, ht⟩ := Option.isSome_iff_exists.mp h
  obtain ⟨t0, h0, h1⟩ := Option.bind_eq_some.mp ht
  obtain ⟨rc, t', e1, _, e3, _⟩ :=
    (wg_ginthash_addkey_fails_iff _ t0 h0).1 _ t h1 4228165 40
  exact ⟨t0, t, rc, t', h0, h1, e1, e3⟩

/-- The example table satisfies the directory invariant. -/
theorem tbl_split_demo_wf : tbl_wf tbl_split_demo := by
  refine ⟨by decide, by decide, ?_⟩
  intro i p hi hd
  have hi2 : i < 2 := hi
  have hi0 : i = 0 := by
    by_contra hne
    have : tbl_split_demo.directory i = none := if_neg hne
    rw [this] at hd
    exact absurd hd (by simp)
  subst hi0
  have hp : p = (1, 0) := (Option.some.inj hd).symm
  subst hp
  refine ⟨Or.inr ⟨rfl, by decide⟩, le_refl _, ?_, ?_⟩
  · intro j hj
    have hj2 : j < 2 := hj
    interval_cases j
    · decide
    · decide
  · decide!

/-- Witness for C16: the split of the example bucket returns the sibling `(1, 1)`;
the pairs with keys 0 and 4 stay, in their order. -/
theorem ginthash_splitbucket_spec_witness :
    (ginthash_splitbucket tbl_split_demo (1, 0)).1 = some (1, 1) ∧
    ((ginthash_splitbucket tbl_split_demo (1, 0)).2.buckets (1, 0)).level = 2 ∧
    entries ((ginthash_splitbucket tbl_split_demo (1, 0)).2.buckets (1, 0)) =
      (entries (tbl_split_demo.buckets (1, 0))).filter (fun kv => !entry_bit 1 kv) :=
  have h1 : (ginthash_splitbucket tbl_split_demo (1, 0)).1 = some (1, 1) := by decide!
  have hw := ginthash_splitbucket_spec tbl_split_demo
    (ginthash_splitbucket tbl_split_demo (1, 0)).2 (1, 0) (1, 1) 0 tbl_split_demo_wf
    (by decide) (by decide) (by decide) (Prod.ext h1 rfl)
  ⟨h1, hw.2.1, hw.2.2.2.2.2.2.1⟩

/-- The state that a refused insertion leaves, for a table holding the pairs `done`. -/
theorem addkey_failure (t t' : ext_ginthash) (done : List (Int × Int)) (k v : Int)
    (hinv : inserted_inv t done) (hfail : wg_ginthash_addkey t k v = some (-1, t')) :
    t'.level + 1 = GINTHASH_MAXLEVEL ∧ tbl_wf t' ∧
    (∀ k' v', stored t' k' v' ↔ (stored t k' v' ∨ (k' = k ∧ v' = v))) ∧
    (∃ p', t'.directory (GINTHASH_SCRAMBLE k % 2 ^ t'.level) = some p' ∧
      (t'.buckets p').fill = GINTHASH_BUCKETCAP + 1 ∧ (k, v) ∈ entries (t'.buckets p')) := by
  obtain ⟨h1, h2, h3, h4⟩ := hinv
  obtain ⟨rc, t'', e1, _, e3, _, e5⟩ := addkey_master t (reach_inv_of_inv t h1 h2) k v
  rw [hfail] at e1
  obtain ⟨hrc, ht⟩ := Prod.mk.inj (Option.some.inj e1)
  subst hrc ht
  obtain ⟨g1, _, _, _, g5⟩ := e5 h1
  exact ⟨(g5 rfl).1, e3.1, g1, (g5 rfl).2⟩

/-! ## Extendible hash: failed growth, by the level ceiling or by an allocation -/

/-- With both allocations succeeding, `grow_ginthash_alloc` is `grow_ginthash`. -/
theorem grow_alloc_ok (alloc : Nat → Bool × Bool) (t : ext_ginthash)
    (h : alloc t.level = (true, true)) :
    grow_ginthash_alloc alloc t = grow_ginthash t := by
  unfold grow_ginthash_alloc grow_ginthash
  simp only [h, if_true]

/-- At the level ceiling `grow_ginthash_alloc` is `grow_ginthash`: no allocation is
attempted. -/
theorem grow_alloc_ceiling (alloc : Nat → Bool × Bool) (t : ext_ginthash)
    (h : t.level + 1 ≥ GINTHASH_MAXLEVEL) :
    grow_ginthash_alloc alloc t = grow_ginthash t := by
  unfold grow_ginthash_alloc grow_ginthash
  simp only []
  rw [if_pos h, if_pos h]

/-- Below the ceiling, a failing allocation makes `grow_ginthash_alloc` return -1 with
the level, the buckets and the pool counters unchanged and with the directory
unchanged below its size. -/
theorem grow_alloc_fail (alloc : Nat → Bool × Bool) (t : ext_ginthash)
    (hl : 1 ≤ t.level) (hlt : t.level + 1 < GINTHASH_MAXLEVEL)
    (h : alloc t.level ≠ (true, true)) :
    ∃ D, grow_ginthash_alloc alloc t = (-1, { t with directory := D }) ∧
      ∀ j, j < 2 ^ t.level → D j = t.directory j := by
  unfold grow_ginthash_alloc
  simp only []
  rw [if_neg (by omega)]
  by_cases hre : (alloc t.level).1 = true
  · rw [if_pos hre]
    have hma : ¬ (alloc t.level).2 = true := by
      intro hc
      exact h (Prod.ext hre hc)
    rw [if_neg hma, if_pos (by omega)]
    refine ⟨_, rfl, ?_⟩
    intro j hj
    unfold grow_copy
    rw [Nat.one_shiftLeft, if_neg (by omega)]
  · rw [if_neg hre]
    exact ⟨t.directory, rfl, fun _ _ => rfl⟩

/-- One call of `ginthash_splitbucket_alloc`: it is the call of `ginthash_splitbucket`,
unless the bucket is at the global level, below the ceiling, and an allocation fails;
then it returns `NULL` with the table unchanged up to the directory beyond its size. -/
theorem splitbucket_alloc_cases (alloc : Nat → Bool × Bool) (t : ext_ginthash)
    (cur : bucket_ptr) (hl : 1 ≤ t.level) :
    ginthash_splitbucket_alloc alloc t cur = ginthash_splitbucket t cur ∨
    ((t.buckets cur).level = t.level ∧ t.level + 1 < GINTHASH_MAXLEVEL ∧
      alloc t.level ≠ (true, true) ∧
      ∃ D, ginthash_splitbucket_alloc alloc t cur = (none, { t with directory := D }) ∧
        ∀ j, j < 2 ^ t.level → D j = t.directory j) := by
  by_cases hlev : (t.buckets cur).level = t.level
  · by_cases hceil : t.level + 1 ≥ GINTHASH_MAXLEVEL
    · left
      unfold ginthash_splitbucket_alloc ginthash_splitbucket
      rw [grow_alloc_ceiling alloc t hceil]
    · by_cases hok : alloc t.level = (true, true)
      · left
        unfold ginthash_splitbucket_alloc ginthash_splitbucket
        rw [grow_alloc_ok alloc t hok]
      · right
        obtain ⟨D, hD, hagree⟩ := grow_alloc_fail alloc t hl (by omega) hok
        refine ⟨hlev, by omega, hok, D, ?_, hagree⟩
        unfold ginthash_splitbucket_alloc
        simp only [hlev, if_true, hD]
        rfl
  · left
    unfold ginthash_splitbucket_alloc ginthash_splitbucket
    simp only [hlev, if_false]

/-- A table that differs only in the directory beyond its size satisfies the same
invariants, references the same buckets and stores the same pairs. -/
theorem dir_congr (t : ext_ginthash) (D : Nat → Option bucket_ptr)
    (hagree : ∀ j, j < 2 ^ t.level → D j = t.directory j) :
    (tbl_wf t → tbl_wf { t with directory := D }) ∧
    (pool_inv t → pool_inv { t with directory := D }) ∧
    (∀ p, referenced { t with directory := D } p ↔ referenced t p) ∧
    (∀ k v, stored { t with directory := D } k v ↔ stored t k v) := by
  have href : ∀ p, referenced { t with directory := D } p ↔ referenced t p := by
    intro p
    constructor
    · rintro ⟨i, hi, hd⟩
      exact ⟨i, hi, by rw [← hagree i hi]; exact hd⟩
    · rintro ⟨i, hi, hd⟩
      exact ⟨i, hi, by show D i = some p; rw [hagree i hi]; exact hd⟩
  refine ⟨?_, ?_, href, ?_⟩
  · rintro ⟨h1, h2, h3⟩
    refine ⟨h1, h2, ?_⟩
    intro i p hi hd
    have hi' : i < 2 ^ t.level := hi
    have hd' : D i = some p := hd
    rw [hagree i hi'] at hd'
    obtain ⟨s1, s2, s3, s4⟩ := h3 i p hi' hd'
    refine ⟨s1, s2, ?_, s4⟩
    intro j hj
    have hj' : j < 2 ^ t.level := hj
    show D j = some p ↔ _
    rw [hagree j hj']
    exact s3 j hj'
  · rintro ⟨h1, h2, h3, H, hcard, hH⟩
    exact ⟨h1, h2, h3, H, hcard, fun p hp => (href p).mpr (hH p hp)⟩
  · intro k v
    constructor
    · rintro ⟨i, p, hi, hd, hmem⟩
      exact ⟨i, p, hi, by rw [← hagree i hi]; exact hd, hmem⟩
    · rintro ⟨i, p, hi, hd, hmem⟩
      exact ⟨i, p, hi, by show D i = some p; rw [hagree i hi]; exact hd, hmem⟩

/-- With all allocations succeeding, `ginthash_splitbucket_alloc` is
`ginthash_splitbucket`. -/
theorem splitbucket_alloc_ok (alloc : Nat → Bool × Bool)
    (hok : ∀ L, alloc L = (true, true)) (t : ext_ginthash) (cur : bucket_ptr) :
    ginthash_splitbucket_alloc alloc t cur = ginthash_splitbucket t cur := by
  unfold ginthash_splitbucket_alloc ginthash_splitbucket
  rw [grow_alloc_ok alloc t (hok _)]

/-- With all allocations succeeding, `addkey_loop_alloc` is `addkey_loop`. -/
theorem addkey_loop_alloc_ok (alloc : Nat → Bool × Bool)
    (hok : ∀ L, alloc L = (true, true)) :
    ∀ (fuel : Nat) (t : ext_ginthash) (cur : bucket_ptr),
      addkey_loop_alloc alloc fuel t cur = addkey_loop fuel t cur := by
  intro fuel
  induction fuel with
  | zero => intro t cur; rfl
  | succ fuel ih =>
    intro t cur
    unfold addkey_loop_alloc addkey_loop
    rw [splitbucket_alloc_ok alloc hok]
    simp only [ih]

/-- With all allocations succeeding, `wg_ginthash_addkey_alloc` is
`wg_ginthash_addkey`. -/
theorem wg_ginthash_addkey_alloc_ok (alloc : Nat → Bool × Bool)
    (hok : ∀ L, alloc L = (true, true)) (t : ext_ginthash) (k v : Int) :
    wg_ginthash_addkey_alloc alloc t k v = wg_ginthash_addkey t k v := by
  unfold wg_ginthash_addkey_alloc wg_ginthash_addkey
  simp only [addkey_loop_alloc_ok alloc hok]

/-- The split loop of `wg_ginthash_addkey` with failing allocations: it returns within
`GINTHASH_MAXLEVEL` loop tests, with status 0 or -1; the directory invariant and the
pool invariant hold afterwards and the same pairs are stored; with status 0 the run is
that of `addkey_loop`; with status -1 the current bucket was overfull, growth failed at
the level ceiling or by an allocation, and the table is left with an overfull bucket at
the global level holding the entries of the current bucket. -/
theorem addkey_loop_alloc_master (alloc : Nat → Bool × Bool) :
    ∀ (fuel : Nat) (t : ext_ginthash) (cur : bucket_ptr),
    loop_inv t cur → GINTHASH_MAXLEVEL ≤ fuel + (t.buckets cur).level →
    ∃ rc t', addkey_loop_alloc alloc fuel t cur = some (rc, t') ∧ (rc = 0 ∨ rc = -1) ∧
      tbl_wf t' ∧ pool_inv t' ∧
      (∀ k v, stored t' k v ↔ stored t k v) ∧
      t.level ≤ t'.level ∧
      (rc = 0 → addkey_loop fuel t cur = some (0, t')) ∧
      (rc = -1 → (t.buckets cur).fill > GINTHASH_BUCKETCAP ∧
        (t'.level + 1 = GINTHASH_MAXLEVEL ∨ alloc t'.level ≠ (true, true)) ∧
        ∃ p, referenced t' p ∧ (t'.buckets p).fill = GINTHASH_BUCKETCAP + 1 ∧
          (t'.buckets p).level = t'.level ∧
          ∀ kv, kv ∈ entries (t'.buckets p) ↔ kv ∈ entries (t.buckets cur)) := by
  intro fuel
  induction fuel with
  | zero =>
    intro t cur hinv hfuel
    obtain ⟨i0, hi0, hd0⟩ := hinv.2.2.1
    have hle : (t.buckets cur).level ≤ t.level := (hinv.1.2.2 i0 cur hi0 hd0).2.1
    have := hinv.1.2.1
    omega
  | succ fuel ih =>
    intro t cur hinv hfuel
    have hwf := hinv.1
    have hfw := hinv.2.2.2
    obtain ⟨i0, hi0, hd0⟩ := hinv.2.2.1
    by_cases hover : (t.buckets cur).fill > GINTHASH_BUCKETCAP
    · have hfull : (t.buckets cur).fill = GINTHASH_BUCKETCAP + 1 := by
        rcases hfw cur hinv.2.2.1 with h | h
        · omega
        · exact h.1
      rcases splitbucket_alloc_cases alloc t cur hwf.1 with heq |
        ⟨hlev, hlt, hbad, D, hD, hagree⟩
      · rcases splitbucket_step t cur hinv hover with ⟨h1, h2, h3, _⟩ |
          ⟨h1, _, nb, t1, hs, q1, q2, q3, _, q5, _⟩
        · refine ⟨-1, t, ?_, Or.inr rfl, hwf, hinv.2.1, fun _ _ => Iff.rfl, le_refl _,
            fun h => absurd h (by decide), fun _ => ⟨hover, Or.inl h2, cur, hinv.2.2.1, hfull,
              by omega, fun _ => Iff.rfl⟩⟩
          unfold addkey_loop_alloc
          rw [if_pos hover, heq, h3]
        · obtain ⟨rc, t', r1, r2, r3, r4, r5, r6, r7, r8⟩ :=
            ih t1 _ q1 (by rw [q2]; omega)
          have hlvl : t.level ≤ t1.level := by
            obtain ⟨t1', _, _, _, _, _, _, hle, _, _, _, _, _, _, hrel, _⟩ :=
              splitbucket_rel t t1 cur nb i0 hwf hfull hi0 hd0 hs
            rw [hrel.2.1]
            exact hle
          refine ⟨rc, t', ?_, r2, r3, r4, fun k v => (r5 k v).trans (q3 k v),
            le_trans hlvl r6, ?_, ?_⟩
          · unfold addkey_loop_alloc
            rw [if_pos hover, heq, hs]
            exact r1
          · intro hrc
            unfold addkey_loop
            rw [if_pos hover, hs]
            exact r7 hrc
          · intro hrc
            obtain ⟨g1, g2, p, g3, g4, g5, g6⟩ := r8 hrc
            exact ⟨hover, g2, p, g3, g4, g5, fun kv => (g6 kv).trans (q5 g1 kv)⟩
      · obtain ⟨c1, c2, c3, c4⟩ := dir_congr t D hagree
        refine ⟨-1, { t with directory := D }, ?_, Or.inr rfl, c1 hwf, c2 hinv.2.1, c4,
          le_refl _, fun h => absurd h (by decide), fun _ => ⟨hover, Or.inr hbad, cur,
            (c3 cur).mpr hinv.2.2.1, hfull, hlev, fun _ => Iff.rfl⟩⟩
        unfold addkey_loop_alloc
        rw [if_pos hover, hD]
    · refine ⟨0, t, ?_, Or.inl rfl, hwf, hinv.2.1, fun _ _ => Iff.rfl, le_refl _, ?_,
        fun h => absurd h (by decide)⟩
      · unfold addkey_loop_alloc
        rw [if_neg hover]
      · intro _
        unfold addkey_loop
        rw [if_neg hover]

/-- One call of `wg_ginthash_addkey` with failing allocations on a table within
capacity: it returns with status 0 or -1; the directory invariant and the pool
invariant hold afterwards and exactly the new pair is stored in addition; with status
0 the call is that of `wg_ginthash_addkey`; with status -1 growth failed at the level
ceiling or by an allocation, the level has not decreased, and the pair sits in the
bucket of its slot, which is overfull and at the global level. -/
theorem addkey_alloc_master (alloc : Nat → Bool × Bool) (t : ext_ginthash)
    (hinv : tbl_inv t) (hpool : pool_inv t) (k v : Int) :
    ∃ rc t', wg_ginthash_addkey_alloc alloc t k v = some (rc, t') ∧ (rc = 0 ∨ rc = -1) ∧
      tbl_wf t' ∧ pool_inv t' ∧
      (∀ k' v', stored t' k' v' ↔ (stored t k' v' ∨ (k' = k ∧ v' = v))) ∧
      (rc = 0 → wg_ginthash_addkey t k v = some (0, t')) ∧
      (rc = -1 → t.level ≤ t'.level ∧
        (t'.level + 1 = GINTHASH_MAXLEVEL ∨ alloc t'.level ≠ (true, true)) ∧
        ∃ p', t'.directory (GINTHASH_SCRAMBLE k % 2 ^ t'.level) = some p' ∧
          (t'.buckets p').fill = GINTHASH_BUCKETCAP + 1 ∧
          (t'.buckets p').level = t'.level ∧
          (k, v) ∈ entries (t'.buckets p')) := by
  have hreach := reach_inv_of_inv t hinv hpool
  have hlt : GINTHASH_SCRAMBLE k % 2 ^ t.level < 2 ^ t.level :=
    Nat.mod_lt _ (Nat.two_pow_pos _)
  cases hd : t.directory (GINTHASH_SCRAMBLE k % 2 ^ t.level) with
  | none =>
    obtain ⟨_, t', h1, h2, h3, _⟩ := addkey_fresh t hreach k v hd
    have heq : wg_ginthash_addkey_alloc alloc t k v = wg_ginthash_addkey t k v := by
      unfold wg_ginthash_addkey_alloc wg_ginthash_addkey
      simp only [addkey_hash, hd]
    exact ⟨0, t', by rw [heq]; exact h1, Or.inl rfl, h2.1, h2.2.1, h3, fun _ => h1,
      fun h => absurd h (by decide)⟩
  | some p =>
    have hloop := add_entry_loop_inv t hreach k v p hd
    obtain ⟨ta, hta⟩ : ∃ ta : ext_ginthash,
        { t with buckets := (add_to_bucket t.buckets p k v).1 } = ta := ⟨_, rfl⟩
    rw [hta] at hloop
    have hlvl : ta.level = t.level := by rw [← hta]
    have hcall : wg_ginthash_addkey_alloc alloc t k v =
        addkey_loop_alloc alloc GINTHASH_MAXLEVEL ta p := by
      unfold wg_ginthash_addkey_alloc
      simp only [addkey_hash, hd]
      rw [← hta]
    have hcall0 : wg_ginthash_addkey t k v = addkey_loop GINTHASH_MAXLEVEL ta p := by
      unfold wg_ginthash_addkey
      simp only [addkey_hash, hd]
      rw [← hta]
    obtain ⟨e1, _, e3, _⟩ := add_entry_effect t hinv.1 k v p hd (hinv.2 _ p hlt hd) ta hta
    obtain ⟨rc, t', r1, r2, r3, r4, r5, r6, r7, r8⟩ :=
      addkey_loop_alloc_master alloc GINTHASH_MAXLEVEL ta p hloop (Nat.le_add_right _ _)
    refine ⟨rc, t', by rw [hcall]; exact r1, r2, r3, r4,
      fun k' v' => (r5 k' v').trans (e3 k' v'), fun h => by rw [hcall0]; exact r7 h, ?_⟩
    intro hrc
    obtain ⟨_, g2, p', ⟨i, hi, hdi⟩, g4, g5, g6⟩ := r8 hrc
    have hmem : (k, v) ∈ entries (t'.buckets p') :=
      (g6 (k, v)).mpr (by rw [e1]; exact List.mem_append_right _ (List.mem_singleton.mpr rfl))
    exact ⟨by rw [← hlvl]; exact r6, g2, p', stored_slot t' r3 i p' (k, v) hi hdi hmem, g4, g5,
      hmem⟩

/-- C12. Capacity ceiling without data loss.  On the table reached from
`wg_ginthash_init` by the calls for the pairs `kvs`, all returning 0, let
`wg_ginthash_addkey(t, kf, vf)` return -1 with the table at the maximum level
`GINTHASH_MAXLEVEL - 1` (the directory would have to grow past it), the keys of all
these calls being pairwise distinct.  Then every pair `(k, v)` inserted before is still
found: `wg_ginthash_getkey` returns 0 and the value `v`. -/
theorem wg_ginthash_getkey_after_failure (heap : bucket_ptr → ginthash_bucket)
    (t0 t t' : ext_ginthash) (kvs : List (Int × Int))
    (hinit : wg_ginthash_init heap = some t0) (hdistinct : (kvs.map Prod.fst).Nodup)
    (hadd : addkeys t0 kvs = some t) (kf vf : Int) (hnew : kf ∉ kvs.map Prod.fst)
    (hfail : wg_ginthash_addkey t kf vf = some (-1, t'))
    (hceil : t'.level + 1 = GINTHASH_MAXLEVEL)
    (k v : Int) (hkv : (k, v) ∈ kvs) (val : Int) :
    wg_ginthash_getkey t' k val = (0, v) := by
  have hins := addkeys_inserted kvs [] t0 t (init_inserted heap t0 hinit) hadd
  rw [List.nil_append] at hins
  have hlevel : t'.level < GINTHASH_MAXLEVEL := by omega
  obtain ⟨_, f2, f3, _⟩ := addkey_failure t t' kvs kf vf hins hfail
  have hne : k ≠ kf := by
    intro hc
    exact hnew (hc ▸ List.mem_map.mpr ⟨(k, v), hkv, rfl⟩)
  rcases getkey_spec t' f2 k val with ⟨v', h1, h2⟩ | ⟨_, h2⟩
  · rcases (f3 k v').mp h2 with h3 | h3
    · have hmem := (hins.2.2.1 k v').mp h3
      have hinj := List.inj_on_of_nodup_map hdistinct hmem hkv rfl
      rw [h1, (Prod.mk.inj hinj).2]
    · exact absurd h3.1 hne
  · exact absurd ((f3 k v).mpr (Or.inl ((hins.2.2.1 k v).mpr hkv))) (h2 v)

/-- Witness for C12: the keys 1, 2146851, 3104239 and 4228165 have scrambled values
that agree on the low 23 bits; the fourth insertion is refused at level 23 and the pair
(1, 10) is still found. -/
theorem wg_ginthash_getkey_after_failure_witness :
    ∃ t0 t t', wg_ginthash_init (fun _ => zero_bucket) = some t0 ∧
      addkeys t0 [(1, 10), (2146851, 20), (3104239, 30)] = some t ∧
      wg_ginthash_addkey t 4228165 40 = some (-1, t') ∧
      t'.level + 1 = GINTHASH_MAXLEVEL ∧
      wg_ginthash_getkey t' 1 0 = (0, 10) := by
  have h : ((wg_ginthash_init fun _ => zero_bucket).bind fun t0 =>
      (addkeys t0 [(1, 10), (2146851, 20), (3104239, 30)]).bind fun t =>
        (wg_ginthash_addkey t 4228165 40).bind fun r =>
          if r.1 = -1 ∧ r.2.level + 1 = GINTHASH_MAXLEVEL then some (t0, t, r.2)
          else none).isSome = true := by decide!
  obtain ⟨x, hx⟩ := Option.isSome_iff_exists.mp h
  obtain ⟨t0, h0, h1⟩ := Option.bind_eq_some.mp hx
  obtain ⟨t, h2, h3⟩ := Option.bind_eq_some.mp h1
  obtain ⟨r, h4, h5⟩ := Option.bind_eq_some.mp h3
  have hr : r.1 = -1 ∧ r.2.level + 1 = GINTHASH_MAXLEVEL := by
    by_contra hc
    rw [if_neg hc] at h5
    exact absurd h5 (by simp)
  have hfail : wg_ginthash_addkey t 4228165 40 = some (-1, r.2) := by
    rw [h4, ← hr.1]
  exact ⟨t0, t, r.2, h0, h2, hfail, hr.2,
    wg_ginthash_getkey_after_failure _ t0 t r.2 _ h0 (by decide) h2 4228165 40 (by decide)
      hfail hr.2 1 10 (by decide) 0⟩

/-- The key of the refused call must be a new one: on a fresh table the pairs (2, 10),
(2146852, 20) and (3104240, 30) are inserted (scrambled values agreeing on the low 23
bits); the insertion of (2, 99), whose key is already stored, returns -1, having moved
the four entries of the bucket an odd number of times, each move reversing their order;
afterwards the lookup of the key 2 returns the value 99 of the refused call. -/
theorem refused_duplicate_key_shadows :
    ((wg_ginthash_init fun _ => zero_bucket).bind fun t0 =>
      (addkeys t0 [(2, 10), (2146852, 20), (3104240, 30)]).bind fun t =>
        (wg_ginthash_addkey t 2 99).map fun r =>
          [(wg_ginthash_getkey t 2 0).1, (wg_ginthash_getkey t 2 0).2, r.1,
            (wg_ginthash_getkey r.2 2 0).1, (wg_ginthash_getkey r.2 2 0).2]) =
      some [0, 10, -1, 0, 99] := by
  decide!

/-- C13 (amended).  On the table reached from `wg_ginthash_init` by calls that all
returned 0, let `wg_ginthash_addkey(t, k, v)` return -1, with any outcomes `alloc` of
the allocations.  The table is not in the state before the call.  Its level has not
decreased and is below `GINTHASH_MAXLEVEL`; growth failed at the level ceiling
(level `GINTHASH_MAXLEVEL - 1`) or by an allocation at the level the table is left at,
and at the ceiling if every allocation succeeds.  The directory invariant holds; the
pairs stored are those stored before and the pair `(k, v)` of the refused call, which
sits in the bucket of its slot, whose fill is `GINTHASH_BUCKETCAP + 1` and whose local
level is the global level; and `wg_ginthash_getkey` finds the key `k`. -/
theorem wg_ginthash_addkey_failure_state (heap : bucket_ptr → ginthash_bucket)
    (t0 t t' : ext_ginthash) (kvs : List (Int × Int))
    (hinit : wg_ginthash_init heap = some t0) (hadd : addkeys t0 kvs = some t)
    (alloc : Nat → Bool × Bool) (k v : Int)
    (hfail : wg_ginthash_addkey_alloc alloc t k v = some (-1, t')) :
    t' ≠ t ∧ t.level ≤ t'.level ∧ t'.level < GINTHASH_MAXLEVEL ∧
    (t'.level + 1 = GINTHASH_MAXLEVEL ∨ alloc t'.level ≠ (true, true)) ∧
    ((∀ L, alloc L = (true, true)) → t'.level + 1 = GINTHASH_MAXLEVEL) ∧
    tbl_wf t' ∧
    (∀ k' v', stored t' k' v' ↔ (stored t k' v' ∨ (k' = k ∧ v' = v))) ∧
    (∃ p', t'.directory (GINTHASH_SCRAMBLE k % 2 ^ t'.level) = some p' ∧
      (t'.buckets p').fill = GINTHASH_BUCKETCAP + 1 ∧
      (t'.buckets p').level = t'.level ∧ (k, v) ∈ entries (t'.buckets p')) ∧
    (∀ val, (wg_ginthash_getkey t' k val).1 = 0) := by
  have hins := addkeys_inserted kvs [] t0 t (init_inserted heap t0 hinit) hadd
  obtain ⟨rc, t'', e1, _, e3, _, e5, _, e7⟩ :=
    addkey_alloc_master alloc t hins.1 hins.2.1 k v
  rw [hfail] at e1
  obtain ⟨hrc, ht⟩ := Prod.mk.inj (Option.some.inj e1)
  subst hrc ht
  obtain ⟨g1, g2, p', g3, g4, g5, g6⟩ := e7 rfl
  refine ⟨?_, g1, e3.2.1, g2, ?_, e3, e5, ⟨p', g3, g4, g5, g6⟩, ?_⟩
  · intro hc
    rw [hc] at g3 g4
    have := hins.1.2 _ p' (Nat.mod_lt _ (Nat.two_pow_pos _)) g3
    omega
  · intro hok
    rcases g2 with h | h
    · exact h
    · exact absurd (hok _) h
  · intro val
    rcases getkey_spec t' e3 k val with ⟨v', h1, _⟩ | ⟨_, h2⟩
    · rw [h1]
    · exact absurd ((e5 k v).mpr (Or.inr ⟨rfl, rfl⟩)) (h2 v)

/-- Witness for C13 (amended): the keys 0, 2 and 4 fill the bucket of slot 0 at level
1; the insertion of the key 6 needs the directory to grow and `realloc` fails. -/
theorem wg_ginthash_addkey_failure_state_witness :
    ∃ t0 t t', wg_ginthash_init (fun _ => zero_bucket) = some t0 ∧
      addkeys t0 [(0, 10), (2, 11), (4, 12)] = some t ∧
      wg_ginthash_addkey_alloc (fun _ => (false, false)) t 6 13 = some (-1, t') ∧
      t' ≠ t ∧ stored t' 6 13 ∧ (∀ val, (wg_ginthash_getkey t' 6 val).1 = 0) := by
  have h : ((wg_ginthash_init fun _ => zero_bucket).bind fun t0 =>
      (addkeys t0 [(0, 10), (2, 11), (4, 12)]).bind fun t =>
        (wg_ginthash_addkey_alloc (fun _ => (false, false)) t 6 13).bind fun r =>
          if r.1 = -1 then some (t0, t, r.2) else none).isSome = true := by decide!
  obtain ⟨x, hx⟩ := Option.isSome_iff_exists.mp h
  obtain ⟨t0, h0, h1⟩ := Option.bind_eq_some.mp hx
  obtain ⟨t, h2, h3⟩ := Option.bind_eq_some.mp h1
  obtain ⟨r, h4, h5⟩ := Option.bind_eq_some.mp h3
  have hr : r.1 = -1 := by
    by_contra hc
    rw [if_neg hc] at h5
    exact absurd h5 (by simp)
  have hfail : wg_ginthash_addkey_alloc (fun _ => (false, false)) t 6 13 =
      some (-1, r.2) := by
    rw [h4, ← hr]
  have hw := wg_ginthash_addkey_failure_state _ t0 t r.2 _ h0 h2 (fun _ => (false, false))
    6 13 hfail
  exact ⟨t0, t, r.2, h0, h2, hfail, hw.1,
    (hw.2.2.2.2.2.2.1 _ _).mpr (Or.inr ⟨rfl, rfl⟩), hw.2.2.2.2.2.2.2.2⟩

/-- Counterexample to C13 as stated, for both causes of a failed growth.  Level
ceiling: after the keys 1, 2146851 and 3104239 (level 1, the key 4228165 not found)
the insertion of (4228165, 40) returns -1, and afterwards the level is 23 and the key
4228165 is found with the value 40.  Failed allocation: after the keys 0, 2 and 4
(level 1, bucket `(1, 0)` with fill 3, the key 6 not found) the insertion of (6, 13)
with `realloc` failing returns -1, and afterwards the fill of the bucket is 4 and the
key 6 is found with the value 13; the same with `malloc` failing.  In each case the
table has changed and the key of the failed call is stored. -/
theorem wg_ginthash_addkey_failure_counterexample :
    ((wg_ginthash_init fun _ => zero_bucket).bind fun t0 =>
      (addkeys t0 [(1, 10), (2146851, 20), (3104239, 30)]).bind fun t =>
        (wg_ginthash_addkey t 4228165 40).map fun r =>
          [(t.level : Int), (wg_ginthash_getkey t 4228165 0).1, r.1, (r.2.level : Int),
            (wg_ginthash_getkey r.2 4228165 0).1, (wg_ginthash_getkey r.2 4228165 0).2]) =
      some [1, -1, -1, 23, 0, 40] ∧
    ((wg_ginthash_init fun _ => zero_bucket).bind fun t0 =>
      (addkeys t0 [(0, 10), (2, 11), (4, 12)]).bind fun t =>
        (wg_ginthash_addkey_alloc (fun _ => (false, false)) t 6 13).map fun r =>
          [(t.level : Int), ((t.buckets (1, 0)).fill : Int), (wg_ginthash_getkey t 6 0).1,
            r.1, (r.2.level : Int), ((r.2.buckets (1, 0)).fill : Int),
            (wg_ginthash_getkey r.2 6 0).1, (wg_ginthash_getkey r.2 6 0).2]) =
      some [1, 3, -1, -1, 1, 4, 0, 13] ∧
    ((wg_ginthash_init fun _ => zero_bucket).bind fun t0 =>
      (addkeys t0 [(0, 10), (2, 11), (4, 12)]).bind fun t =>
        (wg_ginthash_addkey_alloc (fun _ => (true, false)) t 6 13).map fun r =>
          [(t.level : Int), ((t.buckets (1, 0)).fill : Int), (wg_ginthash_getkey t 6 0).1,
            r.1, (r.2.level : Int), ((r.2.buckets (1, 0)).fill : Int),
            (wg_ginthash_getkey r.2 6 0).1, (wg_ginthash_getkey r.2 6 0).2]) =
      some [1, 3, -1, -1, 1, 4, 0, 13] := by
  decide!

/-! ## Extendible hash: the overflow branch of `add_to_bucket` -/

/-- C18, failing input.  On a fresh table the keys 1, 2146851, 3104239 and 4228165 are
inserted (statuses 0, 0, 0, -1).  In the next call, for the key 5185297, the bucket
that `wg_ginthash_addkey` reads from the directory has fill 4 when `add_to_bucket` is
entered: `add_to_bucket` takes the branch for `fill > GINTHASH_BUCKETCAP`, returns 5
and stores nothing (the fill stays 4); the call returns -1 and the key is not found
afterwards. -/
theorem add_to_bucket_overflow_reached :
    ((wg_ginthash_init fun _ => zero_bucket).bind fun t0 =>
      (addkeys_any t0 [(1, 10), (2146851, 20), (3104239, 30), (4228165, 40)]).bind fun r =>
        (r.2.directory (GINTHASH_SCRAMBLE 5185297 &&& (1 <<< r.2.level - 1))).bind fun b =>
          (wg_ginthash_addkey r.2 5185297 50).map fun q =>
            (r.1, [(r.2.buckets b).fill, (add_to_bucket r.2.buckets b 5185297 50).2,
              ((add_to_bucket r.2.buckets b 5185297 50).1 b).fill], q.1,
              (wg_ginthash_getkey q.2 5185297 0).1)) =
      some ([0, 0, 0, -1], [4, 5, 4], -1, -1) := by
  decide!

/-! ## Extendible hash: the scale scenario -/

/-- One round of `rehash_gint` on a non-negative key, on the unsigned residues. -/
theorem rehash_step_nat (hash : Int) (k i : Nat) :
    to_size_t (rehash_step hash (gint_byte (k : Int) i)) =
      nat_rehash_step (to_size_t hash) (nat_byte k i) := by
  have hq : (k : Int) / 256 ^ i = ((k / 256 ^ i : Nat) : Int) := by
    push_cast; rfl
  unfold rehash_step gint_byte signed_char wrap_gint to_size_t nat_rehash_step nat_byte
  rw [hq]
  generalize k / 256 ^ i = q
  split_ifs <;> omega

/-- The loop of `rehash_gint` on a non-negative key, on the unsigned residues. -/
theorem rehash_loop_nat (k : Nat) : ∀ (n i : Nat) (hash : Int),
    to_size_t (rehash_loop (k : Int) i n hash) =
      nat_rehash_loop k i n (to_size_t hash) := by
  intro n
  induction n with
  | zero => intro i hash; rfl
  | succ n ih =>
    intro i hash
    unfold rehash_loop nat_rehash_loop
    rw [ih, rehash_step_nat]

/-- The scrambled value of a non-negative key, computed on the natural numbers. -/
theorem scramble_nat (k : Nat) :
    GINTHASH_SCRAMBLE (k : Int) = nat_rehash_loop k 0 sizeof_gint 0 := by
  unfold GINTHASH_SCRAMBLE rehash_gint
  rw [rehash_loop_nat]
  rfl

/-- A list that passes the bit-set check has no repetition. -/
theorem distinct_bits_nodup : ∀ (rs : List Nat) (seen : Nat),
    distinct_bits rs seen = true → rs.Nodup ∧ ∀ r ∈ rs, seen.testBit r = false := by
  intro rs
  induction rs with
  | nil => intro seen _; exact ⟨List.nodup_nil, fun r h => absurd h (List.not_mem_nil r)⟩
  | cons r rs ih =>
    intro seen h
    unfold distinct_bits at h
    by_cases hb : seen.testBit r = true
    · rw [if_pos hb] at h; exact absurd h (by decide)
    · rw [if_neg hb] at h
      obtain ⟨h1, h2⟩ := ih _ h
      have hset : (seen ||| 1 <<< r).testBit r = true := by
        rw [Nat.testBit_or, Nat.one_shiftLeft, Nat.testBit_two_pow_self, Bool.or_true]
      refine ⟨List.nodup_cons.mpr ⟨?_, h1⟩, ?_⟩
      · intro hmem
        have := h2 r hmem
        rw [hset] at this
        exact absurd this (by decide)
      · intro x hx
        rcases List.mem_cons.mp hx with hx | hx
        · rw [hx]; simpa using hb
        · have := h2 x hx
          rw [Nat.testBit_or, Bool.or_eq_false_iff] at this
          exact this.1

/-- The scrambled keys `8 * 1, ..., 8 * 10000` are pairwise different on the low 17
bits. -/
theorem scale_residues_nodup : (scale_residues 10000).Nodup :=
  (distinct_bits_nodup (scale_residues 10000) 0 (by decide!)).1

/-- The scrambled keys of the scale scenario are pairwise different on the low
`GINTHASH_MAXLEVEL - 1` bits, whatever the values. -/
theorem scale_pairs_nodup (vals : Nat → Int) :
    ((scale_pairs vals 10000).map
      (fun kv => GINTHASH_SCRAMBLE kv.1 % 2 ^ (GINTHASH_MAXLEVEL - 1))).Nodup := by
  apply List.Nodup.of_map (fun r => r % 2 ^ 17)
  have heq : List.map (fun r => r % 2 ^ 17) ((scale_pairs vals 10000).map
      (fun kv => GINTHASH_SCRAMBLE kv.1 % 2 ^ (GINTHASH_MAXLEVEL - 1))) =
      scale_residues 10000 := by
    unfold scale_pairs scale_residues
    rw [List.map_map, List.map_map]
    apply List.map_congr_left
    intro i _
    have hk : (8 * ((i : Int) + 1)) = ((8 * (i + 1) : Nat) : Int) := by push_cast; ring
    simp only [Function.comp]
    rw [hk, scramble_nat]
    exact mod_mod_two_pow _ (by decide)
  rw [heq]
  exact scale_residues_nodup

/-- The keys of the scale scenario are pairwise different. -/
theorem scale_pairs_keys_nodup (vals : Nat → Int) (n : Nat) :
    ((scale_pairs vals n).map Prod.fst).Nodup := by
  unfold scale_pairs
  rw [List.map_map]
  apply List.Nodup.map_on _ (List.nodup_range n)
  intro a _ b _ hab
  simp only [Function.comp] at hab
  omega

/-- A sequence of calls that all return 0, as a sequence of calls with its list of
statuses. -/
theorem addkeys_any_of_addkeys : ∀ (kvs : List (Int × Int)) (t t' : ext_ginthash),
    addkeys t kvs = some t' →
    addkeys_any t kvs = some (List.replicate kvs.length 0, t') := by
  intro kvs
  induction kvs with
  | nil =>
    intro t t' h
    simp only [addkeys, Option.some.injEq] at h
    subst h
    rfl
  | cons kv kvs ih =>
    intro t t' h
    unfold addkeys at h
    split at h
    · rename_i rc t1 hadd
      by_cases hrc : rc = 0
      · rw [if_pos hrc] at h
        subst hrc
        unfold addkeys_any
        simp only [hadd, ih t1 t' h, List.length_cons, List.replicate_succ]
      · rw [if_neg hrc] at h; simp at h
    · simp at h

/-- C14. Scale scenario for aligned keys.  The 10,000 keys `8 * i`, `i = 1..10000`,
with any values, are inserted into the table of `wg_ginthash_init`: every
`wg_ginthash_addkey` call returns 0 (the list of statuses is 10,000 times 0);
afterwards the level is below `GINTHASH_MAXLEVEL`, every bucket that the directory
references has fill at most `GINTHASH_BUCKETCAP`, and each of the 10,000 keys is found
by `wg_ginthash_getkey` with its value. -/
theorem ginthash_scale_scenario (heap : bucket_ptr → ginthash_bucket)
    (t0 : ext_ginthash) (hinit : wg_ginthash_init heap = some t0) (vals : Nat → Int) :
    ∃ t, addkeys t0 (scale_pairs vals 10000) = some t ∧
      addkeys_any t0 (scale_pairs vals 10000) = some (List.replicate 10000 0, t) ∧
      t.level < GINTHASH_MAXLEVEL ∧
      (∀ i p, i < 2 ^ t.level → t.directory i = some p →
        (t.buckets p).fill ≤ GINTHASH_BUCKETCAP) ∧
      (∀ i : Nat, i < 10000 → ∀ val,
        wg_ginthash_getkey t (8 * ((i : Int) + 1)) val = (0, vals i)) := by
  obtain ⟨t, h1, h2⟩ := addkeys_nodup (scale_pairs vals 10000) [] t0
    (init_inserted heap t0 hinit) (by rw [List.nil_append]; exact scale_pairs_nodup vals)
  rw [List.nil_append] at h2
  obtain ⟨g1, _, g3, _⟩ := h2
  have hlen : (scale_pairs vals 10000).length = 10000 := by
    unfold scale_pairs
    rw [List.length_map, List.length_range]
  have hany := addkeys_any_of_addkeys (scale_pairs vals 10000) t0 t h1
  rw [hlen] at hany
  refine ⟨t, h1, hany, g1.1.2.1, g1.2, ?_⟩
  intro i hi val
  have hkv : (8 * ((i : Int) + 1), vals i) ∈ scale_pairs vals 10000 := by
    unfold scale_pairs
    exact List.mem_map.mpr ⟨i, List.mem_range.mpr hi, rfl⟩
  rcases getkey_spec t g1.1 (8 * ((i : Int) + 1)) val with ⟨v', e1, e2⟩ | ⟨_, e2⟩
  · have hmem := (g3 _ v').mp e2
    have hinj := List.inj_on_of_nodup_map (scale_pairs_keys_nodup vals 10000) hmem hkv rfl
    rw [e1, (Prod.mk.inj hinj).2]
  · exact absurd ((g3 _ _).mpr hkv) (e2 _)

/-- Witness for C14: the values `vals i = i`; the last key, 80000, is found with the
value 9999. -/
theorem ginthash_scale_scenario_witness :
    ∃ t0 t, wg_ginthash_init (fun _ => zero_bucket) = some t0 ∧
      addkeys t0 (scale_pairs (fun i => (i : Int)) 10000) = some t ∧
      wg_ginthash_getkey t 80000 0 = (0, 9999) := by
  have h : (wg_ginthash_init fun _ => zero_bucket).isSome = true := by decide
  obtain ⟨t0, h0⟩ := Option.isSome_iff_exists.mp h
  obtain ⟨t, e1, _, _, _, e4⟩ := ginthash_scale_scenario _ t0 h0 (fun i => (i : Int))
  exact ⟨t0, t, h0, e1, e4 9999 (by decide) 0⟩

end Dbhash
